import Mathlib

/-!
# treek: a shallow embedding of the evaluator, the pattern matcher and the expression parser

The definitions below follow `src/main/eval.go` and `src/main/parser.go` function by function.

Conventions of the embedding:

* a Go `panic` (explicit, or a run-time error such as an index out of range, a nil interface
  call, a negative `make` length or an integer division by zero) is the result `none`;
* a `float64` is its IEEE-754 binary64 bit pattern (`F64`); the functions of the Go standard
  library that the program calls on floats and strings (`strconv`, `strings`, `fmt` and the
  float arithmetic of the hardware) are the fields of a `GoLib` record that every definition takes
  as its first argument, so that each theorem holds for whatever these functions compute;
* a Go `map[string]Value` is an association list without a fixed meaning of its order: a `range`
  over the map visits the entries in list order, a lookup returns the first entry of a key, an
  assignment replaces that entry or appends a new one; a real map never holds a key twice
  (`Value.WF`);
* values are immutable: `clone` copies, and a slice shares nothing observable with its source;
* the evaluation stack is a list whose head is the top of the stack.
-/

namespace Treek

/-! ## float64 -/

/-- A `float64`, given by its 64 bits (sign, 11 bits of exponent, 52 bits of fraction). -/
structure F64 where
  bits : Nat
deriving DecidableEq

namespace F64

def sign (x : F64) : Nat := x.bits / 2 ^ 63 % 2

def expo (x : F64) : Nat := x.bits / 2 ^ 52 % 2 ^ 11

def frac (x : F64) : Nat := x.bits % 2 ^ 52

def isNaN (x : F64) : Bool := x.expo == 2047 && x.frac != 0

def isZero (x : F64) : Bool := x.expo == 0 && x.frac == 0

def zero : F64 := ⟨0⟩

def one : F64 := ⟨0x3FF0000000000000⟩

/-- Go's `x == y` on two `float64`: a NaN equals nothing, the two zeros are equal. -/
def eq (x y : F64) : Bool :=
  !x.isNaN && !y.isNaN && ((x.isZero && y.isZero) || x.bits % 2 ^ 64 == y.bits % 2 ^ 64)

/-- Go's `0 <= x` on a `float64`. -/
def nonneg (x : F64) : Bool := !x.isNaN && (x.sign == 0 || x.isZero)

/-- The magnitude of `math.Round(x)` for a finite `x`: the nearest integer, halves away from
zero. The value of `x` is `m * 2 ^ (e - 1075)` with `m` the significand and `e` the biased
exponent (1 for a subnormal). -/
def roundMag (x : F64) : Nat :=
  let m := if x.expo = 0 then x.frac else 2 ^ 52 + x.frac
  let e := if x.expo = 0 then 1 else x.expo
  if 1075 ≤ e then m * 2 ^ (e - 1075) else (2 * m + 2 ^ (1075 - e)) / 2 ^ (1076 - e)

def minInt64 : Int := -(2 ^ 63)

/-- The Go expression `int(math.Round(float64(x)))`. When the rounded value is a NaN, an infinity
or outside the range of `int` the language leaves the result to the implementation; the value
taken here is the one of the gc compiler on amd64, `-2^63`. -/
def roundInt (x : F64) : Int :=
  if x.expo = 2047 then minInt64
  else if x.sign = 0 then
    if x.roundMag < 2 ^ 63 then (x.roundMag : Int) else minInt64
  else
    if x.roundMag ≤ 2 ^ 63 then -(x.roundMag : Int) else minInt64

/-- The conversion `float64(n)` of a natural number, rounding to nearest, ties to even. -/
def ofNat (n : Nat) : F64 :=
  if n = 0 then ⟨0⟩
  else
    let e := Nat.log2 n
    if e ≤ 52 then ⟨(e + 1023) * 2 ^ 52 + (n * 2 ^ (52 - e) - 2 ^ 52)⟩
    else
      let q := n / 2 ^ (e - 52)
      let r := n % 2 ^ (e - 52)
      let up := if 2 * r > 2 ^ (e - 52) ∨ (2 * r = 2 ^ (e - 52) ∧ q % 2 = 1) then 1 else 0
      ⟨(e + 1023) * 2 ^ 52 + (q - 2 ^ 52) + up⟩

/-- The conversion `float64(i)` of an `int`. -/
def ofInt (i : Int) : F64 :=
  if 0 ≤ i then ofNat i.toNat else ⟨2 ^ 63 + (ofNat (-i).toNat).bits⟩

end F64

/-- The functions of the Go standard library and of the floating-point unit that the program
uses; none of them is part of the repository. -/
structure GoLib where
  /-- `strconv.FormatFloat(x, 'g', 10, 64)`. -/
  formatFloat : F64 → String
  /-- `strconv.ParseFloat(s, 64)`; `none` when the returned error is not nil. -/
  parseFloat : String → Option F64
  /-- `strings.Fields(s)`. -/
  fields : String → List String
  /-- `x + y` on `float64`. -/
  fadd : F64 → F64 → F64
  /-- `x - y` on `float64`. -/
  fsub : F64 → F64 → F64
  /-- `x * y` on `float64`. -/
  fmul : F64 → F64 → F64
  /-- `x / y` on `float64`. -/
  fdiv : F64 → F64 → F64
  /-- `fmt.Sprintf("%v", x)` for a `float64`. -/
  printFloat : F64 → String
  /-- `fmt.Sprintf("%q", s)` for a string. -/
  quote : String → String

/-! ## Values -/

inductive ValueType where
  | TypeNull
  | TypeBool
  | TypeNumber
  | TypeString
  | TypeArray
  | TypeMap
deriving DecidableEq

open ValueType

/-- The six variants of `Value`: `ValueNull`, `ValueBool`, `ValueNumber`, `ValueString`,
`ValueArray` and `ValueMap`. -/
inductive Value where
  | null
  | bool (b : Bool)
  | number (n : F64)
  | string (s : String)
  | array (els : List Value)
  | map (entries : List (String × Value))

/-- The Go expression `m[key]` with its `ok` flag. -/
def mapGet : List (String × Value) → String → Option Value
  | [], _ => none
  | (k, v) :: es, key => if k = key then some v else mapGet es key

/-- The Go statement `m[key] = val`. -/
def mapSet : List (String × Value) → String → Value → List (String × Value)
  | [], key, val => [(key, val)]
  | (k, v) :: es, key, val => if k = key then (key, val) :: es else (k, v) :: mapSet es key val

/-- The Go statement `delete(m, key)`. -/
def mapDelete : List (String × Value) → String → List (String × Value)
  | [], _ => []
  | (k, v) :: es, key => if k = key then mapDelete es key else (k, v) :: mapDelete es key

def Value.typ : Value → ValueType
  | .null => TypeNull
  | .bool _ => TypeBool
  | .number _ => TypeNumber
  | .string _ => TypeString
  | .array _ => TypeArray
  | .map _ => TypeMap

mutual
/-- The method `clone` of the six variants. -/
def Value.clone : Value → Value
  | .null => .null
  | .bool b => .bool b
  | .number n => .number n
  | .string s => .string s
  | .array els => .array (cloneArray els)
  | .map es => .map (cloneMap es)
/-- The loop of `ValueArray.clone`. -/
def cloneArray : List Value → List Value
  | [] => []
  | el :: els => el.clone :: cloneArray els
/-- The loop of `ValueMap.clone`. -/
def cloneMap : List (String × Value) → List (String × Value)
  | [] => []
  | (key, value) :: es => (key, value.clone) :: cloneMap es
end

/-! ### Casts -/

mutual
/-- The method `castToString` of the six variants. -/
def Value.castToString (L : GoLib) : Value → String
  | .null => ""
  | .bool v => if v then "true" else "false"
  | .number v => L.formatFloat v
  | .string v => v
  | .array v => arrayCastToString L 0 v
  | .map v => mapCastToString L true v
/-- The loop of `ValueArray.castToString`; `i` is the index of the next element. -/
def arrayCastToString (L : GoLib) : Nat → List Value → String
  | _, [] => ""
  | i, el :: els =>
    (if i ≠ 0 then " " else "") ++ el.castToString L ++ arrayCastToString L (i + 1) els
/-- The loop of `ValueMap.castToString`; the source never assigns to `first` in the loop. -/
def mapCastToString (L : GoLib) : Bool → List (String × Value) → String
  | _, [] => ""
  | first, (key, val) :: es =>
    (if !first then " " else "") ++ key ++ ": " ++ val.castToString L ++ mapCastToString L first es
end

def Value.castToBool : Value → Bool
  | .null => false
  | .bool v => v
  | .number v => !(F64.eq v F64.zero)
  | .string v => if v = "" ∨ v = "false" then false else true
  | .array v => decide (v.length > 0)
  | .map v => decide (v.length > 0)

def Value.castToNumber (L : GoLib) : Value → F64
  | .null => F64.zero
  | .bool v => if v then F64.one else F64.zero
  | .number v => v
  | .string v =>
    match L.parseFloat v with
    | none => F64.zero
    | some num => num
  | .array v => F64.ofInt v.length
  | .map v => F64.ofInt v.length

/-- The largest length that `make([]Value, n)` accepts on a 64-bit platform: `maxAlloc`, which
is 2^48 bytes, over the 16 bytes of an interface value. -/
def maxSliceLen : Int := 2 ^ 44

/-- The method `castToArray`; `ValueNumber.castToArray` calls `make` with the rounded number as
the length, which panics (makeslice: len out of range) when the length is negative or above
`maxSliceLen`. Whether the memory of a shorter array can be had is outside the model. -/
def Value.castToArray (L : GoLib) : Value → Option (List Value)
  | .null => some []
  | .bool v => some (if v then [.null] else [])
  | .number v =>
    if F64.roundInt v < 0 ∨ maxSliceLen < F64.roundInt v then none
    else some (List.replicate (F64.roundInt v).toNat .null)
  | .string v => some ((L.fields v).map Value.string)
  | .array v => some v
  | .map v => some (v.map fun e => Value.string e.1)

def Value.castToMap (L : GoLib) : Value → List (String × Value)
  | .null => []
  | .bool v => if v then [("", .null)] else []
  | .number v => [(L.formatFloat v, .null)]
  | .string v => [(v, .null)]
  | .array v => v.foldl (fun res el => mapSet res (el.castToString L) .null) []
  | .map v => v

def castToType (L : GoLib) (v : Value) (t : ValueType) : Option Value :=
  match t with
  | TypeNull => some .null
  | TypeBool => some (.bool v.castToBool)
  | TypeNumber => some (.number (v.castToNumber L))
  | TypeString => some (.string (v.castToString L))
  | TypeArray => (v.castToArray L).map Value.array
  | TypeMap => some (.map (v.castToMap L))

/-! ### Paths into the document -/

/-- A `TreePathSegment` is an `int` (array index) or a `string` (map key). -/
inductive TreePathSegment where
  | int (i : Int)
  | string (s : String)
deriving DecidableEq

/-- The Go expression `v[i]` on a slice: a run-time panic outside `0 <= i < len(v)`. -/
def sliceIndex (v : List Value) (i : Int) : Option Value :=
  if 0 ≤ i then v.get? i.toNat else none

/-- The Go expression `v[lo:hi]` on a slice whose capacity is its length. -/
def sliceRange (v : List Value) (lo hi : Int) : Option (List Value) :=
  if 0 ≤ lo ∧ lo ≤ hi ∧ hi ≤ v.length then some ((v.drop lo.toNat).take (hi - lo).toNat) else none

/-- The method `getPath` of the six variants. A scalar panics on a non-empty path, an array on a
string segment or an index out of range, a map on an int segment or on a missing key (the method
call on the nil interface value). -/
def Value.getPath : Value → List TreePathSegment → Option Value
  | v, [] => some v
  | .array v, seg :: path =>
    match seg with
    | .int i =>
      match sliceIndex v i with
      | none => none
      | some el => el.getPath path
    | .string _ => none
  | .map v, seg :: path =>
    match seg with
    | .string s =>
      match mapGet v s with
      | none => none
      | some el => el.getPath path
    | .int _ => none
  | _, _ :: _ => none

/-- The method `withAssignment` of the six variants. -/
def Value.withAssignment (L : GoLib) : Value → List Value → Value → Option Value
  | _, [], value => some value
  | .string v, p :: path, value =>
    if path.length + 1 > 1 then none
    else
      let index := F64.roundInt (p.castToNumber L)
      if index.toNat < v.length then
        some (.string (String.mk (v.data.take index.toNat) ++ value.castToString L
          ++ String.mk (v.data.drop (index.toNat + 1))))
      else none
  | .array v, p :: path, value =>
    let index := F64.roundInt (p.castToNumber L)
    let res := cloneArray v
    match sliceIndex res index with
    | none => none
    | some el =>
      match el.withAssignment L path value with
      | none => none
      | some el2 => some (.array (res.set index.toNat el2))
  | .map v, p :: path, value =>
    let index := p.castToString L
    let res := cloneMap v
    let part := match mapGet res index with
      | none => Value.null
      | some part => part
    match part.withAssignment L path value with
    | none => none
    | some part2 => some (.map (mapSet res index part2))
  | _, p :: path, value =>
    match Value.null.withAssignment L path value with
    | none => none
    | some inner => some (.map (mapSet [] (p.castToString L) inner))

/-! ### Arithmetic -/

def ValueBool.add (v : Bool) (w : Value) : Value := .bool (v || w.castToBool)

def ValueBool.sub (v : Bool) (w : Value) : Value :=
  let rhs := w.castToBool
  .bool ((v || rhs) && !(v && rhs))

def ValueBool.mul (v : Bool) (w : Value) : Value := .bool (v && w.castToBool)

def ValueBool.div (v : Bool) (w : Value) : Value :=
  let rhs := w.castToBool
  .bool ((v && rhs) || !(v || rhs))

def ValueNumber.add (L : GoLib) (v : F64) (w : Value) : Value :=
  .number (L.fadd v (w.castToNumber L))

def ValueNumber.sub (L : GoLib) (v : F64) (w : Value) : Value :=
  .number (L.fsub v (w.castToNumber L))

def ValueNumber.mul (L : GoLib) (v : F64) (w : Value) : Value :=
  .number (L.fmul v (w.castToNumber L))

def ValueNumber.div (L : GoLib) (v : F64) (w : Value) : Value :=
  .number (L.fdiv v (w.castToNumber L))

def ValueString.add (L : GoLib) (v : String) (w : Value) : Value :=
  .string (v ++ w.castToString L)

/-- `ValueString.sub` is `panic("Cannot subtract strings yet")`. -/
def ValueString.sub (_v : String) (_w : Value) : Option Value := none

/-- The loop of `ValueString.mul` with `n` iterations left. -/
def ValueString.mulLoop (v : String) : Nat → String → String
  | 0, builder => builder
  | n + 1, builder => ValueString.mulLoop v n (builder ++ v)

def ValueString.mul (L : GoLib) (v : String) (w : Value) : Value :=
  let num := F64.roundInt (w.castToNumber L)
  .string (ValueString.mulLoop v num.toNat "")

/-- `ValueString.div` is `panic("Cannot divide strings yet")`. -/
def ValueString.div (_v : String) (_w : Value) : Option Value := none

def ValueArray.add (L : GoLib) (v : List Value) (w : Value) : Option Value :=
  match w.castToArray L with
  | none => none
  | some rhs => some (.array (v ++ rhs))

def ValueArray.sub (L : GoLib) (v : List Value) (w : Value) : Option Value :=
  let width := F64.roundInt (w.castToNumber L)
  if (v.length : Int) < width then some (.array v)
  else
    match sliceRange v 0 width, sliceRange v width v.length with
    | some r0, some r1 => some (.array [.array r0, .array r1])
    | _, _ => none

/-- The loop of `ValueArray.mul` with `n` iterations left. -/
def ValueArray.mulLoop (v : List Value) : Nat → List Value → List Value
  | 0, res => res
  | n + 1, res => ValueArray.mulLoop v n (res ++ v)

def ValueArray.mul (L : GoLib) (v : List Value) (w : Value) : Value :=
  let target := F64.roundInt (w.castToNumber L)
  .array (ValueArray.mulLoop v target.toNat [])

/-- The loop of `ValueArray.div` with `n` iterations left, `i` the loop counter. -/
def ValueArray.divLoop (v : List Value) (part_width remaining_els : Int) :
    Nat → Int → Int → List Value → Option (List Value)
  | 0, _, _, res => some res
  | n + 1, i, progress, res =>
    if i < remaining_els then
      match sliceRange v progress (progress + part_width + 1) with
      | none => none
      | some part =>
        ValueArray.divLoop v part_width remaining_els n (i + 1) (progress + part_width + 1)
          (res ++ [.array part])
    else
      match sliceRange v progress (progress + part_width) with
      | none => none
      | some part =>
        ValueArray.divLoop v part_width remaining_els n (i + 1) (progress + part_width)
          (res ++ [.array part])

/-- The method `ValueArray.div`; `l / parts` panics when `parts` is zero. -/
def ValueArray.div (L : GoLib) (v : List Value) (w : Value) : Option Value :=
  let l : Int := v.length
  let parts := F64.roundInt (w.castToNumber L)
  if parts = 0 then none
  else
    let part_width := Int.tdiv l parts
    let remaining_els := Int.tmod l parts
    match ValueArray.divLoop v part_width remaining_els parts.toNat 0 0 [] with
    | none => none
    | some res => some (.array res)

def ValueMap.add (L : GoLib) (v : List (String × Value)) (w : Value) : Value :=
  let other := w.castToMap L
  let res := cloneMap v
  .map (other.foldl (fun res e => mapSet res e.1 e.2) res)

def ValueMap.sub (L : GoLib) (v : List (String × Value)) (w : Value) : Option Value :=
  let res := cloneMap v
  match w.castToArray L with
  | none => none
  | some to_remove =>
    some (.map (to_remove.foldl (fun res key => mapDelete res (key.castToString L)) res))

def ValueMap.mul (L : GoLib) (v : List (String × Value)) (w : Value) : Value :=
  let rhs := w.castToMap L
  let res := v.foldl (fun res e =>
    let val2 := match mapGet rhs e.1 with
      | none => Value.null
      | some val2 => val2
    mapSet res e.1 (.array [e.2, val2])) []
  .map (rhs.foldl (fun res e =>
    match mapGet v e.1 with
    | none => mapSet res e.1 (.array [.null, e.2])
    | some _ => res) res)

/-- `ValueMap.div` is `panic("Dividing a map not yet implemented")`. -/
def ValueMap.div (_v : List (String × Value)) (_w : Value) : Option Value := none

def Value.add (L : GoLib) (v w : Value) : Option Value :=
  match v with
  | .null => some w
  | .bool v => some (ValueBool.add v w)
  | .number v => some (ValueNumber.add L v w)
  | .string v => some (ValueString.add L v w)
  | .array v => ValueArray.add L v w
  | .map v => some (ValueMap.add L v w)

/-- The method `sub` on a receiver that is not `ValueNull`. -/
def Value.subOf (L : GoLib) (v w : Value) : Option Value :=
  match v with
  | .null => none
  | .bool v => some (ValueBool.sub v w)
  | .number v => some (ValueNumber.sub L v w)
  | .string v => ValueString.sub v w
  | .array v => ValueArray.sub L v w
  | .map v => ValueMap.sub L v w

/-- The method `mul` on a receiver that is not `ValueNull`. -/
def Value.mulOf (L : GoLib) (v w : Value) : Option Value :=
  match v with
  | .null => none
  | .bool v => some (ValueBool.mul v w)
  | .number v => some (ValueNumber.mul L v w)
  | .string v => some (ValueString.mul L v w)
  | .array v => some (ValueArray.mul L v w)
  | .map v => some (ValueMap.mul L v w)

/-- The method `div` on a receiver that is not `ValueNull`. -/
def Value.divOf (L : GoLib) (v w : Value) : Option Value :=
  match v with
  | .null => none
  | .bool v => some (ValueBool.div v w)
  | .number v => some (ValueNumber.div L v w)
  | .string v => ValueString.div v w
  | .array v => ValueArray.div L v w
  | .map v => ValueMap.div v w

/-- The method `sub`; `ValueNull.sub` casts the receiver to the type of `w` and calls `sub` on
the result, which is never a `ValueNull` there. -/
def Value.sub (L : GoLib) (v w : Value) : Option Value :=
  match v with
  | .null =>
    if w.typ = TypeNull then some .null
    else (castToType L .null w.typ).bind fun c => Value.subOf L c w
  | _ => Value.subOf L v w

def Value.mul (L : GoLib) (v w : Value) : Option Value :=
  match v with
  | .null =>
    if w.typ = TypeNull then some .null
    else (castToType L .null w.typ).bind fun c => Value.mulOf L c w
  | _ => Value.mulOf L v w

def Value.div (L : GoLib) (v w : Value) : Option Value :=
  match v with
  | .null =>
    if w.typ = TypeNull then some .null
    else (castToType L .null w.typ).bind fun c => Value.divOf L c w
  | _ => Value.divOf L v w

/-! ### Indexing -/

/-- `ValueString.index`: the byte at the index, converted to a string as a code point. -/
def ValueString.index (L : GoLib) (v : String) (w : Value) : Option Value :=
  let index := F64.roundInt (w.castToNumber L)
  if 0 ≤ index then
    match (v.data.flatMap String.utf8EncodeChar).get? index.toNat with
    | none => none
    | some b => some (.string (String.singleton (Char.ofNat b.toNat)))
  else none

def ValueArray.index (L : GoLib) (v : List Value) (w : Value) : Option Value :=
  let index := F64.roundInt (w.castToNumber L)
  sliceIndex v index

def ValueMap.index (L : GoLib) (v : List (String × Value)) (w : Value) : Value :=
  let index := w.castToString L
  match mapGet v index with
  | none => .null
  | some res => res

def Value.index (L : GoLib) (v w : Value) : Option Value :=
  match v with
  | .null => some .null
  | .bool v => some (.bool v)
  | .number v => some (.number v)
  | .string v => ValueString.index L v w
  | .array v => ValueArray.index L v w
  | .map v => some (ValueMap.index L v w)

/-! ### Equality -/

def ValueBool.equals (v : Bool) (w : Value) : Bool :=
  let rhs := w.castToBool
  v == rhs

def ValueNumber.equals (L : GoLib) (v : F64) (w : Value) : Bool :=
  let rhs := w.castToNumber L
  F64.eq v rhs

def ValueString.equals (L : GoLib) (v : String) (w : Value) : Bool :=
  let rhs := w.castToString L
  v == rhs

mutual
/-- The method `equals` of the six variants. `ValueNull.equals` is
`castToType(v, typ).equals(w)` when `w` is not null; the cast of null to the type of `w` is
`false`, `0`, `""`, the empty array or the empty map, and the call on it is written out here
(`Value.equals_null` states that this is what the source computes). -/
def Value.equals (L : GoLib) : Value → Value → Option Bool
  | .null, w =>
    match w with
    | .null => some true
    | .bool _ => some (ValueBool.equals false w)
    | .number _ => some (ValueNumber.equals L F64.zero w)
    | .string _ => some (ValueString.equals L "" w)
    | .array rhs => if (0 : Nat) ≠ rhs.length then some false else some true
    | .map rhs => some (rhs.all fun e => (mapGet [] e.1).isSome)
  | .bool v, w => some (ValueBool.equals v w)
  | .number v, w => some (ValueNumber.equals L v w)
  | .string v, w => some (ValueString.equals L v w)
  | .array v, w =>
    match w.castToArray L with
    | none => none
    | some rhs => if v.length ≠ rhs.length then some false else arrayEqualsLoop L v rhs
  | .map v, w =>
    match mapEqualsLoop L v (w.castToMap L) with
    | none => none
    | some false => some false
    | some true => some ((w.castToMap L).all fun e => (mapGet v e.1).isSome)
/-- The loop of `ValueArray.equals` over the elements left, `rhs` being the elements of the
right-hand side from the same index on. -/
def arrayEqualsLoop (L : GoLib) : List Value → List Value → Option Bool
  | [], _ => some true
  | el :: els, rhs =>
    match rhs with
    | [] => none
    | r :: rs =>
      match el.equals L r with
      | none => none
      | some false => some false
      | some true => arrayEqualsLoop L els rs
/-- The first loop of `ValueMap.equals`; `some true` when it ends without `return false`. -/
def mapEqualsLoop (L : GoLib) : List (String × Value) → List (String × Value) → Option Bool
  | [], _ => some true
  | (key, lvalue) :: es, rhs =>
    match mapGet rhs key with
    | none => some false
    | some rvalue =>
      match lvalue.equals L rvalue with
      | none => none
      | some false => some false
      | some true => mapEqualsLoop L es rhs
end

/-! ## The evaluator -/

/-- A `StackValue` is a `Value`, a `VariableReference` or an `IndexReference`. -/
inductive StackValue where
  | value (v : Value)
  | variableReference (name : String)
  | indexReference (parent : StackValue) (index : Value)

/-- An `Address` is a `VariableReference` or an `IndexReference`. -/
inductive Address where
  | variableReference (name : String)
  | indexReference (parent : StackValue) (index : Value)

/-- The `EvalState`; `out` is what has been written to the standard output. -/
structure EvalState where
  stack : List StackValue
  vars : List (String × Value)
  data : Value
  out : String

def EvalState.push (state : EvalState) (value : StackValue) : EvalState :=
  { state with stack := value :: state.stack }

def EvalState.pop (state : EvalState) : Option (StackValue × EvalState) :=
  match state.stack with
  | [] => none
  | value :: rest => some (value, { state with stack := rest })

/-- The method `toValue` of the stack values. -/
def StackValue.toValue (L : GoLib) : StackValue → EvalState → Option (Value × EvalState)
  | .value v, state => some (v, state)
  | .variableReference name, state =>
    match mapGet state.vars name with
    | none => some (.null, { state with vars := mapSet state.vars name .null })
    | some val => some (val.clone, state)
  | .indexReference parent idx, state =>
    match parent.toValue L state with
    | none => none
    | some (pv, state) =>
      match pv.index L idx with
      | none => none
      | some res => some (res, state)

/-- The method `toAddress`: a panic on the six variants of `Value`. -/
def StackValue.toAddress : StackValue → Option Address
  | .value _ => none
  | .variableReference name => some (.variableReference name)
  | .indexReference parent idx => some (.indexReference parent idx)

def EvalState.popValue (L : GoLib) (state : EvalState) : Option (Value × EvalState) :=
  match state.pop with
  | none => none
  | some (sv, state) => sv.toValue L state

def EvalState.popAddress (state : EvalState) : Option (Address × EvalState) :=
  match state.pop with
  | none => none
  | some (sv, state) =>
    match sv.toAddress with
    | none => none
    | some a => some (a, state)

def VariableReference.assign (name : String) (state : EvalState) (value : Value) : EvalState :=
  { state with vars := mapSet state.vars name value }

/-- `VariableReference.assignPath`; on a name that is not in the store the map lookup yields the
nil interface value and the call of `withAssignment` on it panics. -/
def VariableReference.assignPath (L : GoLib) (name : String) (state : EvalState)
    (path : List Value) (value : Value) : Option EvalState :=
  match mapGet state.vars name with
  | none => none
  | some old =>
    match old.withAssignment L path value with
    | none => none
    | some new => some { state with vars := mapSet state.vars name new }

/-- The call `sv.toAddress().assignPath(state, path, value)` on a stack value `sv`. -/
def StackValue.assignPath (L : GoLib) :
    StackValue → EvalState → List Value → Value → Option EvalState
  | .value _, _, _, _ => none
  | .variableReference name, state, path, val =>
    VariableReference.assignPath L name state path val
  | .indexReference parent idx, state, path, val =>
    parent.assignPath L state (idx :: path) val

def Address.assignPath (L : GoLib) (a : Address) (state : EvalState) (path : List Value)
    (val : Value) : Option EvalState :=
  match a with
  | .variableReference name => VariableReference.assignPath L name state path val
  | .indexReference parent idx => parent.assignPath L state (idx :: path) val

def Address.assign (L : GoLib) (a : Address) (state : EvalState) (val : Value) :
    Option EvalState :=
  match a with
  | .variableReference name => some (VariableReference.assign name state val)
  | .indexReference parent idx =>
    Address.assignPath L (.indexReference parent idx) state [] val

inductive InstructionBasic where
  | InstructionAdd
  | InstructionSub
  | InstructionDiv
  | InstructionMul
  | InstructionIgnore
  | InstructionPushNull
  | InstructionAssign
  | InstructionIndex
  | InstructionDup
  | InstructionEqual
  | InstructionNot
deriving DecidableEq

inductive Subroutine where
  | SubroutinePrintln
deriving DecidableEq

open InstructionBasic Subroutine

/-- An `Instruction` is an `InstructionBasic`, an `InstructionPushNumber`, an
`InstructionPushVariable`, an `InstructionPushString` or an `InstructionCall`, whose `nargs` the
parser counts up from zero. -/
inductive Instruction where
  | basic (i : InstructionBasic)
  | pushNumber (n : F64)
  | pushVariable (name : String)
  | pushString (s : String)
  | call (subroutine : Subroutine) (nargs : Nat)
deriving DecidableEq

abbrev Expression := List Instruction

mutual
/-- The function `printSingle`, returning what it prints. -/
def printSingle (L : GoLib) : Value → String
  | .null => "null"
  | .bool b => if b then "true" else "false"
  | .number n => L.printFloat n
  | .string s => L.quote s
  | .array els => "[" ++ printArrayLoop L 0 els ++ "]"
  | .map es => "\x7b" ++ printMapLoop L true es ++ "\x7d"
/-- The loop of `printSingle` over an array; `i` is the index of the next element. -/
def printArrayLoop (L : GoLib) : Nat → List Value → String
  | _, [] => ""
  | i, el :: els =>
    (if i ≠ 0 then ", " else "") ++ printSingle L el ++ printArrayLoop L (i + 1) els
/-- The loop of `printSingle` over a map. -/
def printMapLoop (L : GoLib) : Bool → List (String × Value) → String
  | _, [] => ""
  | isStart, (key, value) :: es =>
    (if !isStart then ", " else "") ++ (L.quote key ++ ": ") ++ printSingle L value
      ++ printMapLoop L false es
end

/-- The loop of `subroutinePrintln`; `i` is the index of the next argument. -/
def printlnLoop (L : GoLib) : Nat → List Value → String
  | _, [] => ""
  | i, arg :: args =>
    (if i ≠ 0 then " " else "") ++ printSingle L arg ++ printlnLoop L (i + 1) args

/-- The function `subroutinePrintln`: what it prints, and the value it returns. -/
def subroutinePrintln (L : GoLib) (args : List Value) : String × Value :=
  (printlnLoop L 0 args ++ "\n", .null)

/-- The loop of `InstructionCall.eval` that fills `args` from the last index down; `n` values
are left to pop. -/
def popArgs (L : GoLib) : Nat → List Value → EvalState → Option (List Value × EvalState)
  | 0, args, state => some (args, state)
  | n + 1, args, state =>
    match state.popValue L with
    | none => none
    | some (v, state) => popArgs L n (v :: args) state

def InstructionBasic.eval (L : GoLib) (instruction : InstructionBasic) (state : EvalState) :
    Option EvalState :=
  match instruction with
  | InstructionAdd =>
    match state.popValue L with
    | none => none
    | some (rhs, state) =>
      match state.popValue L with
      | none => none
      | some (lhs, state) => (lhs.add L rhs).map fun r => state.push (.value r)
  | InstructionSub =>
    match state.popValue L with
    | none => none
    | some (rhs, state) =>
      match state.popValue L with
      | none => none
      | some (lhs, state) => (lhs.sub L rhs).map fun r => state.push (.value r)
  | InstructionDiv =>
    match state.popValue L with
    | none => none
    | some (rhs, state) =>
      match state.popValue L with
      | none => none
      | some (lhs, state) => (lhs.div L rhs).map fun r => state.push (.value r)
  | InstructionMul =>
    match state.popValue L with
    | none => none
    | some (rhs, state) =>
      match state.popValue L with
      | none => none
      | some (lhs, state) => (lhs.mul L rhs).map fun r => state.push (.value r)
  | InstructionIgnore =>
    match state.popValue L with
    | none => none
    | some (_, state) => some state
  | InstructionPushNull => some (state.push (.value .null))
  | InstructionAssign =>
    match state.popValue L with
    | none => none
    | some (rhs, state) =>
      match state.popAddress with
      | none => none
      | some (lhs, state) =>
        match lhs.assign L state rhs with
        | none => none
        | some state => some (state.push (.value .null))
  | InstructionIndex =>
    match state.popValue L with
    | none => none
    | some (index, state) =>
      match state.pop with
      | none => none
      | some (parent, state) => some (state.push (.indexReference parent index))
  | InstructionDup =>
    match state.pop with
    | none => none
    | some (val, state) =>
      match val.toValue L (state.push val) with
      | none => none
      | some (v, state) => some (state.push (.value v.clone))
  | InstructionEqual =>
    match state.popValue L with
    | none => none
    | some (rhs, state) =>
      match state.popValue L with
      | none => none
      | some (lhs, state) => (lhs.equals L rhs).map fun r => state.push (.value (.bool r))
  | InstructionNot =>
    match state.popValue L with
    | none => none
    | some (v, state) => some (state.push (.value (.bool (!v.castToBool))))

def InstructionCall.eval (L : GoLib) (subroutine : Subroutine) (nargs : Nat)
    (state : EvalState) : Option EvalState :=
  match popArgs L nargs [] state with
  | none => none
  | some (args, state) =>
    match subroutine with
    | SubroutinePrintln =>
      let r := subroutinePrintln L args
      some ({ state with out := state.out ++ r.1 }.push (.value r.2))

/-- The method `eval` of the instructions. -/
def Instruction.eval (L : GoLib) (instruction : Instruction) (state : EvalState) :
    Option EvalState :=
  match instruction with
  | .basic i => i.eval L state
  | .pushNumber n => some (state.push (.value (.number n)))
  | .pushVariable name => some (state.push (.variableReference name))
  | .pushString s => some (state.push (.value (.string s)))
  | .call subroutine nargs => InstructionCall.eval L subroutine nargs state

/-- The loop of `evalExpr`. -/
def evalInstructions (L : GoLib) : Expression → EvalState → Option EvalState
  | [], state => some state
  | instruction :: rest, state =>
    match instruction.eval L state with
    | none => none
    | some state => evalInstructions L rest state

def evalExpr (L : GoLib) (state : EvalState) (expr : Expression) : Option (Value × EvalState) :=
  match evalInstructions L expr state with
  | none => none
  | some state => state.popValue L

def pathToValueArray (path : List TreePathSegment) : List Value :=
  path.map fun segment =>
    match segment with
    | .string s => Value.string s
    | .int i => Value.number (F64.ofInt i)

structure TreeWalkItem where
  path : List TreePathSegment
  first : Bool

/-! ## The pattern matcher -/

/-- A `PatternSegment` is a `PatternSegmentIndex`, a `PatternSegmentFilter` or the
`PatternSegmentBasic` value `PatternSegmentAll`. -/
inductive PatternSegment where
  | PatternSegmentIndex (index : String)
  | PatternSegmentFilter (filter : Expression)
  | PatternSegmentAll

structure Pattern where
  segments : List PatternSegment
  isFirst : Bool

/-- The method `matches` of the pattern segments: the result and the state it leaves. -/
def PatternSegment.matches (L : GoLib) (segment : PatternSegment) (state : EvalState)
    (path : List TreePathSegment) (pathSegment : TreePathSegment) : Option (Bool × EvalState) :=
  match segment with
  | .PatternSegmentIndex index =>
    match pathSegment with
    | .string s => some (decide (index = s), state)
    | .int i => some (decide (index = toString i), state)
  | .PatternSegmentFilter filter =>
    let state := { state with
      vars := mapSet state.vars "path" (Value.array (pathToValueArray path)).clone }
    match state.data.getPath path with
    | none => none
    | some d =>
      let state := { state with vars := mapSet state.vars "$0" d.clone }
      match evalExpr L state filter with
      | none => none
      | some (result, state) => some (result.castToBool, state)
  | .PatternSegmentAll => some (true, state)

/-- The loop of `matchPattern` over the segments left; `i` is the index of the next one. -/
def matchPatternLoop (L : GoLib) (walkItem : TreeWalkItem) :
    List PatternSegment → Nat → EvalState → Option (Bool × EvalState)
  | [], _, state => some (true, state)
  | patternSegment :: rest, i, state =>
    match walkItem.path.get? i with
    | none => none
    | some pathSegment =>
      match patternSegment.matches L state (walkItem.path.take (i + 1)) pathSegment with
      | none => none
      | some (false, state) => some (false, state)
      | some (true, state) => matchPatternLoop L walkItem rest (i + 1) state

def matchPattern (L : GoLib) (state : EvalState) (pattern : Pattern) (walkItem : TreeWalkItem) :
    Option (Bool × EvalState) :=
  if pattern.segments.length ≠ walkItem.path.length ∨ pattern.isFirst ≠ walkItem.first then
    some (false, state)
  else matchPatternLoop L walkItem pattern.segments 0 state

def evalAction (L : GoLib) (state : EvalState) (action : Expression) (node : TreeWalkItem) :
    Option EvalState :=
  if action.length = 0 then
    match state.data.getPath node.path with
    | none => none
    | some d => some { state with out := state.out ++ (subroutinePrintln L [d]).1 }
  else
    let state := { state with
      vars := mapSet state.vars "path" (Value.array (pathToValueArray node.path)).clone }
    match state.data.getPath node.path with
    | none => none
    | some d =>
      let state := { state with vars := mapSet state.vars "$0" d.clone }
      match evalExpr L state action with
      | none => none
      | some (_, state) => some state

/-! ## The expression parser -/

inductive TokenType where
  | TokenErr
  | TokenEOF
  | TokenNumber
  | TokenIdentifier
  | TokenAdd
  | TokenSub
  | TokenAst
  | TokenDiv
  | TokenDot
  | TokenComma
  | TokenSemicolon
  | TokenLParen
  | TokenRParen
  | TokenLBrace
  | TokenRBrace
  | TokenLBrack
  | TokenRBrack
  | TokenIndexPattern
  | TokenAssign
  | TokenCircum
  | TokenDoubleQuote
  | TokenStringLiteral
  | TokenAddAssign
  | TokenSubAssign
  | TokenAstAssign
  | TokenDivAssign
  | TokenEqual
  | TokenNotEqual
  | TokenNot
deriving DecidableEq

open TokenType

structure Token where
  typ : TokenType
  val : String
deriving DecidableEq

/-- The result of a parsing function: a value, a Go panic with its message, or the recursion
budget of the embedding used up (the source has no such budget). -/
inductive Outcome (α : Type) where
  | done (a : α)
  | panic (msg : String)
  | outOfFuel

/-- The `parser`: `tokenStream` holds the tokens not yet received from the channel, which the
lexer closes after the last one. -/
structure parser where
  tokenStream : List Token
  prevToken : Token
  wasRewound : Bool

/-- The method `next`. A receive from the closed channel yields the zero `Token`, whose type is
`TokenErr`, so that reading past the last token panics like reading a `TokenErr`. -/
def parser.next (p : parser) : Outcome (Token × parser) :=
  if p.wasRewound then .done (p.prevToken, { p with wasRewound := false })
  else
    match p.tokenStream with
    | [] => .panic "Lexing error"
    | t :: rest =>
      if t.typ = TokenErr then .panic "Lexing error"
      else .done (t, { tokenStream := rest, prevToken := t, wasRewound := false })

def parser.rewind (p : parser) : parser := { p with wasRewound := true }

def parser.accept (p : parser) (typ : TokenType) : Outcome (String × Bool × parser) :=
  match p.next with
  | .done (token, p) =>
    if typ = token.typ then .done (token.val, true, p) else .done ("", false, p.rewind)
  | .panic msg => .panic msg
  | .outOfFuel => .outOfFuel

structure Binop where
  op : InstructionBasic
  left : Int
  right : Int

/-- The table `binops` of `parseExpression`. -/
def binops : TokenType → Option Binop
  | TokenAdd => some ⟨InstructionAdd, 10, 11⟩
  | TokenSub => some ⟨InstructionSub, 10, 11⟩
  | TokenAst => some ⟨InstructionMul, 12, 13⟩
  | TokenDiv => some ⟨InstructionDiv, 12, 13⟩
  | TokenAssign => some ⟨InstructionAssign, 3, 2⟩
  | TokenEqual => some ⟨InstructionEqual, 8, 9⟩
  | _ => none

/-- The table `assigns` of `parseExpression`. -/
def assigns : TokenType → Option InstructionBasic
  | TokenAddAssign => some InstructionAdd
  | TokenSubAssign => some InstructionSub
  | TokenAstAssign => some InstructionMul
  | TokenDivAssign => some InstructionDiv
  | _ => none

/-- The table `subroutines` of `parseExpression`. -/
def subroutines (name : String) : Option Subroutine :=
  if name = "println" then some SubroutinePrintln else none

mutual
/-- The method `parseExpression`; the first argument bounds the depth of the recursion. -/
def parseExpression (L : GoLib) :
    Nat → Int → parser → Outcome (Expression × Bool × parser)
  | 0, _, _ => .outOfFuel
  | fuel + 1, minPower, p =>
    match p.next with
    | .panic msg => .panic msg
    | .outOfFuel => .outOfFuel
    | .done (token, p) =>
      match token.typ with
      | TokenEOF => .done ([], true, p.rewind)
      | TokenNot =>
        match parseExpression L fuel 14 p with
        | .panic msg => .panic msg
        | .outOfFuel => .outOfFuel
        | .done (e, noExpression, p) =>
          if noExpression then .panic "Missing expression after !"
          else oploop L fuel minPower (([] ++ e) ++ [.basic InstructionNot]) p
      | TokenNumber =>
        match L.parseFloat token.val with
        | none => .panic "Invalid number"
        | some num => oploop L fuel minPower ([] ++ [.pushNumber num]) p
      | TokenDoubleQuote =>
        match p.accept TokenStringLiteral with
        | .panic msg => .panic msg
        | .outOfFuel => .outOfFuel
        | .done (s, isStringLiteral, p) =>
          if !isStringLiteral then .panic "Missing string literal"
          else
            match p.accept TokenDoubleQuote with
            | .panic msg => .panic msg
            | .outOfFuel => .outOfFuel
            | .done (_, stringLiteralClosed, p) =>
              if !stringLiteralClosed then .panic "Missing closing quote for string literal"
              else oploop L fuel minPower ([] ++ [.pushString s]) p
      | TokenIdentifier =>
        match p.accept TokenLParen with
        | .panic msg => .panic msg
        | .outOfFuel => .outOfFuel
        | .done (_, hasLParen, p) =>
          if hasLParen then
            match subroutines token.val with
            | none => .panic "Invalid subroutine"
            | some subroutine =>
              match parseCallArgs L fuel [] 0 p with
              | .panic msg => .panic msg
              | .outOfFuel => .outOfFuel
              | .done (expr, nargs, p) =>
                match p.accept TokenRParen with
                | .panic msg => .panic msg
                | .outOfFuel => .outOfFuel
                | .done (_, hasRParen, p) =>
                  if !hasRParen then .panic "Missing ) for subroutine call"
                  else oploop L fuel minPower (expr ++ [.call subroutine nargs]) p
          else oploop L fuel minPower ([] ++ [.pushVariable token.val]) p
      | TokenLParen =>
        match parseExpression L fuel 0 p with
        | .panic msg => .panic msg
        | .outOfFuel => .outOfFuel
        | .done (e, noExpression, p) =>
          if noExpression then .panic "Missing expression in ()"
          else
            match p.accept TokenRParen with
            | .panic msg => .panic msg
            | .outOfFuel => .outOfFuel
            | .done (_, hasCloseParen, p) =>
              if !hasCloseParen then .panic "Missing ) in expression"
              else oploop L fuel minPower ([] ++ e) p
      | _ => .done ([], true, p.rewind)
/-- The loop of `parseExpression` that reads the arguments of a subroutine call. -/
def parseCallArgs (L : GoLib) :
    Nat → Expression → Nat → parser → Outcome (Expression × Nat × parser)
  | 0, _, _, _ => .outOfFuel
  | fuel + 1, expr, nargs, p =>
    match parseExpression L fuel 0 p with
    | .panic msg => .panic msg
    | .outOfFuel => .outOfFuel
    | .done (e, noExpression, p) =>
      if noExpression then .done (expr, nargs, p)
      else
        match p.accept TokenComma with
        | .panic msg => .panic msg
        | .outOfFuel => .outOfFuel
        | .done (_, hasComma, p) =>
          if !hasComma then .done (expr ++ e, nargs + 1, p)
          else parseCallArgs L fuel (expr ++ e) (nargs + 1) p
/-- The loop `oploop` of `parseExpression`, entered with the instructions compiled so far. -/
def oploop (L : GoLib) :
    Nat → Int → Expression → parser → Outcome (Expression × Bool × parser)
  | 0, _, _, _ => .outOfFuel
  | fuel + 1, minPower, expr, p =>
    match p.next with
    | .panic msg => .panic msg
    | .outOfFuel => .outOfFuel
    | .done (token, p) =>
      match (binops token.typ).filter fun binop => decide (binop.left ≥ minPower) with
      | some binop =>
        match parseExpression L fuel binop.right p with
        | .panic msg => .panic msg
        | .outOfFuel => .outOfFuel
        | .done (e, noExpression, p) =>
          if noExpression then .panic "Missing expression after operator"
          else oploop L fuel minPower ((expr ++ e) ++ [.basic binop.op]) p
      | none =>
        match (assigns token.typ).filter fun _ => decide ((3 : Int) ≥ minPower) with
        | some assignInstruction =>
          match parseExpression L fuel 2 p with
          | .panic msg => .panic msg
          | .outOfFuel => .outOfFuel
          | .done (e, noExpression, p) =>
            if noExpression then .panic "Missing expression after operator"
            else
              oploop L fuel minPower
                (((expr ++ [.basic InstructionDup]) ++ e)
                  ++ [.basic assignInstruction, .basic InstructionAssign]) p
        | none =>
          if token.typ = TokenSemicolon ∧ (0 : Int) ≥ minPower then
            match parseExpression L fuel 1 p with
            | .panic msg => .panic msg
            | .outOfFuel => .outOfFuel
            | .done (e, noExpression, p) =>
              if noExpression then
                oploop L fuel minPower
                  ((expr ++ [.basic InstructionIgnore]) ++ [.basic InstructionPushNull]) p
              else oploop L fuel minPower ((expr ++ [.basic InstructionIgnore]) ++ e) p
          else if token.typ = TokenDot ∧ (20 : Int) ≥ minPower then
            match p.accept TokenIdentifier with
            | .panic msg => .panic msg
            | .outOfFuel => .outOfFuel
            | .done (index, hasIndex, p) =>
              if !hasIndex then .panic "Expected identifier after ."
              else
                oploop L fuel minPower
                  (expr ++ [.pushString index, .basic InstructionIndex]) p
          else if token.typ = TokenNotEqual ∧ (8 : Int) ≥ minPower then
            match parseExpression L fuel 9 p with
            | .panic msg => .panic msg
            | .outOfFuel => .outOfFuel
            | .done (e, noExpression, p) =>
              if noExpression then .panic "Missing expression after operator"
              else
                oploop L fuel minPower
                  ((expr ++ e) ++ [.basic InstructionEqual, .basic InstructionNot]) p
          else .done (expr, false, p.rewind)
end

/-! ## Well-formed values -/

mutual
/-- A value as a Go program can build it: no map holds a key twice, at any depth. -/
def Value.WF : Value → Prop
  | .array els => WFArray els
  | .map es => (es.map Prod.fst).Nodup ∧ WFMap es
  | _ => True
def WFArray : List Value → Prop
  | [] => True
  | el :: els => el.WF ∧ WFArray els
def WFMap : List (String × Value) → Prop
  | [] => True
  | (_, value) :: es => value.WF ∧ WFMap es
end

mutual
/-- No number inside the value is a NaN. -/
def Value.NaNFree : Value → Prop
  | .number n => n.isNaN = false
  | .array els => NaNFreeArray els
  | .map es => NaNFreeMap es
  | _ => True
def NaNFreeArray : List Value → Prop
  | [] => True
  | el :: els => el.NaNFree ∧ NaNFreeArray els
def NaNFreeMap : List (String × Value) → Prop
  | [] => True
  | (_, value) :: es => value.NaNFree ∧ NaNFreeMap es
end

/-- The root variable of a stack value, when it has one. -/
def StackValue.root : StackValue → Option String
  | .value _ => none
  | .variableReference name => some name
  | .indexReference parent _ => parent.root

/-- The float64 `-1`. -/
def F64.negOne : F64 := ⟨0xBFF0000000000000⟩

/-- The float64 `2`. -/
def F64.two : F64 := ⟨0x4000000000000000⟩

/-- A quiet NaN. -/
def F64.nan : F64 := ⟨0x7FF8000000000000⟩

/-- The float64 `2^63 = 9223372036854775808`. -/
def F64.twoPow63 : F64 := ⟨0x43E0000000000000⟩

/-! ## A reference instance of the library

The definitions of this section give one executable `GoLib`, on which the embedding can be run.
The float arithmetic, `strconv.ParseFloat` on decimal literals, `strconv.FormatFloat` in the
format `'g'` and `strings.Fields` follow the documented behaviour of Go; hexadecimal float
literals are not parsed, `%q` treats every character above U+00A0 as printable, and the shortest
decimal of `%v` is searched among the roundings of the number. No theorem depends on these
choices: each one is stated for every `GoLib`. -/

namespace F64

def isInf (x : F64) : Bool := x.expo == 2047 && x.frac == 0

/-- The significand of a finite float, as an integer. -/
def mant (x : F64) : Nat := if x.expo = 0 then x.frac else 2 ^ 52 + x.frac

/-- The exponent of a finite float: its magnitude is `mant * 2 ^ exp2`. -/
def exp2 (x : F64) : Int := (if x.expo = 0 then 1 else (x.expo : Int)) - 1075

def signBit (neg : Bool) : Nat := if neg then 2 ^ 63 else 0

def inf (neg : Bool) : F64 := ⟨signBit neg + 0x7FF0000000000000⟩

/-- The float nearest to `n * 2 ^ k`, ties to even, with the given sign. -/
def ofScaled (neg : Bool) (n : Nat) (k : Int) : F64 :=
  if n = 0 then ⟨signBit neg⟩
  else
    let u : Int := max ((Nat.log2 n : Int) + k - 52) (-1074)
    let shift := k - u
    let d := 2 ^ (-shift).toNat
    let q :=
      if 0 ≤ shift then n * 2 ^ shift.toNat
      else if 2 * (n % d) > d ∨ (2 * (n % d) = d ∧ n / d % 2 = 1) then n / d + 1
      else n / d
    ⟨signBit neg + min ((u + 1074).toNat * 2 ^ 52 + q) 0x7FF0000000000000⟩

/-- The float nearest to `num / den * 2 ^ k`. -/
def ofRatio (neg : Bool) (num den : Nat) (k : Int) : F64 :=
  let sh := 64 + Nat.log2 den
  let q := num * 2 ^ sh / den
  let sticky := if num * 2 ^ sh % den = 0 then 0 else 1
  ofScaled neg (2 * q + sticky) (k - sh - 1)

def add (x y : F64) : F64 :=
  if x.isNaN || y.isNaN then nan
  else if x.isInf then (if y.isInf && x.sign != y.sign then nan else x)
  else if y.isInf then y
  else
    let k := min x.exp2 y.exp2
    let a : Int := (if x.sign = 1 then -1 else 1) * (x.mant * 2 ^ (x.exp2 - k).toNat : Nat)
    let b : Int := (if y.sign = 1 then -1 else 1) * (y.mant * 2 ^ (y.exp2 - k).toNat : Nat)
    if a + b = 0 then ⟨signBit (x.sign == 1 && y.sign == 1)⟩
    else ofScaled (decide (a + b < 0)) (a + b).natAbs k

def neg (x : F64) : F64 := if x.isNaN then x else ⟨(x.bits + 2 ^ 63) % 2 ^ 64⟩

def sub (x y : F64) : F64 := add x (neg y)

def mul (x y : F64) : F64 :=
  let s := x.sign != y.sign
  if x.isNaN || y.isNaN then nan
  else if x.isInf || y.isInf then (if x.isZero || y.isZero then nan else inf s)
  else ofScaled s (x.mant * y.mant) (x.exp2 + y.exp2)

def div (x y : F64) : F64 :=
  let s := x.sign != y.sign
  if x.isNaN || y.isNaN then nan
  else if x.isInf then (if y.isInf then nan else inf s)
  else if y.isInf then ⟨signBit s⟩
  else if y.isZero then (if x.isZero then nan else inf s)
  else ofRatio s x.mant y.mant (x.exp2 - y.exp2)

/-- The float nearest to `n * 10 ^ e`. -/
def ofDecimal (neg : Bool) (n : Nat) (e : Int) : F64 :=
  if 0 ≤ e then ofScaled neg (n * 10 ^ e.toNat) 0 else ofRatio neg n (10 ^ (-e).toNat) 0

end F64

namespace RefLib

def digitValue (c : Char) : Nat := c.toNat - '0'.toNat

def digitsValue (cs : List Char) : Nat := cs.foldl (fun n c => 10 * n + digitValue c) 0

/-- The exponent part of a decimal literal: empty, or `e` with an optional sign and digits. -/
def parseExponent (cs : List Char) : Option Int :=
  match cs with
  | [] => some 0
  | c :: rest =>
    if c = 'e' ∨ c = 'E' then
      let (neg, ds) := match rest with
        | '-' :: ds => (true, ds)
        | '+' :: ds => (false, ds)
        | ds => (false, ds)
      if ds ≠ [] ∧ ds.all Char.isDigit then
        some (if neg then -(digitsValue ds : Int) else digitsValue ds)
      else none
    else none

/-- `strconv.ParseFloat(s, 64)` on decimal literals, infinities and NaN. -/
def parseFloat (s : String) : Option F64 :=
  let (neg, cs) := match s.data with
    | '-' :: cs => (true, cs)
    | '+' :: cs => (false, cs)
    | cs => (false, cs)
  let low := String.mk (cs.map Char.toLower)
  if low = "inf" ∨ low = "infinity" then some (F64.inf neg)
  else if low = "nan" ∧ cs = s.data then some F64.nan
  else
    let ip := cs.takeWhile Char.isDigit
    let r1 := cs.dropWhile Char.isDigit
    let (fp, r2) := match r1 with
      | '.' :: r => (r.takeWhile Char.isDigit, r.dropWhile Char.isDigit)
      | r => ([], r)
    if ip = [] ∧ fp = [] then none
    else
      match parseExponent r2 with
      | none => none
      | some e =>
        let x := F64.ofDecimal neg (digitsValue (ip ++ fp)) (e - fp.length)
        if x.isInf then none else some x

/-- Whether `num / den` is at least `10 ^ t`. -/
def geTenPow (num den : Nat) (t : Int) : Bool :=
  if 0 ≤ t then decide (den * 10 ^ t.toNat ≤ num) else decide (den ≤ num * 10 ^ (-t).toNat)

/-- The decimal exponent `d` of a positive `num / den`: `10 ^ d ≤ num / den < 10 ^ (d + 1)`,
found from an estimate that is at most three too small. -/
def decimalExponent (num den : Nat) : Int :=
  let est : Int := ((Nat.log2 num : Int) - Nat.log2 den - 1) * 30102 / 100000 - 1
  if !geTenPow num den (est + 1) then est
  else if !geTenPow num den (est + 2) then est + 1
  else if !geTenPow num den (est + 3) then est + 2
  else est + 3

/-- The `p` leading decimal digits of `num / den` rounded half to even, as a number, with the
decimal exponent of the rounded value. -/
def roundDigits (num den : Nat) (p : Nat) : Nat × Int :=
  let d := decimalExponent num den
  let t := d - p + 1
  let a := if 0 ≤ t then num else num * 10 ^ (-t).toNat
  let b := if 0 ≤ t then den * 10 ^ t.toNat else den
  let n := if 2 * (a % b) > b ∨ (2 * (a % b) = b ∧ a / b % 2 = 1) then a / b + 1 else a / b
  if n = 10 ^ p then (10 ^ (p - 1), d + 1) else (n, d)

def stripZeros (cs : List Char) : List Char := (cs.reverse.dropWhile (· = '0')).reverse

/-- The search for the shortest digits that read back as `x`, from `p` digits on. -/
def shortestDigits (x : F64) (num den : Nat) : Nat → Nat → Nat × Int
  | 0, p => roundDigits num den p
  | fuel + 1, p =>
    let r := roundDigits num den p
    if (F64.ofDecimal false r.1 (r.2 - p + 1)).bits = x.bits % 2 ^ 63 then r
    else shortestDigits x num den fuel (p + 1)

/-- The layout of the format `'g'`: digits `ds` (no trailing zero) of a number whose decimal
exponent is `d`; the exponent form is used when `d < -4` or `d ≥ eprec`. -/
def layoutG (ds : List Char) (d : Int) (eprec : Int) : String :=
  if d < -4 ∨ d ≥ eprec then
    let m := match ds with
      | [] => "0"
      | [c] => String.singleton c
      | c :: rest => String.singleton c ++ "." ++ String.mk rest
    let e := toString d.natAbs
    m ++ "e" ++ (if d < 0 then "-" else "+") ++ (if e.length < 2 then "0" ++ e else e)
  else if d < 0 then "0." ++ String.mk (List.replicate (-d - 1).toNat '0' ++ ds)
  else
    let ip := ds.take (d.toNat + 1) ++ List.replicate (d.toNat + 1 - ds.length) '0'
    let fp := ds.drop (d.toNat + 1)
    String.mk ip ++ (if fp = [] then "" else "." ++ String.mk fp)

/-- `strconv.FormatFloat(x, 'g', prec, 64)`; `prec = none` is the shortest form (`-1`). -/
def formatG (x : F64) (prec : Option Nat) : String :=
  if x.isNaN then "NaN"
  else if x.isInf then (if x.sign = 1 then "-Inf" else "+Inf")
  else if x.isZero then (if x.sign = 1 then "-0" else "0")
  else
    let num := if 0 ≤ x.exp2 then x.mant * 2 ^ x.exp2.toNat else x.mant
    let den := if 0 ≤ x.exp2 then 1 else 2 ^ (-x.exp2).toNat
    let r := match prec with
      | some p => roundDigits num den (max p 1)
      | none => shortestDigits x num den 16 1
    let eprec : Int := match prec with
      | some p => max p 1
      | none => 6
    (if x.sign = 1 then "-" else "") ++ layoutG (stripZeros (toString r.1).data) r.2 eprec

/-- `unicode.IsSpace`. -/
def isSpace (c : Char) : Bool :=
  c = '\t' || c = '\n' || c = '\x0b' || c = '\x0c' || c = '\r' || c = ' ' || c.toNat = 0x85
    || c.toNat = 0xA0 || c.toNat = 0x1680 || (0x2000 ≤ c.toNat && c.toNat ≤ 0x200A)
    || c.toNat = 0x2028 || c.toNat = 0x2029 || c.toNat = 0x202F || c.toNat = 0x205F
    || c.toNat = 0x3000

/-- The loop of `strings.Fields`: `cur` is the field being read, in reverse. -/
def fieldsLoop : List Char → List Char → List String
  | [], cur => if cur = [] then [] else [String.mk cur.reverse]
  | c :: cs, cur =>
    if isSpace c then
      if cur = [] then fieldsLoop cs [] else String.mk cur.reverse :: fieldsLoop cs []
    else fieldsLoop cs (c :: cur)

def hexDigit (n : Nat) : Char := "0123456789abcdef".data.getD n '0'

/-- The text of one character inside `%q`. -/
def quoteChar (c : Char) : String :=
  if c = '"' then "\\\"" else if c = '\\' then "\\\\"
  else if c = '\x07' then "\\a" else if c = '\x08' then "\\b" else if c = '\x0c' then "\\f"
  else if c = '\n' then "\\n" else if c = '\r' then "\\r" else if c = '\t' then "\\t"
  else if c = '\x0b' then "\\v"
  else if c.toNat < 0x20 ∨ c.toNat = 0x7F then
    "\\x" ++ String.mk [hexDigit (c.toNat / 16), hexDigit (c.toNat % 16)]
  else if 0x80 ≤ c.toNat ∧ c.toNat ≤ 0xA0 then
    "\\u00" ++ String.mk [hexDigit (c.toNat / 16), hexDigit (c.toNat % 16)]
  else String.singleton c

def quote (s : String) : String :=
  "\"" ++ String.join (s.data.map quoteChar) ++ "\""

end RefLib

/-- The reference instance of `GoLib`. -/
def refLib : GoLib where
  formatFloat x := RefLib.formatG x (some 10)
  parseFloat := RefLib.parseFloat
  fields s := RefLib.fieldsLoop s.data []
  fadd := F64.add
  fsub := F64.sub
  fmul := F64.mul
  fdiv := F64.div
  printFloat x := RefLib.formatG x none
  quote := RefLib.quote


/-! ## Stack effect of the instructions -/

/-- The number of stack values an instruction pops. -/
def Instruction.pops : Instruction → Nat
  | .basic InstructionIgnore => 1
  | .basic InstructionPushNull => 0
  | .basic InstructionDup => 1
  | .basic InstructionNot => 1
  | .basic _ => 2
  | .call _ nargs => nargs
  | _ => 0

/-- The number of stack values an instruction pushes. -/
def Instruction.pushes : Instruction → Nat
  | .basic InstructionIgnore => 0
  | .basic InstructionDup => 2
  | _ => 1

/-- The depth of the stack after an expression, counted from a floor that the expression must
not go below: `none` when an instruction would pop more than the `d` values above the floor. -/
def stackCheck : Expression → Nat → Option Nat
  | [], d => some d
  | i :: rest, d => if i.pops ≤ d then stackCheck rest (d - i.pops + i.pushes) else none


/-! ## The tree walker -/

mutual
/-- The function `walkPaths`, returning the items it sends to the channel `out`, in order, each
with the path its slice holds at the send. The source builds the path of a child with
`append(path, i)`, which writes into the backing array of `path` when there is spare capacity, so
that the slices of two children can share one array; the list kept here is what the slice holds
when the item is sent and not what a receiver reads later: `walkSlices` keeps the slices and the
backing arrays, and `readAtSend` and `readAhead` are the two receivers. -/
def walkPaths : Value → List TreePathSegment → List TreeWalkItem
  | .array v, path => ⟨path, true⟩ :: (walkArrayLoop v 0 path ++ [⟨path, false⟩])
  | .map v, path => ⟨path, true⟩ :: (walkMapLoop v path ++ [⟨path, false⟩])
  | _, path => [⟨path, true⟩, ⟨path, false⟩]
/-- The loop of `walkPaths` over an array; `i` is the index of the next element. -/
def walkArrayLoop : List Value → Nat → List TreePathSegment → List TreeWalkItem
  | [], _, _ => []
  | el :: els, i, path => walkPaths el (path ++ [.int i]) ++ walkArrayLoop els (i + 1) path
/-- The loop of `walkPaths` over a map. -/
def walkMapLoop : List (String × Value) → List TreePathSegment → List TreeWalkItem
  | [], _ => []
  | (key, el) :: es, path => walkPaths el (path ++ [.string key]) ++ walkMapLoop es path
end

/-- The function `getPaths`: the items received from the channel until `pathsRoutine` closes
it, for a receiver that reads the path of each item before the walker goroutine runs on. The
channel is unbuffered and the walker runs on as soon as an item is received; `getPathsAhead` has
the items of a receiver that the walker overtakes. -/
def getPaths (data : Value) : List TreeWalkItem := walkPaths data []

mutual
/-- The number of nodes of a document: the value itself and the nodes of its children. -/
def Value.nodeCount : Value → Nat
  | .array v => 1 + nodeCountArray v
  | .map v => 1 + nodeCountMap v
  | _ => 1
def nodeCountArray : List Value → Nat
  | [] => 0
  | el :: els => el.nodeCount + nodeCountArray els
def nodeCountMap : List (String × Value) → Nat
  | [] => 0
  | (_, el) :: es => el.nodeCount + nodeCountMap es
end

/-! ## The program and the driver -/

structure Block where
  pattern : Pattern
  action : Expression

structure Program where
  blocks : List Block

/-- The inner loop of `Eval`, over the blocks of the program for one node. -/
def evalBlocks (L : GoLib) (node : TreeWalkItem) : List Block → EvalState → Option EvalState
  | [], state => some state
  | block :: rest, state =>
    match matchPattern L state block.pattern node with
    | none => none
    | some (true, state) =>
      match evalAction L state block.action node with
      | none => none
      | some state => evalBlocks L node rest state
    | some (false, state) => evalBlocks L node rest state

/-- The outer loop of `Eval`, over the nodes received from `getPaths`. -/
def evalNodes (L : GoLib) (program : Program) : List TreeWalkItem → EvalState → Option EvalState
  | [], state => some state
  | node :: rest, state =>
    match evalBlocks L node program.blocks state with
    | none => none
    | some state => evalNodes L program rest state

/-- The function `Eval`, returning the final state, whose `out` is all that was printed, in the
runs where each path is read as it was sent (`getPaths`); `EvalAhead` has the runs where the
walker goroutine is one send ahead of the loop. -/
def Eval (L : GoLib) (program : Program) (data : Value) : Option EvalState :=
  evalNodes L program (getPaths data) ⟨[], [], data, ""⟩

/-! ## The lexer -/

/-- The `lexer`. The input is a list of characters, `start`, `pos` and `width` count characters
(the source counts the bytes of a UTF-8 string), and `tokenStream` holds the tokens sent to the
channel so far, the oldest first. -/
structure lexer where
  input : List Char
  start : Nat
  pos : Nat
  width : Nat
  nestingLevel : Int
  tokenStream : List Token

def lexer.emit (l : lexer) (t : TokenType) : lexer :=
  { l with
    tokenStream :=
      l.tokenStream ++ [⟨t, String.mk ((l.input.drop l.start).take (l.pos - l.start))⟩]
    start := l.pos }

/-- The method `errorf`, given the formatted message; the state it returns is nil. -/
def lexer.errorf (l : lexer) (msg : String) : lexer :=
  { l with tokenStream := l.tokenStream ++ [⟨TokenErr, msg⟩] }

/-- The method `next`; the rune `eof` is `none`. -/
def lexer.next (l : lexer) : Option Char × lexer :=
  if l.pos ≥ l.input.length then (none, { l with width := 0 })
  else (l.input.get? l.pos, { l with width := 1, pos := l.pos + 1 })

def lexer.backup (l : lexer) : lexer := { l with pos := l.pos - l.width }

def lexer.ignore (l : lexer) : lexer := { l with start := l.pos }

def lexer.peek (l : lexer) : Option Char × lexer :=
  let w := l.width
  let r := l.next
  (r.1, { r.2.backup with width := w })

/-- The test `strings.IndexRune(valid, r) >= 0`. -/
def indexRune (valid : String) (r : Option Char) : Bool :=
  match r with
  | none => false
  | some c => valid.data.contains c

def lexer.accept (l : lexer) (valid : String) : Bool × lexer :=
  let r := l.next
  if indexRune valid r.1 then (true, r.2) else (false, r.2.backup)

/-- The loop `for valid(l.next()) {}` of `acceptAll` and `acceptAllPassing`; it calls `next` at
most once more than there are characters in the input. -/
def lexer.acceptLoop (valid : Option Char → Bool) : Nat → lexer → lexer
  | 0, l => l
  | n + 1, l =>
    let r := l.next
    if valid r.1 then lexer.acceptLoop valid n r.2 else r.2

def lexer.acceptAll (l : lexer) (valid : String) : lexer :=
  (lexer.acceptLoop (indexRune valid) (l.input.length + 1) l).backup

def lexer.acceptAllPassing (l : lexer) (valid : Option Char → Bool) : lexer :=
  (lexer.acceptLoop valid (l.input.length + 1) l).backup

def whitespace : String := " \t"

def whitespaceNewlines : String := " \t\r\n"

def isAlpha (r : Option Char) : Bool :=
  match r with
  | none => false
  | some r => (decide ('a' ≤ r) && decide (r < 'z')) || (decide ('A' ≤ r) && decide (r ≤ 'Z'))

def isDigit (r : Option Char) : Bool :=
  match r with
  | none => false
  | some r => decide ('0' ≤ r) && decide (r ≤ '9')

def isAlphaNumeric (r : Option Char) : Bool := isAlpha r || isDigit r

def isIdentifierStartRune (r : Option Char) : Bool :=
  isAlpha r || r == some '_' || r == some '$'

def isIdentifierRune (r : Option Char) : Bool := isIdentifierStartRune r || isDigit r

/-- The state functions of the lexer; the nil state is `none`. -/
inductive stateFunc where
  | lexBlockStart
  | lexPattern
  | lexIndexPattern
  | lexFilterPattern
  | lexPatternEnd
  | lexStartAction
  | lexAction
  | lexNumberLiteral
  | lexStringLiteral
  | lexIdentifier
deriving DecidableEq

open stateFunc

def lexBlockStartFn (l : lexer) : Option stateFunc × lexer :=
  let l := (l.acceptAll whitespace).ignore
  if l.peek.1 = none then (none, l.peek.2.emit TokenEOF)
  else
    let l := l.peek.2
    let a := l.accept "^"
    let l := if a.1 then a.2.emit TokenCircum else a.2
    let b := l.accept "\x7b"
    if b.1 then
      let l := b.2.emit TokenLBrace
      (some lexStartAction, { l with nestingLevel := l.nestingLevel + 1 })
    else (some lexPattern, b.2)

def lexPatternFn (l : lexer) : Option stateFunc × lexer :=
  let r := l.next
  let l := r.2
  if isIdentifierRune r.1 then (some lexIndexPattern, l.backup)
  else if r.1 = some '(' then
    (some lexFilterPattern, { l with nestingLevel := l.nestingLevel + 1 }.emit TokenLParen)
  else if r.1 = some '*' then (some lexPatternEnd, l.emit TokenAst)
  else (none, l.errorf "Invalid Pattern")

def lexIndexPatternFn (l : lexer) : Option stateFunc × lexer :=
  (some lexPatternEnd, (l.acceptAllPassing isIdentifierRune).emit TokenIndexPattern)

def lexPatternEndFn (l : lexer) : Option stateFunc × lexer :=
  let a := l.accept "."
  if a.1 then (some lexPattern, a.2.emit TokenDot)
  else
    let l := (a.2.acceptAll whitespaceNewlines).ignore
    let b := l.accept "\x7b"
    if !b.1 then
      if b.2.peek.1 = none then (none, b.2.peek.2.emit TokenEOF)
      else (none, b.2.peek.2.errorf "Missing Action")
    else
      let l := b.2.emit TokenLBrace
      (some lexStartAction, { l with nestingLevel := l.nestingLevel + 1 })

/-- The table `charTokens` of `lexAction`. -/
def charTokens (r : Option Char) : Option TokenType :=
  if r = some '+' then some TokenAdd
  else if r = some '-' then some TokenSub
  else if r = some '/' then some TokenDiv
  else if r = some '*' then some TokenAst
  else if r = some '.' then some TokenDot
  else if r = some ',' then some TokenComma
  else if r = some ';' then some TokenSemicolon
  else if r = some '=' then some TokenAssign
  else if r = some '!' then some TokenNot
  else none

/-- The table `doubleCharTokens` of `lexAction`: the inner table of the rune `r`, applied to the
rune `r2` that follows it; the outer `none` says that `r` has no inner table. -/
def doubleCharTokens (r : Option Char) : Option (Option Char → Option TokenType) :=
  let eq (t : TokenType) : Option Char → Option TokenType :=
    fun r2 => if r2 = some '=' then some t else none
  if r = some '+' then some (eq TokenAddAssign)
  else if r = some '-' then some (eq TokenSubAssign)
  else if r = some '*' then some (eq TokenAstAssign)
  else if r = some '/' then some (eq TokenDivAssign)
  else if r = some '=' then some (eq TokenEqual)
  else if r = some '!' then some (eq TokenNotEqual)
  else none

/-- The text `fmt.Sprintf("Invalid Token: " + string(r))`: the rune is part of the format, so
that a percent sign is read as a verb without a letter. -/
def invalidTokenMessage (r : Char) : String :=
  if r = '%' then "Invalid Token: %!(NOVERB)" else "Invalid Token: " ++ String.singleton r

/-- The `switch` of `lexAction`, after the two-character tokens have been tried. -/
def lexActionSwitch (l : lexer) (r : Option Char) : Option stateFunc × lexer :=
  match r with
  | none => (none, l.errorf "Unclosed Action")
  | some c =>
    if c = '(' then
      (some lexAction, { l with nestingLevel := l.nestingLevel + 1 }.emit TokenLParen)
    else if c = ')' then
      let l := { l with nestingLevel := l.nestingLevel - 1 }.emit TokenRParen
      if l.nestingLevel > 0 then (some lexAction, l) else (none, l)
    else if c = '\x7b' then
      (some lexAction, { l with nestingLevel := l.nestingLevel + 1 }.emit TokenLBrace)
    else if c = '\x7d' then
      let l := { l with nestingLevel := l.nestingLevel - 1 }.emit TokenRBrace
      if l.nestingLevel > 0 then (some lexAction, l) else (none, l)
    else if c = '[' then
      (some lexAction, { l with nestingLevel := l.nestingLevel + 1 }.emit TokenLBrack)
    else if c = ']' then
      let l := { l with nestingLevel := l.nestingLevel - 1 }.emit TokenRBrack
      if l.nestingLevel > 0 then (some lexAction, l) else (none, l)
    else
      match charTokens r with
      | some charToken => (some lexAction, l.emit charToken)
      | none =>
        if isDigit r then (some lexNumberLiteral, l)
        else if isIdentifierStartRune r then (some lexIdentifier, l)
        else if c = '"' then (some lexStringLiteral, l.emit TokenDoubleQuote)
        else (none, l.errorf (invalidTokenMessage c))

def lexActionFn (l : lexer) : Option stateFunc × lexer :=
  let l := (l.acceptAll whitespaceNewlines).ignore
  let r := l.next
  match doubleCharTokens r.1 with
  | some doubleCharMap =>
    let r2 := r.2.next
    match doubleCharMap r2.1 with
    | some doubleCharToken => (some lexAction, r2.2.emit doubleCharToken)
    | none => lexActionSwitch r2.2.backup r.1
  | none => lexActionSwitch r.2 r.1

def lexNumberLiteralFn (L : GoLib) (l : lexer) : Option stateFunc × lexer :=
  let l := l.acceptAllPassing isDigit
  let a := l.accept "."
  let l := if a.1 then a.2.acceptAllPassing isDigit else a.2
  if isIdentifierRune l.peek.1 then
    let l := l.peek.2.next.2
    (none, l.errorf
      ("Bad number: " ++ L.quote (String.mk ((l.input.drop l.start).take (l.pos - l.start)))))
  else (some lexAction, l.peek.2.emit TokenNumber)

/-- The loop of `lexStringLiteral`; it calls `next` at most once more than there are characters
in the input. -/
def lexStringLiteralLoop : Nat → lexer → Option stateFunc × lexer
  | 0, l => (none, l)
  | n + 1, l =>
    let r := l.next
    if r.1 = none then (none, r.2.errorf "Missing closing quote in string literal")
    else if r.1 = some '"' then
      (some lexAction, ((r.2.backup.emit TokenStringLiteral).next.2).emit TokenDoubleQuote)
    else lexStringLiteralLoop n r.2

def lexStringLiteralFn (l : lexer) : Option stateFunc × lexer :=
  lexStringLiteralLoop (l.input.length + 1) l

def lexIdentifierFn (l : lexer) : Option stateFunc × lexer :=
  (some lexAction, (l.acceptAllPassing isIdentifierRune).emit TokenIdentifier)

mutual
/-- The call `state(l)` of a state function. `lexFilterPattern` and `lexStartAction` run a loop
of their own from `lexAction` until the nil state, and then return `lexPatternEnd` and
`lexBlockStart`. The first argument bounds the number of nested calls. -/
def stateFunc.call (L : GoLib) : Nat → stateFunc → lexer → Outcome (Option stateFunc × lexer)
  | 0, _, _ => .outOfFuel
  | fuel + 1, state, l =>
    match state with
    | lexBlockStart => .done (lexBlockStartFn l)
    | lexPattern => .done (lexPatternFn l)
    | lexIndexPattern => .done (lexIndexPatternFn l)
    | lexFilterPattern =>
      match lexer.runLoop L fuel (some lexAction) l with
      | .done l => .done (some lexPatternEnd, l)
      | .panic msg => .panic msg
      | .outOfFuel => .outOfFuel
    | lexPatternEnd => .done (lexPatternEndFn l)
    | lexStartAction =>
      match lexer.runLoop L fuel (some lexAction) l with
      | .done l => .done (some lexBlockStart, l)
      | .panic msg => .panic msg
      | .outOfFuel => .outOfFuel
    | lexAction => .done (lexActionFn l)
    | lexNumberLiteral => .done (lexNumberLiteralFn L l)
    | lexStringLiteral => .done (lexStringLiteralFn l)
    | lexIdentifier => .done (lexIdentifierFn l)
/-- The loop `for state := ...; state != nil; state = state(l)` of `run`, `lexFilterPattern`
and `lexStartAction`. -/
def lexer.runLoop (L : GoLib) : Nat → Option stateFunc → lexer → Outcome lexer
  | _, none, l => .done l
  | 0, some _, _ => .outOfFuel
  | fuel + 1, some state, l =>
    match stateFunc.call L fuel state l with
    | .done (next, l) => lexer.runLoop L fuel next l
    | .panic msg => .panic msg
    | .outOfFuel => .outOfFuel
end

/-- The function `Lex` with the method `run`: all the tokens the lexer sends before it closes
the channel, for a receiver that takes every one of them. -/
def Lex (L : GoLib) (fuel : Nat) (input : String) : Outcome (List Token) :=
  match lexer.runLoop L fuel (some lexBlockStart) ⟨input.data, 0, 0, 0, 0, []⟩ with
  | .done l => .done l.tokenStream
  | .panic msg => .panic msg
  | .outOfFuel => .outOfFuel

/-! ## The parser of programs -/

/-- The method `parsePatternSegment`: the segment (nil is `none`), `action`, `eof`. -/
def parsePatternSegment (L : GoLib) (fuel : Nat) (p : parser) :
    Outcome (Option PatternSegment × Bool × Bool × parser) :=
  match p.next with
  | .panic msg => .panic msg
  | .outOfFuel => .outOfFuel
  | .done (token, p) =>
    match token.typ with
    | TokenEOF => .done (none, false, true, p.rewind)
    | TokenLBrace => .done (none, true, false, p.rewind)
    | TokenIndexPattern => .done (some (.PatternSegmentIndex token.val), false, false, p)
    | TokenLParen =>
      match parseExpression L fuel 0 p with
      | .panic msg => .panic msg
      | .outOfFuel => .outOfFuel
      | .done (filter, noExpression, p) =>
        if noExpression then .panic "Missing expression in filter"
        else
          match p.accept TokenRParen with
          | .panic msg => .panic msg
          | .outOfFuel => .outOfFuel
          | .done (_, hasCloseParen, p) =>
            if !hasCloseParen then .panic "Missing close paren"
            else .done (some (.PatternSegmentFilter filter), false, false, p)
    | TokenAst => .done (some .PatternSegmentAll, false, false, p)
    | _ => .panic "Expected pattern segment"

/-- The loop of `parsePattern` over the segments that follow a dot. -/
def parsePatternLoop (L : GoLib) : Nat → Pattern → parser → Outcome (Pattern × parser)
  | 0, _, _ => .outOfFuel
  | fuel + 1, pattern, p =>
    match p.accept TokenDot with
    | .panic msg => .panic msg
    | .outOfFuel => .outOfFuel
    | .done (_, hasAnotherSegment, p) =>
      if !hasAnotherSegment then .done (pattern, p)
      else
        match parsePatternSegment L fuel p with
        | .panic msg => .panic msg
        | .outOfFuel => .outOfFuel
        | .done (segment, action, eof, p) =>
          if eof || action then .panic "Expected pattern segment"
          else
            match segment with
            | none => .panic "Expected pattern segment"
            | some segment =>
              parsePatternLoop L fuel { pattern with segments := pattern.segments ++ [segment] } p

/-- The method `parsePattern`: the pattern and `eof`. -/
def parsePattern (L : GoLib) (fuel : Nat) (p : parser) : Outcome (Pattern × Bool × parser) :=
  match p.accept TokenCircum with
  | .panic msg => .panic msg
  | .outOfFuel => .outOfFuel
  | .done (_, isFirst, p) =>
    let pattern : Pattern := ⟨[], isFirst⟩
    match parsePatternSegment L fuel p with
    | .panic msg => .panic msg
    | .outOfFuel => .outOfFuel
    | .done (segment, action, eof, p) =>
      if eof then .done (pattern, true, p)
      else if action then .done (pattern, false, p)
      else
        match segment with
        | none => .panic "nil pattern segment"
        | some segment =>
          match parsePatternLoop L fuel { pattern with segments := [segment] } p with
          | .panic msg => .panic msg
          | .outOfFuel => .outOfFuel
          | .done (pattern, p) => .done (pattern, false, p)

/-- The loop of `Parse` over the blocks. -/
def parseBlocks (L : GoLib) : Nat → List Block → parser → Outcome (List Block)
  | 0, _, _ => .outOfFuel
  | fuel + 1, blocks, p =>
    match parsePattern L fuel p with
    | .panic msg => .panic msg
    | .outOfFuel => .outOfFuel
    | .done (pattern, eof, p) =>
      if eof then .done blocks
      else
        match p.accept TokenLBrace with
        | .panic msg => .panic msg
        | .outOfFuel => .outOfFuel
        | .done (_, hasAction, p) =>
          if hasAction then
            match parseExpression L fuel 0 p with
            | .panic msg => .panic msg
            | .outOfFuel => .outOfFuel
            | .done (action, noAction, p) =>
              match p.accept TokenRBrace with
              | .panic msg => .panic msg
              | .outOfFuel => .outOfFuel
              | .done (_, hasActionClose, p) =>
                if !hasActionClose then .panic "Error: Missing \x7d at end of action"
                else
                  parseBlocks L fuel
                    (blocks ++ [⟨pattern, if noAction then [] else action⟩]) p
          else parseBlocks L fuel (blocks ++ [⟨pattern, []⟩]) p

/-- The function `Parse`, on the tokens that the lexer sends. -/
def Parse (L : GoLib) (fuel : Nat) (tokenStream : List Token) : Outcome Program :=
  match parseBlocks L fuel [] ⟨tokenStream, ⟨TokenErr, ""⟩, false⟩ with
  | .done blocks => .done ⟨blocks⟩
  | .panic msg => .panic msg
  | .outOfFuel => .outOfFuel

/-- The function `main` after the document has been read: lexing, parsing and evaluation; the
result is what the program prints. -/
def runProgram (L : GoLib) (fuel : Nat) (input : String) (data : Value) : Outcome String :=
  match Lex L fuel input with
  | .panic msg => .panic msg
  | .outOfFuel => .outOfFuel
  | .done tokens =>
    match Parse L fuel tokens with
    | .panic msg => .panic msg
    | .outOfFuel => .outOfFuel
    | .done program =>
      match Eval L program data with
      | none => .panic "evaluation"
      | some state => .done state.out

/-! ## Atoms of an expression -/

/-- An atom of the claims on precedence: a variable, or a number literal with its text. -/
inductive Atom where
  | variable (name : String)
  | number (text : String)

/-- The token of an atom. -/
def Atom.token : Atom → Token
  | .variable name => ⟨TokenIdentifier, name⟩
  | .number text => ⟨TokenNumber, text⟩

/-- The instruction an atom compiles to: `none` for a literal that `strconv.ParseFloat`
rejects. -/
def Atom.instruction (L : GoLib) : Atom → Option Instruction
  | .variable name => some (.pushVariable name)
  | .number text => (L.parseFloat text).map Instruction.pushNumber

/-- A token that ends an expression after an atom: it is no operator of `oploop`, no opening
parenthesis (which would turn an identifier into a call) and no lexing error. -/
def endsExpression (t : TokenType) : Bool :=
  (binops t).isNone && (assigns t).isNone && t != TokenSemicolon && t != TokenDot
    && t != TokenNotEqual && t != TokenLParen && t != TokenErr

/-! ## Nested singleton maps -/

/-- The value the claim on path assignment into a scalar names: the nested singleton maps
`{str(k1): {str(k2): ... {str(kn): v}}}` with `str` the cast to string, and `v` itself for the
empty path. -/
def nestedSingletonMaps (L : GoLib) : List Value → Value → Value
  | [], v => v
  | k :: ks, v => .map [(k.castToString L, nestedSingletonMaps L ks v)]

/-! ## Items below a path -/

/-- The item of a walk started at the path `p` that corresponds to the item `it` of the walk of
the same value started at the empty path. -/
def TreeWalkItem.under (p : List TreePathSegment) (it : TreeWalkItem) : TreeWalkItem :=
  ⟨p ++ it.path, it.first⟩

/-! ## The program of the scenario with two blocks -/

/-- The tokens of the program `^* { s += "x" } { println(s) }`. -/
def scenario6Tokens : List Token :=
  [⟨TokenCircum, "^"⟩, ⟨TokenAst, "*"⟩, ⟨TokenLBrace, "\x7b"⟩, ⟨TokenIdentifier, "s"⟩,
    ⟨TokenAddAssign, "+="⟩, ⟨TokenDoubleQuote, "\""⟩, ⟨TokenStringLiteral, "x"⟩,
    ⟨TokenDoubleQuote, "\""⟩, ⟨TokenRBrace, "\x7d"⟩, ⟨TokenLBrace, "\x7b"⟩,
    ⟨TokenIdentifier, "println"⟩, ⟨TokenLParen, "("⟩, ⟨TokenIdentifier, "s"⟩,
    ⟨TokenRParen, ")"⟩, ⟨TokenRBrace, "\x7d"⟩, ⟨TokenEOF, ""⟩]

/-- The program that `Parse` builds from these tokens: the block of the pattern `^*` and the
block without a pattern. -/
def scenario6Program : Program :=
  ⟨[⟨⟨[.PatternSegmentAll], true⟩,
      [.pushVariable "s", .basic InstructionDup, .pushString "x", .basic InstructionAdd,
        .basic InstructionAssign]⟩,
    ⟨⟨[], false⟩, [.pushVariable "s", .call SubroutinePrintln 1]⟩]⟩

/-! ## The walk with the slices the source sends -/

/-- A Go slice of path segments: the backing array it points into, its length and its
capacity. The nil slice has length and capacity 0. -/
structure PathSlice where
  arr : Nat
  len : Nat
  cap : Nat

/-- The backing arrays allocated so far, each as the list of its cells written so far. -/
abbrev PathHeap := List (List TreePathSegment)

/-- The capacity that `append` gives the new backing array of a full slice of capacity `cap`
whose elements are interface values of 16 bytes: 1 for the nil slice and twice the capacity
otherwise (the rule of `growslice` below 256 elements, where the doubled size is a size class
of the allocator). -/
def growCap (cap : Nat) : Nat := if cap = 0 then 1 else 2 * cap

/-- The elements of a slice, as the backing array holds them now. -/
def PathHeap.read (h : PathHeap) (s : PathSlice) : List TreePathSegment :=
  (h.getD s.arr []).take s.len

/-- The call `append(s, x)`: with spare capacity the element is written into the backing array
of `s`, in place, and otherwise the elements are copied into a new backing array. -/
def PathHeap.append (h : PathHeap) (s : PathSlice) (x : TreePathSegment) :
    PathHeap × PathSlice :=
  if s.len < s.cap then
    (h.set s.arr ((h.getD s.arr []).take s.len ++ x :: (h.getD s.arr []).drop (s.len + 1)),
      ⟨s.arr, s.len + 1, s.cap⟩)
  else (h ++ [h.read s ++ [x]], ⟨h.length, s.len + 1, growCap s.cap⟩)

/-- A send on the channel `out`: the slice and the flag of the item, and the backing arrays as
they are when the walker reaches the send. -/
structure PathSend where
  slice : PathSlice
  first : Bool
  heap : PathHeap

mutual
/-- The function `walkPaths` on slices: the backing arrays it leaves and its sends, in order. -/
def walkSlices : Value → PathSlice → PathHeap → PathHeap × List PathSend
  | .array v, path, h =>
    let r := walkSlicesArray v 0 path h
    (r.1, ⟨path, true, h⟩ :: (r.2 ++ [⟨path, false, r.1⟩]))
  | .map v, path, h =>
    let r := walkSlicesMap v path h
    (r.1, ⟨path, true, h⟩ :: (r.2 ++ [⟨path, false, r.1⟩]))
  | _, path, h => (h, [⟨path, true, h⟩, ⟨path, false, h⟩])
/-- The loop of `walkPaths` over an array, on slices. -/
def walkSlicesArray : List Value → Nat → PathSlice → PathHeap → PathHeap × List PathSend
  | [], _, _, h => (h, [])
  | el :: els, i, path, h =>
    let a := h.append path (.int i)
    let r := walkSlices el a.2 a.1
    let r2 := walkSlicesArray els (i + 1) path r.1
    (r2.1, r.2 ++ r2.2)
/-- The loop of `walkPaths` over a map, on slices. -/
def walkSlicesMap : List (String × Value) → PathSlice → PathHeap → PathHeap × List PathSend
  | [], _, h => (h, [])
  | (key, el) :: es, path, h =>
    let a := h.append path (.string key)
    let r := walkSlices el a.2 a.1
    let r2 := walkSlicesMap es path r.1
    (r2.1, r.2 ++ r2.2)
end

/-- The items a receiver gets that reads the path of each item at the send itself, before the
walker goroutine runs on. -/
def readAtSend (sends : List PathSend) : List TreeWalkItem :=
  sends.map fun s => ⟨s.heap.read s.slice, s.first⟩

/-- The items a receiver gets when, after each receive, the walker goroutine runs on to its next
send, or to its end, before the receiver reads the path of the item: the path is read from the
backing arrays as they are at the next send, and for the last item as the walk leaves them. -/
def readAhead : List PathSend → PathHeap → List TreeWalkItem
  | [], _ => []
  | [s], final => [⟨final.read s.slice, s.first⟩]
  | s :: t :: rest, final => ⟨t.heap.read s.slice, s.first⟩ :: readAhead (t :: rest) final

/-- The items of `getPaths` for a receiver of the second kind. -/
def getPathsAhead (data : Value) : List TreeWalkItem :=
  readAhead (walkSlices data ⟨0, 0, 0⟩ []).2 (walkSlices data ⟨0, 0, 0⟩ []).1

/-- The function `Eval` in the runs where the walker goroutine is one send ahead of the loop
over the items. -/
def EvalAhead (L : GoLib) (program : Program) (data : Value) : Option EvalState :=
  evalNodes L program (getPathsAhead data) ⟨[], [], data, ""⟩

/-- The document `[[[[1, 2]]]]`, whose two numbers are the children of a node of depth 3. -/
def nestedPairDocument : Value :=
  .array [.array [.array [.array [.number F64.one, .number F64.two]]]]

/-- The program `*.*.*.* { println(path, $0) }` as `Parse` builds it. -/
def printDepthFourProgram : Program :=
  ⟨[⟨⟨[.PatternSegmentAll, .PatternSegmentAll, .PatternSegmentAll, .PatternSegmentAll], false⟩,
      [.pushVariable "path", .pushVariable "$0", .call SubroutinePrintln 2]⟩]⟩
/-- A slice that the backing arrays hold: its cells are written, and its array is allocated when
it has spare capacity. -/
def PathHeap.Holds (h : PathHeap) (s : PathSlice) : Prop :=
  s.len ≤ (h.getD s.arr []).length ∧ (s.len < s.cap → s.arr < h.length)

/-- What a walk below the slice `s` leaves as it is on the way from the backing arrays `h` to
`h2`: no array is lost, the cells of `s` are kept, and so is every other array of `h`. -/
def PathHeap.Frame (h h2 : PathHeap) (s : PathSlice) : Prop :=
  h.length ≤ h2.length ∧
  ∀ a n, a < h.length → (a = s.arr → n ≤ s.len) → (h2.getD a []).take n = (h.getD a []).take n

/-! ## What the lexer keeps of the source -/

/-- The states of the loops inside `lexStartAction` and `lexFilterPattern`. -/
def stateFunc.inner : stateFunc → Bool
  | lexAction | lexNumberLiteral | lexStringLiteral | lexIdentifier => true
  | _ => false

mutual
theorem Value.clone_eq : ∀ v : Value, v.clone = v
  | .null => rfl
  | .bool _ => rfl
  | .number _ => rfl
  | .string _ => rfl
  | .array els => by rw [Value.clone, cloneArray_eq els]
  | .map es => by rw [Value.clone, cloneMap_eq es]
theorem cloneArray_eq : ∀ els : List Value, cloneArray els = els
  | [] => rfl
  | el :: els => by rw [cloneArray, Value.clone_eq el, cloneArray_eq els]
theorem cloneMap_eq : ∀ es : List (String × Value), cloneMap es = es
  | [] => rfl
  | (key, value) :: es => by rw [cloneMap, Value.clone_eq value, cloneMap_eq es]
end

theorem mapGet_mapSet_self (m : List (String × Value)) (k : String) (v : Value) :
    mapGet (mapSet m k v) k = some v := by
  induction m with
  | nil => simp [mapSet, mapGet]
  | cons e es ih =>
    obtain ⟨k', v'⟩ := e
    by_cases h : k' = k
    · simp [mapSet, mapGet, h]
    · simp [mapSet, mapGet, h, ih]

theorem mapGet_mapSet_ne (m : List (String × Value)) (k j : String) (v : Value) (h : j ≠ k) :
    mapGet (mapSet m k v) j = mapGet m j := by
  induction m with
  | nil => simp [mapSet, mapGet, Ne.symm h]
  | cons e es ih =>
    obtain ⟨k', v'⟩ := e
    by_cases hk : k' = k
    · subst hk
      simp [mapSet, mapGet, Ne.symm h]
    · by_cases hj : k' = j
      · subst hj
        simp [mapSet, mapGet, hk]
      · simp [mapSet, mapGet, hk, hj, ih]

theorem mapGet_mapSet (m : List (String × Value)) (k j : String) (v : Value) :
    mapGet (mapSet m k v) j = if j = k then some v else mapGet m j := by
  by_cases h : j = k
  · subst h
    simp [mapGet_mapSet_self]
  · simp [h, mapGet_mapSet_ne m k j v h]

theorem mapGet_isSome_iff (m : List (String × Value)) (k : String) :
    (mapGet m k).isSome = true ↔ k ∈ m.map Prod.fst := by
  induction m with
  | nil => simp [mapGet]
  | cons e es ih =>
    obtain ⟨k', v'⟩ := e
    by_cases h : k' = k
    · simp [mapGet, h]
    · simp [mapGet, h, ih, Ne.symm h]

theorem mem_keys_mapSet (m : List (String × Value)) (k j : String) (v : Value) :
    j ∈ (mapSet m k v).map Prod.fst ↔ j ∈ m.map Prod.fst ∨ j = k := by
  rw [← mapGet_isSome_iff, ← mapGet_isSome_iff, mapGet_mapSet]
  by_cases h : j = k <;> simp [h]

theorem mapGet_of_mem (es : List (String × Value)) (h : (es.map Prod.fst).Nodup) :
    ∀ e ∈ es, mapGet es e.1 = some e.2 := by
  induction es with
  | nil => simp
  | cons e0 es ih =>
    obtain ⟨k0, v0⟩ := e0
    simp only [List.map_cons, List.nodup_cons] at h
    intro e he
    rcases List.mem_cons.mp he with rfl | he
    · simp [mapGet]
    · have hne : k0 ≠ e.1 := by
        intro heq
        exact h.1 (heq ▸ List.mem_map_of_mem Prod.fst he)
      simp [mapGet, hne, ih h.2 e he]

/-! ## Casts -/

/-- Every cast is total and returns a value of the target type, except the cast to an array of
a number whose rounding is negative or above the largest length of a slice. -/
theorem castToType_total (L : GoLib) (v : Value) (t : ValueType)
    (h : ∀ n, v = .number n → t = TypeArray →
      0 ≤ F64.roundInt n ∧ F64.roundInt n ≤ maxSliceLen) :
    ∃ r, castToType L v t = some r ∧ r.typ = t := by
  cases t <;> simp [castToType, Value.typ]
  cases v <;> simp [Value.castToArray, Value.typ]
  rename_i n
  have := h n rfl rfl
  omega

/-- C1, at the failing input: `castToType(ValueNumber(-1), TypeArray)` panics, for
`ValueNumber.castToArray` calls `make([]Value, -1)`; the claim asks for a value of type Array. -/
theorem castToType_negative_number_panics (L : GoLib) :
    castToType L (.number F64.negOne) TypeArray = none := by
  simp [castToType, Value.castToArray]
  decide


/-! ## Equality -/

theorem F64.eq_self (x : F64) (h : x.isNaN = false) : F64.eq x x = true := by
  simp [F64.eq, h]

/-- `ValueNull.equals` as the source has it: true on a null, otherwise the call of `equals` on
the cast of null to the type of the argument. -/
theorem Value.equals_null (L : GoLib) (w : Value) :
    Value.equals L .null w =
      if w.typ = TypeNull then some true
      else (castToType L .null w.typ).bind fun c => Value.equals L c w := by
  cases w <;>
    simp [Value.equals, Value.typ, castToType, Value.castToBool, Value.castToNumber,
      Value.castToString, Value.castToArray, Value.castToMap, arrayEqualsLoop, mapEqualsLoop]

mutual
theorem Value.equals_refl (L : GoLib) :
    ∀ v : Value, v.WF → v.NaNFree → v.equals L v = some true
  | .null, _, _ => by simp [Value.equals]
  | .bool _, _, _ => by simp [Value.equals, ValueBool.equals, Value.castToBool]
  | .number n, _, hn => by
    rw [Value.NaNFree] at hn
    simp [Value.equals, ValueNumber.equals, Value.castToNumber, F64.eq_self n hn]
  | .string _, _, _ => by simp [Value.equals, ValueString.equals, Value.castToString]
  | .array els, hw, hn => by
    rw [Value.WF] at hw
    rw [Value.NaNFree] at hn
    simp [Value.equals, Value.castToArray, arrayEqualsLoop_refl L els hw hn]
  | .map es, hw, hn => by
    rw [Value.WF] at hw
    rw [Value.NaNFree] at hn
    have h1 := mapEqualsLoop_refl L es es (mapGet_of_mem es hw.1) hw.2 hn
    simp only [Value.equals, Value.castToMap, h1]
    congr 1
    rw [List.all_eq_true]
    intro e he
    exact (mapGet_isSome_iff es e.1).mpr (List.mem_map_of_mem Prod.fst he)
theorem arrayEqualsLoop_refl (L : GoLib) :
    ∀ els : List Value, WFArray els → NaNFreeArray els → arrayEqualsLoop L els els = some true
  | [], _, _ => by simp [arrayEqualsLoop]
  | el :: els, hw, hn => by
    rw [WFArray] at hw
    rw [NaNFreeArray] at hn
    simp [arrayEqualsLoop, Value.equals_refl L el hw.1 hn.1, arrayEqualsLoop_refl L els hw.2 hn.2]
theorem mapEqualsLoop_refl (L : GoLib) :
    ∀ es rhs : List (String × Value), (∀ e ∈ es, mapGet rhs e.1 = some e.2) →
      WFMap es → NaNFreeMap es → mapEqualsLoop L es rhs = some true
  | [], _, _, _, _ => by simp [mapEqualsLoop]
  | (key, value) :: es, rhs, hg, hw, hn => by
    rw [WFMap] at hw
    rw [NaNFreeMap] at hn
    have h0 : mapGet rhs key = some value := hg (key, value) (List.mem_cons_self _ _)
    have h1 := mapEqualsLoop_refl L es rhs (fun e he => hg e (List.mem_cons_of_mem _ he)) hw.2 hn.2
    simp [mapEqualsLoop, h0, Value.equals_refl L value hw.1 hn.1, h1]
end

/-- C2, as the code has it: a value that holds no NaN equals itself. -/
theorem equals_reflexive_without_nan (L : GoLib) (v : Value) (hw : v.WF) (hn : v.NaNFree) :
    v.equals L v = some true :=
  Value.equals_refl L v hw hn

/-- C2 fails on a NaN: `ValueNumber.equals` compares two float64 with `==`, and a NaN is not
equal to itself. -/
theorem equals_nan_not_reflexive :
    Value.equals refLib (.number F64.nan) (.number F64.nan) = some false := by
  simp [Value.equals, ValueNumber.equals, Value.castToNumber]
  decide

theorem equals_reflexive_without_nan_witness :
    (Value.map [("a", .array [.number F64.two, .null]), ("b", .string "x")]).WF ∧
    (Value.map [("a", .array [.number F64.two, .null]), ("b", .string "x")]).NaNFree ∧
    Value.equals refLib
      (.map [("a", .array [.number F64.two, .null]), ("b", .string "x")])
      (.map [("a", .array [.number F64.two, .null]), ("b", .string "x")]) = some true :=
  have hw : (Value.map [("a", .array [.number F64.two, .null]), ("b", .string "x")]).WF := by
    simp [Value.WF, WFMap, WFArray]
  have hn : (Value.map [("a", .array [.number F64.two, .null]), ("b", .string "x")]).NaNFree := by
    simp [Value.NaNFree, NaNFreeMap, NaNFreeArray]
    decide
  ⟨hw, hn, equals_reflexive_without_nan refLib _ hw hn⟩


/-! ## Array division and multiplication -/

theorem sliceRange_nat (v : List Value) (a b : Nat) (hab : a ≤ b) (hb : b ≤ v.length) :
    sliceRange v (a : Int) (b : Int) = some ((v.drop a).take (b - a)) := by
  have h : (0 : Int) ≤ a ∧ (a : Int) ≤ b ∧ (b : Int) ≤ v.length := by omega
  have e : ((b : Int) - (a : Int)).toNat = b - a := by omega
  simp [sliceRange, h, e]

/-- The loop of `ValueArray.div`, `n` iterations before its end: it appends `n` chunks, which
are the next elements of `v` in order; chunk `i + j` has `pw + 1` elements when `i + j < rem`
and `pw` elements otherwise. -/
theorem divLoop_spec (v : List Value) (pw rem : Nat) :
    ∀ (n i progress : Nat) (res : List Value),
      progress + n * pw + (min (i + n) rem - min i rem) ≤ v.length →
      ∃ chunks : List (List Value),
        ValueArray.divLoop v (pw : Int) (rem : Int) n (i : Int) (progress : Int) res
            = some (res ++ chunks.map Value.array) ∧
          chunks.length = n ∧
          chunks.flatten = (v.drop progress).take (n * pw + (min (i + n) rem - min i rem)) ∧
          ∀ (j : Nat) (hj : j < chunks.length),
            (chunks.get ⟨j, hj⟩).length = pw + if i + j < rem then 1 else 0 := by
  intro n
  induction n with
  | zero =>
    intro i progress res _
    refine ⟨[], ?_, rfl, ?_, ?_⟩
    · simp [ValueArray.divLoop]
    · simp
    · intro j hj
      simp at hj
  | succ n ih =>
    intro i progress res hlen
    rw [Nat.succ_mul] at hlen
    by_cases hi : i < rem
    · have hb : progress + pw + 1 ≤ v.length := by omega
      have hs := sliceRange_nat v progress (progress + pw + 1) (by omega) hb
      have hlen' : (progress + pw + 1) + n * pw + (min (i + 1 + n) rem - min (i + 1) rem)
          ≤ v.length := by omega
      obtain ⟨chunks, h1, h2, h3, h4⟩ :=
        ih (i + 1) (progress + pw + 1) (res ++ [.array ((v.drop progress).take (pw + 1))]) hlen'
      refine ⟨(v.drop progress).take (pw + 1) :: chunks, ?_, ?_, ?_, ?_⟩
      · have hi' : (i : Int) < (rem : Int) := by omega
        have e : progress + pw + 1 - progress = pw + 1 := by omega
        simp only [ValueArray.divLoop, hi', if_true]
        push_cast at hs h1
        rw [hs, e]
        simp only []
        rw [h1]
        simp
      · simp [h2]
      · rw [List.flatten_cons, h3]
        have e : (n + 1) * pw + (min (i + (n + 1)) rem - min i rem)
            = (pw + 1) + (n * pw + (min (i + 1 + n) rem - min (i + 1) rem)) := by
          rw [Nat.succ_mul]
          omega
        conv_rhs => rw [e, List.take_add, List.drop_drop]
        rfl
      · intro j hj
        cases j with
        | zero =>
          simp [hi]
          omega
        | succ j =>
          have hj' : j < chunks.length := by simpa using hj
          have := h4 j hj'
          simp only [List.get_cons_succ]
          rw [this]
          have e : i + 1 + j = i + (j + 1) := by omega
          rw [e]
    · have hb : progress + pw ≤ v.length := by omega
      have hs := sliceRange_nat v progress (progress + pw) (by omega) hb
      have hlen' : (progress + pw) + n * pw + (min (i + 1 + n) rem - min (i + 1) rem)
          ≤ v.length := by omega
      obtain ⟨chunks, h1, h2, h3, h4⟩ :=
        ih (i + 1) (progress + pw) (res ++ [.array ((v.drop progress).take pw)]) hlen'
      refine ⟨(v.drop progress).take pw :: chunks, ?_, ?_, ?_, ?_⟩
      · have hi' : ¬ (i : Int) < (rem : Int) := by omega
        have e : progress + pw - progress = pw := by omega
        simp only [ValueArray.divLoop, hi', if_false]
        push_cast at hs h1
        rw [hs, e]
        simp only []
        rw [h1]
        simp
      · simp [h2]
      · rw [List.flatten_cons, h3]
        have e : (n + 1) * pw + (min (i + (n + 1)) rem - min i rem)
            = pw + (n * pw + (min (i + 1 + n) rem - min (i + 1) rem)) := by
          rw [Nat.succ_mul]
          omega
        conv_rhs => rw [e, List.take_add, List.drop_drop]
      · intro j hj
        cases j with
        | zero =>
          simp [hi]
          omega
        | succ j =>
          have hj' : j < chunks.length := by simpa using hj
          have := h4 j hj'
          simp only [List.get_cons_succ]
          rw [this]
          have e : i + 1 + j = i + (j + 1) := by omega
          rw [e]

/-- `ValueArray.div` with a positive number of parts `p`: the result is an array of `p` arrays
whose concatenation is `a`, the chunk of index `j` having `len / p + 1` elements when
`j < len % p` and `len / p` elements otherwise. -/
theorem ValueArray_div_spec (L : GoLib) (a : List Value) (w : Value)
    (hp : 1 ≤ F64.roundInt (w.castToNumber L)) :
    ∃ chunks : List (List Value),
      ValueArray.div L a w = some (.array (chunks.map Value.array)) ∧
        chunks.length = (F64.roundInt (w.castToNumber L)).toNat ∧
        chunks.flatten = a ∧
        ∀ (j : Nat) (hj : j < chunks.length),
          (chunks.get ⟨j, hj⟩).length =
            a.length / (F64.roundInt (w.castToNumber L)).toNat +
              if j < a.length % (F64.roundInt (w.castToNumber L)).toNat then 1 else 0 := by
  obtain ⟨P, hP⟩ : ∃ P : Nat, F64.roundInt (w.castToNumber L) = (P : Int) :=
    ⟨(F64.roundInt (w.castToNumber L)).toNat, by omega⟩
  have hP0 : 0 < P := by omega
  have hmod : a.length % P < P := Nat.mod_lt _ hP0
  have hlen : 0 + P * (a.length / P) + (min (0 + P) (a.length % P) - min 0 (a.length % P))
      ≤ a.length := by
    have := Nat.div_add_mod a.length P
    omega
  obtain ⟨chunks, h1, h2, h3, h4⟩ :=
    divLoop_spec a (a.length / P) (a.length % P) P 0 0 [] hlen
  refine ⟨chunks, ?_, ?_, ?_, ?_⟩
  · have hne : ¬ (P : Int) = 0 := by omega
    have e1 : Int.tdiv (a.length : Int) (P : Int) = ((a.length / P : Nat) : Int) :=
      (Int.ofNat_tdiv _ _).symm
    have e2 : Int.tmod (a.length : Int) (P : Int) = ((a.length % P : Nat) : Int) :=
      (Int.ofNat_tmod _ _).symm
    simp only [ValueArray.div, hP, hne, if_false, e1, e2, Int.toNat_ofNat]
    simp only [Nat.cast_zero] at h1
    rw [h1]
    simp
  · rw [h2, hP]
    simp
  · rw [h3]
    have e : P * (a.length / P) + a.length % P = a.length := Nat.div_add_mod a.length P
    have e' : P * (a.length / P) + (min (0 + P) (a.length % P) - min 0 (a.length % P))
        = a.length := by
      omega
    rw [e']
    simp
  · intro j hj
    rw [h4 j hj, hP]
    simp


/-- C3: for `1 <= round(n) <= len(a)`, `a.div(n)` is an array of arrays whose concatenation, in
order, is `a`. -/
theorem array_div_concat (L : GoLib) (a : List Value) (n : F64)
    (h1 : 1 ≤ F64.roundInt n) (_h2 : F64.roundInt n ≤ a.length) :
    ∃ chunks : List (List Value),
      Value.div L (.array a) (.number n) = some (.array (chunks.map Value.array)) ∧
        chunks.flatten = a := by
  obtain ⟨chunks, h, _, hc, _⟩ := ValueArray_div_spec L a (.number n) h1
  exact ⟨chunks, h, hc⟩

theorem array_div_concat_witness :
    1 ≤ F64.roundInt F64.two ∧
    F64.roundInt F64.two ≤ ([Value.null, .bool true, .string "x"].length : Int) ∧
    ∃ chunks : List (List Value),
      Value.div refLib (.array [.null, .bool true, .string "x"]) (.number F64.two)
          = some (.array (chunks.map Value.array)) ∧
        chunks.flatten = [.null, .bool true, .string "x"] :=
  ⟨by decide, by decide, array_div_concat refLib _ F64.two (by decide) (by decide)⟩

theorem ceil_div_of_mod_pos (l p : Nat) (hp : 0 < p) (hr : 0 < l % p) :
    (l + p - 1) / p = l / p + 1 := by
  have h := Nat.div_add_mod l p
  have hlt := Nat.mod_lt l hp
  apply Nat.div_eq_of_lt_le
  · rw [Nat.add_mul, Nat.mul_comm]
    omega
  · rw [Nat.succ_mul, Nat.add_mul, Nat.mul_comm]
    omega

/-- C4: for `p = round(n) >= 1`, `a.div(n)` has exactly `p` chunks; the first `len(a) mod p` of
them have `ceil(len(a) / p)` elements and the others `floor(len(a) / p)`. -/
theorem array_div_chunk_sizes (L : GoLib) (a : List Value) (n : F64)
    (hp : 1 ≤ F64.roundInt n) :
    ∃ chunks : List (List Value),
      Value.div L (.array a) (.number n) = some (.array (chunks.map Value.array)) ∧
        (chunks.length : Int) = F64.roundInt n ∧
        ∀ (j : Nat) (hj : j < chunks.length),
          (chunks.get ⟨j, hj⟩).length =
            if j < a.length % (F64.roundInt n).toNat then
              (a.length + (F64.roundInt n).toNat - 1) / (F64.roundInt n).toNat
            else a.length / (F64.roundInt n).toNat := by
  obtain ⟨chunks, h, hl, _, hs⟩ := ValueArray_div_spec L a (.number n) hp
  simp only [Value.castToNumber] at hl hs
  refine ⟨chunks, h, ?_, ?_⟩
  · rw [hl]
    omega
  · intro j hj
    rw [hs j hj]
    by_cases hlt : j < a.length % (F64.roundInt n).toNat
    · have hpos : 0 < (F64.roundInt n).toNat := by omega
      rw [if_pos hlt, if_pos hlt, ceil_div_of_mod_pos _ _ hpos (by omega)]
    · rw [if_neg hlt, if_neg hlt]
      rfl

theorem array_div_chunk_sizes_witness :
    1 ≤ F64.roundInt F64.two ∧
    ∃ chunks : List (List Value),
      Value.div refLib (.array [.null, .bool true, .string "x"]) (.number F64.two)
          = some (.array (chunks.map Value.array)) ∧
        (chunks.length : Int) = F64.roundInt F64.two ∧
        ∀ (j : Nat) (hj : j < chunks.length),
          (chunks.get ⟨j, hj⟩).length =
            if j < [Value.null, .bool true, .string "x"].length % (F64.roundInt F64.two).toNat
            then
              ([Value.null, .bool true, .string "x"].length + (F64.roundInt F64.two).toNat - 1)
                / (F64.roundInt F64.two).toNat
            else [Value.null, .bool true, .string "x"].length / (F64.roundInt F64.two).toNat :=
  ⟨by decide, array_div_chunk_sizes refLib _ F64.two (by decide)⟩

theorem mulLoop_length (v : List Value) :
    ∀ (n : Nat) (res : List Value),
      (ValueArray.mulLoop v n res).length = res.length + n * v.length := by
  intro n
  induction n with
  | zero => intro res; simp [ValueArray.mulLoop]
  | succ n ih =>
    intro res
    rw [ValueArray.mulLoop, ih, List.length_append, Nat.succ_mul]
    omega

/-- C5, as the code has it: when the int `round(n)` is not negative, `a.mul(n)` has
`len(a) * round(n)` elements. -/
theorem array_mul_length (L : GoLib) (a : List Value) (n : F64) (h : 0 ≤ F64.roundInt n) :
    ∃ r : List Value,
      Value.mul L (.array a) (.number n) = some (.array r) ∧
        (r.length : Int) = (a.length : Int) * F64.roundInt n := by
  refine ⟨ValueArray.mulLoop a (F64.roundInt n).toNat [], rfl, ?_⟩
  rw [mulLoop_length]
  obtain ⟨P, hP⟩ : ∃ P : Nat, F64.roundInt n = (P : Int) := ⟨(F64.roundInt n).toNat, by omega⟩
  rw [hP]
  simp [Int.mul_comm]

theorem array_mul_length_witness :
    0 ≤ F64.roundInt F64.two ∧
    ∃ r : List Value,
      Value.mul refLib (.array [.null, .bool true]) (.number F64.two) = some (.array r) ∧
        (r.length : Int) = ([Value.null, .bool true].length : Int) * F64.roundInt F64.two :=
  ⟨by decide, array_mul_length refLib _ F64.two (by decide)⟩

/-- C5 fails on a number that is `>= 0` but too large for an `int`: the float64 `2^63` rounds to
`2^63`, its conversion to `int` is negative, the loop of `ValueArray.mul` does not run and the
product of a one-element array is empty. -/
theorem array_mul_length_fails :
    F64.nonneg F64.twoPow63 = true ∧ F64.roundMag F64.twoPow63 = 2 ^ 63 ∧
      Value.mul refLib (.array [.null]) (.number F64.twoPow63) = some (.array []) ∧
      (([] : List Value).length : Int) ≠ ([Value.null].length : Int) * F64.roundInt F64.twoPow63 ∧
      ([] : List Value).length ≠ [Value.null].length * F64.roundMag F64.twoPow63 := by
  refine ⟨by decide, by decide, ?_, by decide, by decide⟩
  have h : F64.roundInt F64.twoPow63 = F64.minInt64 := by decide
  simp [Value.mul, Value.mulOf, ValueArray.mul, Value.castToNumber, h, F64.minInt64,
    ValueArray.mulLoop]


/-! ## Persistent update -/

theorem Value.withAssignment_nil (L : GoLib) (v value : Value) :
    v.withAssignment L [] value = some value := by
  cases v <;> simp [Value.withAssignment]

/-- `ValueMap.withAssignment` on a non-empty path: the entry under the first index, or null
when there is none, is replaced by its own update along the rest of the path. -/
theorem Value.withAssignment_map (L : GoLib) (m : List (String × Value)) (k : Value)
    (path : List Value) (value : Value) :
    (Value.map m).withAssignment L (k :: path) value =
      (((mapGet m (k.castToString L)).getD Value.null).withAssignment L path value).map
        fun part => Value.map (mapSet m (k.castToString L) part) := by
  rw [Value.withAssignment, cloneMap_eq]
  cases mapGet m (k.castToString L) <;> simp only [Option.getD] <;>
    cases Value.withAssignment L _ path value <;> rfl

/-- C7, as the code has it: for every map `m`, `m.withAssignment([k], v)` has the keys of `m`
and `castToString(k)`, maps `castToString(k)` to `v` and every other key to what `m` maps it
to; with a path `[k, k2]`, whenever the assignment returns, only the entry under
`castToString(k)` changes (it becomes the update along `[k2]` of the old entry, or of null when
there was none); and when that entry is a map (or is missing, which counts as the empty map)
the assignment returns and inside the entry only the entry under `castToString(k2)` changes. -/
theorem map_withAssignment_siblings (L : GoLib) (m : List (String × Value)) (k k2 v : Value) :
    (∃ r : List (String × Value),
      (Value.map m).withAssignment L [k] v = some (.map r) ∧
        (∀ j, j ∈ r.map Prod.fst ↔ j ∈ m.map Prod.fst ∨ j = k.castToString L) ∧
        mapGet r (k.castToString L) = some v ∧
        ∀ j, j ≠ k.castToString L → mapGet r j = mapGet m j) ∧
    (∀ m2 : List (String × Value),
      (mapGet m (k.castToString L) = some (.map m2) ∨
        (mapGet m (k.castToString L) = none ∧ m2 = [])) →
      ∃ r r2 : List (String × Value),
        (Value.map m).withAssignment L [k, k2] v = some (.map r) ∧
          (∀ j, j ∈ r.map Prod.fst ↔ j ∈ m.map Prod.fst ∨ j = k.castToString L) ∧
          (∀ j, j ≠ k.castToString L → mapGet r j = mapGet m j) ∧
          mapGet r (k.castToString L) = some (.map r2) ∧
          (∀ j, j ∈ r2.map Prod.fst ↔ j ∈ m2.map Prod.fst ∨ j = k2.castToString L) ∧
          mapGet r2 (k2.castToString L) = some v ∧
          ∀ j, j ≠ k2.castToString L → mapGet r2 j = mapGet m2 j) ∧
    (∀ res, (Value.map m).withAssignment L [k, k2] v = some res →
      ∃ (r : List (String × Value)) (inner : Value),
        res = .map r ∧
          (∀ j, j ∈ r.map Prod.fst ↔ j ∈ m.map Prod.fst ∨ j = k.castToString L) ∧
          (∀ j, j ≠ k.castToString L → mapGet r j = mapGet m j) ∧
          mapGet r (k.castToString L) = some inner ∧
          ((mapGet m (k.castToString L)).getD Value.null).withAssignment L [k2] v
            = some inner) := by
  refine ⟨?_, ?_, ?_⟩
  · refine ⟨mapSet m (k.castToString L) v, ?_, ?_, ?_, ?_⟩
    · rw [Value.withAssignment_map, Value.withAssignment_nil]
      rfl
    · exact fun j => mem_keys_mapSet m _ j v
    · exact mapGet_mapSet_self m _ v
    · exact fun j hj => mapGet_mapSet_ne m _ j v hj
  · intro m2 hm2
    refine ⟨mapSet m (k.castToString L) (.map (mapSet m2 (k2.castToString L) v)),
      mapSet m2 (k2.castToString L) v, ?_, ?_, ?_, ?_, ?_, ?_, ?_⟩
    · rw [Value.withAssignment_map]
      rcases hm2 with h | ⟨h, rfl⟩
      · rw [h]
        simp only [Option.getD]
        rw [Value.withAssignment_map, Value.withAssignment_nil]
        rfl
      · rw [h]
        simp only [Option.getD]
        simp [Value.withAssignment, mapSet]
    · exact fun j => mem_keys_mapSet m _ j _
    · exact fun j hj => mapGet_mapSet_ne m _ j _ hj
    · exact mapGet_mapSet_self m _ _
    · exact fun j => mem_keys_mapSet m2 _ j v
    · exact mapGet_mapSet_self m2 _ v
    · exact fun j hj => mapGet_mapSet_ne m2 _ j v hj
  · intro res hres
    rw [Value.withAssignment_map] at hres
    cases hin : ((mapGet m (k.castToString L)).getD Value.null).withAssignment L [k2] v with
    | none => simp [hin] at hres
    | some inner =>
      rw [hin] at hres
      simp only [Option.map_some', Option.some.injEq] at hres
      refine ⟨mapSet m (k.castToString L) inner, inner, hres.symm, ?_, ?_, ?_, rfl⟩
      · exact fun j => mem_keys_mapSet m _ j _
      · exact fun j hj => mapGet_mapSet_ne m _ j _ hj
      · exact mapGet_mapSet_self m _ _

/-- C7 fails one level down when the entry under `k` is an array and `k2` is no index of it:
in the map with the entry `a: [null]`, the assignment along `[a, 1]` panics on the index out of
range, and returns no map at all; along `[a]` alone it returns, also over this entry. -/
theorem map_withAssignment_array_entry_panics :
    mapGet [("a", Value.array [.null])] ((Value.string "a").castToString refLib)
      = some (.array [.null]) ∧
    (Value.map [("a", .array [.null])]).withAssignment refLib
      [.string "a", .number F64.one] (.bool true) = none ∧
    (Value.map [("a", .array [.null])]).withAssignment refLib [.string "a"] (.bool true)
      = some (.map [("a", .bool true)]) :=
  ⟨rfl, rfl, rfl⟩

theorem map_withAssignment_siblings_witness :
    (mapGet [("a", Value.map [("b", .number F64.two)]), ("c", .null)]
        ((Value.string "a").castToString refLib) = some (.map [("b", .number F64.two)]) ∨
      (mapGet [("a", Value.map [("b", .number F64.two)]), ("c", .null)]
        ((Value.string "a").castToString refLib) = none ∧
        [("b", Value.number F64.two)] = [])) ∧
    (∃ r r2 : List (String × Value),
      (Value.map [("a", Value.map [("b", .number F64.two)]), ("c", .null)]).withAssignment refLib
          [.string "a", .string "d"] (.bool true) = some (.map r) ∧
        mapGet r "c" = some .null ∧ mapGet r "a" = some (.map r2) ∧
        mapGet r2 "d" = some (.bool true) ∧ mapGet r2 "b" = some (.number F64.two)) ∧
    (∃ r : List (String × Value),
      (Value.map [("a", .number F64.one), ("c", .null)]).withAssignment refLib
          [.string "a"] (.bool true) = some (.map r) ∧
        mapGet r "a" = some (.bool true) ∧ mapGet r "c" = some .null) :=
  have h : mapGet [("a", Value.map [("b", .number F64.two)]), ("c", .null)]
      ((Value.string "a").castToString refLib) = some (.map [("b", .number F64.two)]) := rfl
  ⟨Or.inl h,
    match (map_withAssignment_siblings refLib _ (.string "a") (.string "d") (.bool true)).2.1 _
      (Or.inl h) with
    | ⟨r, r2, h1, _, h3, h4, _, h6, h7⟩ =>
      ⟨r, r2, h1, (h3 "c" (by decide)).trans rfl, h4, h6, (h7 "b" (by decide)).trans rfl⟩,
    match (map_withAssignment_siblings refLib [("a", .number F64.one), ("c", .null)]
      (.string "a") .null (.bool true)).1 with
    | ⟨r, h1, _, h3, h4⟩ => ⟨r, h1, h3, (h4 "c" (by decide)).trans rfl⟩⟩

/-! ## Frame of an assignment -/

/-- Materialising a stack value changes neither the stack, the document nor the output, and
leaves the store as it is or adds the root variable, which was absent, with the value null. -/
theorem StackValue.toValue_frame (L : GoLib) :
    ∀ (sv : StackValue) (state state' : EvalState) (v : Value),
      sv.toValue L state = some (v, state') →
      state'.stack = state.stack ∧ state'.data = state.data ∧ state'.out = state.out ∧
        (state'.vars = state.vars ∨
          ∃ y, sv.root = some y ∧ mapGet state.vars y = none ∧
            state'.vars = mapSet state.vars y .null) := by
  intro sv
  induction sv with
  | value w =>
    intro state state' v h
    simp only [StackValue.toValue, Option.some.injEq, Prod.mk.injEq] at h
    obtain ⟨_, rfl⟩ := h
    exact ⟨rfl, rfl, rfl, Or.inl rfl⟩
  | variableReference name =>
    intro state state' v h
    simp only [StackValue.toValue] at h
    cases hg : mapGet state.vars name with
    | none =>
      rw [hg] at h
      simp only [Option.some.injEq, Prod.mk.injEq] at h
      obtain ⟨_, rfl⟩ := h
      exact ⟨rfl, rfl, rfl, Or.inr ⟨name, rfl, hg, rfl⟩⟩
    | some val =>
      rw [hg] at h
      simp only [Option.some.injEq, Prod.mk.injEq] at h
      obtain ⟨_, rfl⟩ := h
      exact ⟨rfl, rfl, rfl, Or.inl rfl⟩
  | indexReference parent idx ih =>
    intro state state' v h
    simp only [StackValue.toValue] at h
    cases hp : parent.toValue L state with
    | none => simp [hp] at h
    | some r =>
      obtain ⟨pv, st⟩ := r
      rw [hp] at h
      cases hi : pv.index L idx with
      | none => simp [hi] at h
      | some res =>
        simp only [hi, Option.some.injEq, Prod.mk.injEq] at h
        obtain ⟨_, rfl⟩ := h
        exact ih state st pv hp

/-- A write through an address changes the store at the root variable of the address only. -/
theorem StackValue.assignPath_frame (L : GoLib) :
    ∀ (sv : StackValue) (state state' : EvalState) (path : List Value) (val : Value),
      sv.assignPath L state path val = some state' →
      ∃ x new, sv.root = some x ∧ state' = { state with vars := mapSet state.vars x new } := by
  intro sv
  induction sv with
  | value w =>
    intro state state' path val h
    simp [StackValue.assignPath] at h
  | variableReference name =>
    intro state state' path val h
    simp only [StackValue.assignPath, VariableReference.assignPath] at h
    cases hg : mapGet state.vars name with
    | none => simp [hg] at h
    | some old =>
      rw [hg] at h
      cases hw : old.withAssignment L path val with
      | none => simp [hw] at h
      | some new =>
        simp only [hw, Option.some.injEq] at h
        exact ⟨name, new, rfl, h.symm⟩
  | indexReference parent idx ih =>
    intro state state' path val h
    simp only [StackValue.assignPath] at h
    exact ih state state' (idx :: path) val h

/-- C6, as the code has it: an `Assign` through an IndexRef chain rooted at `x` leaves the
document unchanged and the store unchanged outside `x`, except that materialising the assigned
stack value installs null for its root variable when the store did not hold it. -/
theorem assign_frame (L : GoLib) (state state' : EvalState) (rhs parent : StackValue)
    (idx : Value) (rest : List StackValue) (x : String)
    (hstack : state.stack = rhs :: StackValue.indexReference parent idx :: rest)
    (hroot : parent.root = some x)
    (hev : InstructionBasic.eval L InstructionAssign state = some state') :
    state'.data = state.data ∧
      ∀ y, y ≠ x →
        mapGet state'.vars y = mapGet state.vars y ∨
          (rhs.root = some y ∧ mapGet state.vars y = none ∧
            mapGet state'.vars y = some .null) := by
  simp only [InstructionBasic.eval, EvalState.popValue, EvalState.pop, hstack] at hev
  cases hv : rhs.toValue L { state with stack := StackValue.indexReference parent idx :: rest } with
  | none => simp [hv] at hev
  | some r =>
    obtain ⟨v, st1⟩ := r
    obtain ⟨hs1, hd1, _, hv1⟩ := StackValue.toValue_frame L rhs _ st1 v hv
    simp only [hv, EvalState.popAddress, EvalState.pop] at hev
    simp only [] at hs1
    rw [hs1] at hev
    simp only [StackValue.toAddress, Address.assign, Address.assignPath] at hev
    cases ha : parent.assignPath L { st1 with stack := rest } [idx] v with
    | none => simp [ha] at hev
    | some st2 =>
      simp only [ha, Option.some.injEq] at hev
      obtain ⟨x', new, hx', hst2⟩ := StackValue.assignPath_frame L parent _ st2 [idx] v ha
      rw [hroot] at hx'
      simp only [Option.some.injEq] at hx'
      subst hx'
      subst hev
      subst hst2
      refine ⟨hd1, ?_⟩
      intro y hy
      simp only [EvalState.push]
      rw [mapGet_mapSet_ne _ _ _ _ hy]
      rcases hv1 with h | ⟨z, hz, hnone, h⟩
      · left
        rw [h]
      · rw [h]
        by_cases hyz : y = z
        · subst hyz
          right
          exact ⟨hz, hnone, mapGet_mapSet_self _ _ _⟩
        · left
          exact mapGet_mapSet_ne _ _ _ _ hyz

/-- The state of the counterexample to C6: the store holds `x = null` only, and the stack holds
the address `x.k` under the unread variable `y`. -/
theorem assign_frame_fails :
    ∃ state' : EvalState,
      InstructionBasic.eval refLib InstructionAssign
          ⟨[.variableReference "y", .indexReference (.variableReference "x") (.string "k")],
            [("x", .null)], .null, ""⟩
        = some state' ∧
      "y" ≠ "x" ∧
      mapGet state'.vars "y" = some .null ∧
      mapGet [("x", Value.null)] "y" = none :=
  ⟨_, rfl, by decide, rfl, rfl⟩

theorem assign_frame_witness :
    ∃ state' : EvalState,
      InstructionBasic.eval refLib InstructionAssign
          ⟨[.value (.bool true), .indexReference (.variableReference "x") (.string "k")],
            [("x", .null), ("z", .string "s")], .null, ""⟩
        = some state' ∧
      state'.data = .null ∧
      ∀ y, y ≠ "x" →
        mapGet state'.vars y = mapGet [("x", Value.null), ("z", .string "s")] y ∨
          ((StackValue.value (.bool true)).root = some y ∧
            mapGet [("x", Value.null), ("z", .string "s")] y = none ∧
            mapGet state'.vars y = some .null) :=
  ⟨_, rfl, assign_frame refLib
    ⟨[.value (.bool true), .indexReference (.variableReference "x") (.string "k")],
      [("x", .null), ("z", .string "s")], .null, ""⟩ _ (.value (.bool true)) (.variableReference "x")
    (.string "k") [] "x" rfl rfl rfl⟩


/-! ## Arity of a parsed expression -/

theorem stackCheck_append (a b : Expression) (d : Nat) :
    stackCheck (a ++ b) d = (stackCheck a d).bind (stackCheck b) := by
  induction a generalizing d with
  | nil => simp [stackCheck]
  | cons i rest ih =>
    by_cases h : i.pops ≤ d
    · simp [stackCheck, h, ih]
    · simp [stackCheck, h]

theorem binops_effect (t : TokenType) (minPower : Int) (binop : Binop)
    (h : (binops t).filter (fun binop => decide (binop.left ≥ minPower)) = some binop) :
    (Instruction.basic binop.op).pops = 2 ∧ (Instruction.basic binop.op).pushes = 1 := by
  cases t <;> simp [binops, Option.filter] at h <;> obtain ⟨_, rfl⟩ := h <;>
    simp [Instruction.pops, Instruction.pushes]

theorem assigns_effect (t : TokenType) (minPower : Int) (i : InstructionBasic)
    (h : (assigns t).filter (fun _ => decide ((3 : Int) ≥ minPower)) = some i) :
    (Instruction.basic i).pops = 2 ∧ (Instruction.basic i).pushes = 1 := by
  cases t <;> simp [assigns, Option.filter] at h <;> obtain ⟨_, rfl⟩ := h <;>
    simp [Instruction.pops, Instruction.pushes]

set_option linter.unusedTactic false in
/-- Every expression that `parseExpression` returns (with `noExpression` false) passes
`stackCheck` from any depth and ends one value higher. -/
theorem parse_stackCheck (L : GoLib) (fuel : Nat) :
    (∀ minPower p e b p', parseExpression L fuel minPower p = .done (e, b, p') → b = false →
      ∀ d, stackCheck e d = some (d + 1)) ∧
    (∀ expr nargs p e n p', (∀ d, stackCheck expr d = some (d + nargs)) →
      parseCallArgs L fuel expr nargs p = .done (e, n, p') →
      ∀ d, stackCheck e d = some (d + n)) ∧
    (∀ minPower expr p e b p', (∀ d, stackCheck expr d = some (d + 1)) →
      oploop L fuel minPower expr p = .done (e, b, p') →
      ∀ d, stackCheck e d = some (d + 1)) := by
  induction fuel with
  | zero =>
    refine ⟨?_, ?_, ?_⟩
    · intro minPower p e b p' h
      simp [parseExpression] at h
    · intro expr nargs p e n p' _ h
      simp [parseCallArgs] at h
    · intro minPower expr p e b p' _ h
      simp [oploop] at h
  | succ fuel ih =>
    obtain ⟨ihA, ihB, ihC⟩ := ih
    refine ⟨?_, ?_, ?_⟩
    · intro minPower p e b p' h hb
      simp only [parseExpression] at h
      repeat' split at h
      all_goals first
        | (simp at h; done)
        | (simp only [Outcome.done.injEq, Prod.mk.injEq] at h
           obtain ⟨-, rfl, -⟩ := h
           simp at hb; done)
        | (refine ihC _ _ _ _ _ _ ?_ h
           intro d
           have hs := ihA _ _ _ _ _ (by assumption) (Bool.eq_false_iff.mpr (by assumption))
           simp [stackCheck_append, stackCheck, Instruction.pops, Instruction.pushes, hs]; done)
        | (refine ihC _ _ _ _ _ _ ?_ h
           intro d
           have hs := ihB [] 0 _ _ _ _ (by intro d; simp [stackCheck]) (by assumption)
           simp [stackCheck_append, stackCheck, Instruction.pops, Instruction.pushes, hs]; done)
        | (refine ihC _ _ _ _ _ _ ?_ h
           intro d
           simp [stackCheck_append, stackCheck, Instruction.pops, Instruction.pushes]; done)
    · intro expr nargs p e n p' hexpr h
      simp only [parseCallArgs] at h
      repeat' split at h
      all_goals first
        | (simp at h; done)
        | (simp only [Outcome.done.injEq, Prod.mk.injEq] at h
           obtain ⟨rfl, rfl, -⟩ := h
           exact hexpr)
        | (simp only [Outcome.done.injEq, Prod.mk.injEq] at h
           obtain ⟨rfl, rfl, -⟩ := h
           intro d
           have hs := ihA _ _ _ _ _ (by assumption) (Bool.eq_false_iff.mpr (by assumption))
           simp [stackCheck_append, hexpr, hs]
           omega; done)
        | (refine ihB _ _ _ _ _ _ ?_ h
           intro d
           have hs := ihA _ _ _ _ _ (by assumption) (Bool.eq_false_iff.mpr (by assumption))
           simp [stackCheck_append, hexpr, hs]
           omega; done)
    · intro minPower expr p e b p' hexpr h
      simp only [oploop] at h
      repeat' split at h
      all_goals first
        | (simp at h; done)
        | (simp only [Outcome.done.injEq, Prod.mk.injEq] at h
           obtain ⟨rfl, -, -⟩ := h
           exact hexpr)
        | (refine ihC _ _ _ _ _ _ ?_ h
           intro d
           have hs := ihA _ _ _ _ _ (by assumption) (Bool.eq_false_iff.mpr (by assumption))
           have hop := binops_effect _ _ _ (by assumption)
           simp [stackCheck_append, stackCheck, hop.1, hop.2, hs, hexpr]; done)
        | (refine ihC _ _ _ _ _ _ ?_ h
           intro d
           have hs := ihA _ _ _ _ _ (by assumption) (Bool.eq_false_iff.mpr (by assumption))
           have hop := assigns_effect _ _ _ (by assumption)
           simp only [stackCheck_append, stackCheck, hop.1, hop.2, hs, hexpr, Option.some_bind]
           simp [Instruction.pops, Instruction.pushes]; done)
        | (refine ihC _ _ _ _ _ _ ?_ h
           intro d
           have hs := ihA _ _ _ _ _ (by assumption) (Bool.eq_false_iff.mpr (by assumption))
           simp [stackCheck_append, stackCheck, Instruction.pops, Instruction.pushes, hs, hexpr]; done)
        | (refine ihC _ _ _ _ _ _ ?_ h
           intro d
           simp [stackCheck_append, stackCheck, Instruction.pops, Instruction.pushes, hexpr]; done)

theorem EvalState.pop_stack (state st1 : EvalState) (sv : StackValue)
    (h : state.pop = some (sv, st1)) : state.stack = sv :: st1.stack := by
  unfold EvalState.pop at h
  split at h
  · simp at h
  · rename_i value rest heq
    simp only [Option.some.injEq, Prod.mk.injEq] at h
    obtain ⟨rfl, rfl⟩ := h
    exact heq

theorem EvalState.popValue_stack (L : GoLib) (state st1 : EvalState) (v : Value)
    (h : state.popValue L = some (v, st1)) : ∃ sv, state.stack = sv :: st1.stack := by
  unfold EvalState.popValue at h
  split at h
  · simp at h
  · rename_i sv st0 heq
    have h1 := EvalState.pop_stack state st0 sv heq
    have h2 := (StackValue.toValue_frame L sv st0 st1 v h).1
    exact ⟨sv, by rw [h1, h2]⟩

theorem EvalState.popAddress_stack (state st1 : EvalState) (a : Address)
    (h : state.popAddress = some (a, st1)) : ∃ sv, state.stack = sv :: st1.stack := by
  unfold EvalState.popAddress at h
  split at h
  · simp at h
  · rename_i sv st0 heq
    have h1 := EvalState.pop_stack state st0 sv heq
    split at h
    · simp at h
    · simp only [Option.some.injEq, Prod.mk.injEq] at h
      obtain ⟨-, rfl⟩ := h
      exact ⟨sv, h1⟩

theorem Address.assign_stack (L : GoLib) (a : Address) (state state' : EvalState) (val : Value)
    (h : a.assign L state val = some state') : state'.stack = state.stack := by
  cases a with
  | variableReference name =>
    simp only [Address.assign, VariableReference.assign, Option.some.injEq] at h
    subst h
    rfl
  | indexReference parent idx =>
    simp only [Address.assign, Address.assignPath] at h
    obtain ⟨x, new, -, rfl⟩ := StackValue.assignPath_frame L parent state state' [idx] val h
    rfl

theorem popArgs_stack (L : GoLib) :
    ∀ (n : Nat) (args : List Value) (state st1 : EvalState) (args' : List Value),
      popArgs L n args state = some (args', st1) →
      ∃ popped, state.stack = popped ++ st1.stack ∧ popped.length = n := by
  intro n
  induction n with
  | zero =>
    intro args state st1 args' h
    simp only [popArgs, Option.some.injEq, Prod.mk.injEq] at h
    obtain ⟨-, rfl⟩ := h
    exact ⟨[], rfl, rfl⟩
  | succ n ih =>
    intro args state st1 args' h
    simp only [popArgs] at h
    split at h
    · simp at h
    · rename_i v st0 heq
      obtain ⟨sv, hsv⟩ := EvalState.popValue_stack L state st0 v heq
      obtain ⟨popped, hp, hl⟩ := ih _ _ _ _ h
      exact ⟨sv :: popped, by rw [hsv, hp]; rfl, by simp [hl]⟩

/-- The stack effect of one instruction: it removes `pops` values from the top of the stack and
puts `pushes` values there, and leaves the rest of the stack as it is. -/
theorem Instruction.eval_stack (L : GoLib) (i : Instruction) (state state' : EvalState)
    (h : i.eval L state = some state') :
    ∃ popped pushed rest, state.stack = popped ++ rest ∧ state'.stack = pushed ++ rest ∧
      popped.length = i.pops ∧ pushed.length = i.pushes := by
  cases i with
  | pushNumber n =>
    simp only [Instruction.eval, Option.some.injEq] at h
    subst h
    exact ⟨[], [_], state.stack, rfl, rfl, rfl, rfl⟩
  | pushVariable name =>
    simp only [Instruction.eval, Option.some.injEq] at h
    subst h
    exact ⟨[], [_], state.stack, rfl, rfl, rfl, rfl⟩
  | pushString s =>
    simp only [Instruction.eval, Option.some.injEq] at h
    subst h
    exact ⟨[], [_], state.stack, rfl, rfl, rfl, rfl⟩
  | call subroutine nargs =>
    simp only [Instruction.eval, InstructionCall.eval] at h
    split at h
    · simp at h
    · rename_i args st1 heq
      obtain ⟨popped, hp, hl⟩ := popArgs_stack L nargs [] state st1 args heq
      cases subroutine
      simp only [Option.some.injEq] at h
      subst h
      exact ⟨popped, [_], st1.stack, hp, rfl, hl, rfl⟩
  | basic b =>
    simp only [Instruction.eval] at h
    cases b <;> simp only [InstructionBasic.eval] at h
    case InstructionPushNull =>
      simp only [Option.some.injEq] at h
      subst h
      exact ⟨[], [_], state.stack, rfl, rfl, rfl, rfl⟩
    case InstructionIgnore =>
      split at h
      · simp at h
      · rename_i v st1 heq
        obtain ⟨sv, hsv⟩ := EvalState.popValue_stack L state st1 v heq
        simp only [Option.some.injEq] at h
        subst h
        exact ⟨[sv], [], st1.stack, hsv, rfl, rfl, rfl⟩
    case InstructionNot =>
      split at h
      · simp at h
      · rename_i v st1 heq
        obtain ⟨sv, hsv⟩ := EvalState.popValue_stack L state st1 v heq
        simp only [Option.some.injEq] at h
        subst h
        exact ⟨[sv], [_], st1.stack, hsv, rfl, rfl, rfl⟩
    case InstructionDup =>
      split at h
      · simp at h
      · rename_i val st1 heq
        have h1 := EvalState.pop_stack state st1 val heq
        split at h
        · simp at h
        · rename_i v st2 heq2
          have h2 := (StackValue.toValue_frame L val _ st2 v heq2).1
          simp only [Option.some.injEq] at h
          subst h
          refine ⟨[val], [.value v.clone, val], st1.stack, h1, ?_, rfl, rfl⟩
          simp only [EvalState.push, h2]
          rfl
    case InstructionIndex =>
      split at h
      · simp at h
      · rename_i idx st1 heq
        obtain ⟨sv, hsv⟩ := EvalState.popValue_stack L state st1 idx heq
        split at h
        · simp at h
        · rename_i parent st2 heq2
          have h2 := EvalState.pop_stack st1 st2 parent heq2
          simp only [Option.some.injEq] at h
          subst h
          exact ⟨[sv, parent], [_], st2.stack, by rw [hsv, h2]; rfl, rfl, rfl, rfl⟩
    case InstructionAssign =>
      split at h
      · simp at h
      · rename_i rhs st1 heq
        obtain ⟨sv, hsv⟩ := EvalState.popValue_stack L state st1 rhs heq
        split at h
        · simp at h
        · rename_i lhs st2 heq2
          obtain ⟨sv2, hsv2⟩ := EvalState.popAddress_stack st1 st2 lhs heq2
          split at h
          · simp at h
          · rename_i st3 heq3
            have h3 := Address.assign_stack L lhs st2 st3 rhs heq3
            simp only [Option.some.injEq] at h
            subst h
            refine ⟨[sv, sv2], [.value .null], st2.stack, by rw [hsv, hsv2]; rfl, ?_, rfl, rfl⟩
            simp only [EvalState.push, h3]
            rfl
    all_goals
      split at h
      · simp at h
      · rename_i rhs st1 heq
        obtain ⟨sv, hsv⟩ := EvalState.popValue_stack L state st1 rhs heq
        split at h
        · simp at h
        · rename_i lhs st2 heq2
          obtain ⟨sv2, hsv2⟩ := EvalState.popValue_stack L st1 st2 lhs heq2
          simp only [Option.map_eq_some'] at h
          obtain ⟨r, -, rfl⟩ := h
          exact ⟨[sv, sv2], [_], st2.stack, by rw [hsv, hsv2]; rfl, rfl, rfl, rfl⟩

/-- An expression that passes `stackCheck` from depth `d` never touches the part of the stack
below its `d` top values, and leaves as many values above it as `stackCheck` computes. -/
theorem evalInstructions_stack (L : GoLib) :
    ∀ (expr : Expression) (d d' : Nat) (pre base : List StackValue) (state state' : EvalState),
      state.stack = pre ++ base → pre.length = d → stackCheck expr d = some d' →
      evalInstructions L expr state = some state' →
      ∃ pre', state'.stack = pre' ++ base ∧ pre'.length = d' := by
  intro expr
  induction expr with
  | nil =>
    intro d d' pre base state state' hs hl hc he
    simp only [stackCheck, Option.some.injEq] at hc
    simp only [evalInstructions, Option.some.injEq] at he
    subst hc he
    exact ⟨pre, hs, hl⟩
  | cons i rest ih =>
    intro d d' pre base state state' hs hl hc he
    simp only [stackCheck] at hc
    split at hc
    · rename_i hle
      simp only [evalInstructions] at he
      split at he
      · simp at he
      · rename_i st1 heq
        obtain ⟨popped, pushed, r, h1, h2, h3, h4⟩ := Instruction.eval_stack L i state st1 heq
        have hk : popped.length ≤ pre.length := by omega
        have e1 : popped = pre.take popped.length := by
          have := congrArg (List.take popped.length) (h1.symm.trans hs)
          rw [List.take_left' rfl, List.take_append_of_le_length hk] at this
          exact this
        have e2 : r = pre.drop popped.length ++ base := by
          have := congrArg (List.drop popped.length) (h1.symm.trans hs)
          rw [List.drop_left' rfl, List.drop_append_of_le_length hk] at this
          exact this
        refine ih (d - i.pops + i.pushes) d' (pushed ++ pre.drop popped.length) base st1 state'
          ?_ ?_ hc he
        · rw [h2, e2, List.append_assoc]
        · simp only [List.length_append, List.length_drop]
          omega
    · simp at hc


theorem stackCheck_take (a b : Expression) (d d' : Nat)
    (h : stackCheck (a ++ b) d = some d') : ∃ dk, stackCheck a d = some dk := by
  rw [stackCheck_append] at h
  cases ha : stackCheck a d with
  | none => simp [ha] at h
  | some dk => exact ⟨dk, rfl⟩

/-- C8: running an expression returned by `parseExpression` (with `noExpression` false) without
a failure leaves the stack exactly one value deeper, the values that were on the stack before
being still there below the new one; after every instruction of it the stack still holds those
values at its bottom (the depth never drops below the starting depth); and `evalExpr`, which
pops the result, returns with the stack it started from. -/
theorem expression_result_arity (L : GoLib) (fuel : Nat) (minPower : Int) (p p' : parser)
    (expr : Expression) (state state' : EvalState)
    (hparse : parseExpression L fuel minPower p = .done (expr, false, p'))
    (hrun : evalInstructions L expr state = some state') :
    state'.stack.length = state.stack.length + 1 ∧
      (∃ top, state'.stack = top :: state.stack) ∧
      (∀ k st, evalInstructions L (expr.take k) state = some st →
        state.stack.length ≤ st.stack.length ∧ ∃ pre, st.stack = pre ++ state.stack) ∧
      (∀ v st, evalExpr L state expr = some (v, st) → st.stack = state.stack) := by
  have hc := (parse_stackCheck L fuel).1 minPower p expr false p' hparse rfl
  obtain ⟨pre', h1, h2⟩ :=
    evalInstructions_stack L expr 0 1 [] state.stack state state' rfl rfl (hc 0) hrun
  have htop : ∃ top, state'.stack = top :: state.stack := by
    match pre', h2, h1 with
    | [top], _, h1 => exact ⟨top, h1⟩
  refine ⟨?_, htop, ?_, ?_⟩
  · obtain ⟨top, ht⟩ := htop
    rw [ht]
    rfl
  · intro k st hst
    have hk : stackCheck (expr.take k ++ expr.drop k) 0 = some 1 := by
      rw [List.take_append_drop]
      exact hc 0
    obtain ⟨dk, hdk⟩ := stackCheck_take _ _ _ _ hk
    obtain ⟨pre, hp, _⟩ :=
      evalInstructions_stack L (expr.take k) 0 dk [] state.stack state st rfl rfl hdk hst
    refine ⟨?_, pre, hp⟩
    rw [hp, List.length_append]
    omega
  · intro v st hev
    unfold evalExpr at hev
    rw [hrun] at hev
    obtain ⟨sv, hsv⟩ := EvalState.popValue_stack L state' st v hev
    obtain ⟨top, ht⟩ := htop
    rw [ht] at hsv
    exact (List.cons.inj hsv).2.symm

theorem expression_result_arity_witness :
    parseExpression refLib 8 0
        ⟨[⟨TokenIdentifier, "a"⟩, ⟨TokenAdd, "+"⟩, ⟨TokenIdentifier, "b"⟩, ⟨TokenEOF, ""⟩],
          ⟨TokenErr, ""⟩, false⟩
      = .done ([.pushVariable "a", .pushVariable "b", .basic InstructionAdd], false,
          ⟨[], ⟨TokenEOF, ""⟩, true⟩) ∧
    evalInstructions refLib [.pushVariable "a", .pushVariable "b", .basic InstructionAdd]
        ⟨[.value (.bool true)], [], .null, ""⟩
      = some ⟨[.value .null, .value (.bool true)], [("b", .null), ("a", .null)], .null, ""⟩ ∧
    [StackValue.value .null, .value (.bool true)].length
      = [StackValue.value (.bool true)].length + 1 ∧
    evalExpr refLib ⟨[.value (.bool true)], [], .null, ""⟩
        [.pushVariable "a", .pushVariable "b", .basic InstructionAdd]
      = some (.null, ⟨[.value (.bool true)], [("b", .null), ("a", .null)], .null, ""⟩) :=
  have hp : parseExpression refLib 8 0
        ⟨[⟨TokenIdentifier, "a"⟩, ⟨TokenAdd, "+"⟩, ⟨TokenIdentifier, "b"⟩, ⟨TokenEOF, ""⟩],
          ⟨TokenErr, ""⟩, false⟩
      = .done ([.pushVariable "a", .pushVariable "b", .basic InstructionAdd], false,
          ⟨[], ⟨TokenEOF, ""⟩, true⟩) := rfl
  have hr : evalInstructions refLib [.pushVariable "a", .pushVariable "b", .basic InstructionAdd]
        ⟨[.value (.bool true)], [], .null, ""⟩
      = some ⟨[.value .null, .value (.bool true)], [("b", .null), ("a", .null)], .null, ""⟩ :=
    rfl
  ⟨hp, hr, (expression_result_arity refLib 8 0 _ _ _ _ _ hp hr).1, rfl⟩

/-! ## Pattern matching -/

/-- C9: when `matchPattern` returns true, the path of the walk item has as many segments as
the pattern and the `first` flag of the item is the `isFirst` of the pattern. -/
theorem matchPattern_specific (L : GoLib) (state state' : EvalState) (pattern : Pattern)
    (walkItem : TreeWalkItem)
    (h : matchPattern L state pattern walkItem = some (true, state')) :
    walkItem.path.length = pattern.segments.length ∧ walkItem.first = pattern.isFirst := by
  unfold matchPattern at h
  split at h
  · simp at h
  · rename_i hg
    simp only [not_or, ne_eq, Decidable.not_not] at hg
    exact ⟨hg.1.symm, hg.2.symm⟩

theorem matchPattern_specific_witness :
    matchPattern refLib ⟨[], [], .array [.null], ""⟩
        ⟨[.PatternSegmentIndex "0"], true⟩ ⟨[.int 0], true⟩
      = some (true, ⟨[], [], .array [.null], ""⟩) ∧
    ([TreePathSegment.int 0].length = [PatternSegment.PatternSegmentIndex "0"].length ∧
      true = true) :=
  have h : matchPattern refLib ⟨[], [], .array [.null], ""⟩
        ⟨[.PatternSegmentIndex "0"], true⟩ ⟨[.int 0], true⟩
      = some (true, ⟨[], [], .array [.null], ""⟩) := rfl
  ⟨h, matchPattern_specific refLib _ _ ⟨[.PatternSegmentIndex "0"], true⟩ ⟨[.int 0], true⟩ h⟩

/-- C10, as the code has it: a pattern without segments matches the visits of the root (the
empty path) whose `first` flag is the `isFirst` of the pattern, and no other visit; the state is
left as it is. -/
theorem matchPattern_no_segments (L : GoLib) (state : EvalState) (isFirst : Bool)
    (walkItem : TreeWalkItem) :
    matchPattern L state ⟨[], isFirst⟩ walkItem
      = some (decide (walkItem.path = [] ∧ walkItem.first = isFirst), state) := by
  unfold matchPattern
  by_cases h1 : walkItem.path = []
  · by_cases h2 : isFirst = walkItem.first
    · simp [h1, h2, matchPatternLoop]
    · simp [h1, h2, Ne.symm h2]
  · have : ¬ (0 = walkItem.path.length) := by
      intro h
      exact h1 (List.eq_nil_of_length_eq_zero h.symm)
    simp [h1, this]

/-- C10 fails off the root: the pattern of the block `{ ... }` has no segment and `isFirst`
false, and it does not match the post-order visit of the element 0 of an array. -/
theorem matchPattern_no_segments_not_every_visit :
    matchPattern refLib ⟨[], [], .array [.null], ""⟩ ⟨[], false⟩ ⟨[.int 0], false⟩
      = some (false, ⟨[], [], .array [.null], ""⟩) ∧
    matchPattern refLib ⟨[], [], .array [.null], ""⟩ ⟨[], false⟩ ⟨[], true⟩
      = some (false, ⟨[], [], .array [.null], ""⟩) :=
  ⟨rfl, rfl⟩

/-! ## Null, self-cast and unimplemented operations -/

/-- C19: `ValueNull.add(w)` returns `w` itself, whatever the type of `w`. -/
theorem null_add_returns_operand (L : GoLib) (w : Value) : Value.add L .null w = some w :=
  rfl

/-- C20: casting a value to its own type returns the value: `castToType(v, v.typ()) = v` for
each of the six types. -/
theorem self_cast_identity (L : GoLib) (v : Value) : castToType L v v.typ = some v := by
  cases v <;> simp [castToType, Value.typ, Value.castToBool, Value.castToNumber,
    Value.castToString, Value.castToArray, Value.castToMap]

/-- C22: `s.sub(w)` and `s.div(w)` panic for every string `s`, and `m.div(w)` for every map
`m`; none of them returns a value. -/
theorem unimplemented_operations_fail (L : GoLib) (s : String) (m : List (String × Value))
    (w : Value) :
    Value.sub L (.string s) w = none ∧ Value.div L (.string s) w = none ∧
      Value.div L (.map m) w = none :=
  ⟨rfl, rfl, rfl⟩

/-! ## Variable reads -/

theorem mapSet_of_mapGet_none (m : List (String × Value)) (k : String) (v : Value)
    (h : mapGet m k = none) : mapSet m k v = m ++ [(k, v)] := by
  induction m with
  | nil => rfl
  | cons e es ih =>
    obtain ⟨k', v'⟩ := e
    by_cases hk : k' = k
    · simp [mapGet, hk] at h
    · simp only [mapGet, hk, if_false] at h
      simp [mapSet, hk, ih h]

/-- C15: materialising a `VariableReference` whose name the store does not hold returns null
and leaves the store with the entry `name -> null` added after the old entries; materialising
one whose name the store holds returns the stored value and leaves the state as it is. -/
theorem variable_read_default (L : GoLib) (state : EvalState) (name : String) :
    (mapGet state.vars name = none →
      (StackValue.variableReference name).toValue L state
        = some (.null, { state with vars := state.vars ++ [(name, .null)] })) ∧
    (∀ v, mapGet state.vars name = some v →
      (StackValue.variableReference name).toValue L state = some (v, state)) := by
  constructor
  · intro h
    simp only [StackValue.toValue, h, mapSet_of_mapGet_none _ _ _ h]
  · intro v h
    simp only [StackValue.toValue, h, Value.clone_eq]

theorem variable_read_default_witness :
    (mapGet [("a", Value.bool true)] "b" = none ∧
      (StackValue.variableReference "b").toValue refLib ⟨[], [("a", .bool true)], .null, ""⟩
        = some (.null, ⟨[], [("a", .bool true), ("b", .null)], .null, ""⟩)) ∧
    (mapGet [("a", Value.bool true)] "a" = some (.bool true) ∧
      (StackValue.variableReference "a").toValue refLib ⟨[], [("a", .bool true)], .null, ""⟩
        = some (.bool true, ⟨[], [("a", .bool true)], .null, ""⟩)) :=
  ⟨⟨rfl, (variable_read_default refLib ⟨[], [("a", .bool true)], .null, ""⟩ "b").1 rfl⟩,
    ⟨rfl, (variable_read_default refLib ⟨[], [("a", .bool true)], .null, ""⟩ "a").2 _ rfl⟩⟩

/-! ## Map to string -/

/-- C14, at the failing input: the cast to string of the map with the entries `a: "1"` and
`b: "2"` is `"a: 1b: 2"`, without the space between the entries, because `first` is never set
to false in the loop of `ValueMap.castToString`: the text of a map is the text of its first
entry directly followed by the text of the map of the other entries. -/
theorem map_castToString_missing_space (L : GoLib) :
    (Value.map [("a", .string "1"), ("b", .string "2")]).castToString L = "a: 1b: 2" ∧
      (Value.map [("b", .string "2"), ("a", .string "1")]).castToString L = "b: 2a: 1" ∧
      "a: 1b: 2" ≠ "a: 1 b: 2" ∧ "b: 2a: 1" ≠ "b: 2 a: 1" ∧
      ∀ (k : String) (v : Value) (es : List (String × Value)),
        (Value.map ((k, v) :: es)).castToString L
          = k ++ ": " ++ v.castToString L ++ (Value.map es).castToString L :=
  ⟨rfl, rfl, by decide, by decide, fun k v es => by simp [Value.castToString, mapCastToString]⟩

/-! ## Path assignment into a scalar -/

theorem null_withAssignment (L : GoLib) (path : List Value) (v : Value) :
    Value.null.withAssignment L path v = some (nestedSingletonMaps L path v) := by
  induction path with
  | nil => rfl
  | cons k ks ih => simp [Value.withAssignment, ih, nestedSingletonMaps, mapSet]

/-- C31: on a null, a bool or a number `s`, `s.withAssignment(path, v)` never fails; it returns
`v` for the empty path and otherwise the nested singleton maps
`{str(k1): {str(k2): ... {str(kn): v}}}`, whatever `s` was. -/
theorem scalar_withAssignment (L : GoLib) (s : Value) (path : List Value) (v : Value)
    (hs : s = .null ∨ (∃ b, s = .bool b) ∨ ∃ n, s = .number n) :
    s.withAssignment L path v = some (nestedSingletonMaps L path v) ∧
      nestedSingletonMaps L [] v = v ∧
      ∀ k ks, nestedSingletonMaps L (k :: ks) v
        = .map [(k.castToString L, nestedSingletonMaps L ks v)] := by
  refine ⟨?_, rfl, fun _ _ => rfl⟩
  rcases hs with rfl | ⟨b, rfl⟩ | ⟨n, rfl⟩
  · exact null_withAssignment L path v
  · cases path with
    | nil => rfl
    | cons k ks => simp [Value.withAssignment, null_withAssignment, nestedSingletonMaps, mapSet]
  · cases path with
    | nil => rfl
    | cons k ks => simp [Value.withAssignment, null_withAssignment, nestedSingletonMaps, mapSet]

theorem scalar_withAssignment_witness :
    (Value.bool true = .null ∨ (∃ b, Value.bool true = .bool b)
        ∨ ∃ n, Value.bool true = .number n) ∧
    (Value.bool true).withAssignment refLib [.string "a", .bool false] (.string "x")
      = some (.map [("a", .map [("false", .string "x")])]) :=
  ⟨Or.inr (Or.inl ⟨true, rfl⟩),
    (scalar_withAssignment refLib (.bool true) [.string "a", .bool false] (.string "x")
      (Or.inr (Or.inl ⟨true, rfl⟩))).1⟩

/-! ## Array subtraction -/

/-- C26, as the code has it: with `w = round(n)`, `a.sub(n)` is `[a[0:w], a[w:]]`, whose two
parts concatenate back to `a`, when `0 <= w <= len(a)`; it is `a` itself when `w > len(a)`; and
it panics when `w` is negative, the slice expression `v[0:width]` being out of range. -/
theorem array_sub_split (L : GoLib) (a : List Value) (n : F64) :
    (0 ≤ F64.roundInt n → F64.roundInt n ≤ a.length →
      Value.sub L (.array a) (.number n)
          = some (.array [.array (a.take (F64.roundInt n).toNat),
              .array (a.drop (F64.roundInt n).toNat)]) ∧
        a.take (F64.roundInt n).toNat ++ a.drop (F64.roundInt n).toNat = a) ∧
    ((a.length : Int) < F64.roundInt n → Value.sub L (.array a) (.number n) = some (.array a)) ∧
    (F64.roundInt n < 0 → Value.sub L (.array a) (.number n) = none) := by
  refine ⟨fun h0 h1 => ⟨?_, List.take_append_drop _ _⟩, fun h => ?_, fun h => ?_⟩
  · obtain ⟨w, hw⟩ := Int.eq_ofNat_of_zero_le h0
    rw [hw] at h1 ⊢
    have hwl : w ≤ a.length := by exact_mod_cast h1
    have hlt : ¬ ((a.length : Int) < (w : Int)) := by omega
    have e0 : sliceRange a 0 (w : Int) = some (a.take w) := by
      have := sliceRange_nat a 0 w (Nat.zero_le _) hwl
      simpa using this
    have e1 : sliceRange a (w : Int) (a.length : Int) = some (a.drop w) := by
      have := sliceRange_nat a w a.length hwl (le_refl _)
      rw [this]
      simp
    simp [Value.sub, Value.subOf, ValueArray.sub, Value.castToNumber, hw, hlt, e0, e1]
  · simp [Value.sub, Value.subOf, ValueArray.sub, Value.castToNumber, h]
  · have hlt : ¬ ((a.length : Int) < F64.roundInt n) := by omega
    have e0 : sliceRange a 0 (F64.roundInt n) = none := by
      simp [sliceRange]
      omega
    simp [Value.sub, Value.subOf, ValueArray.sub, Value.castToNumber, hlt, e0]

/-- C26 fails for a negative width: `[null] - (-1)` has `len(a) >= round(n)` and panics instead
of returning a two-element array. -/
theorem array_sub_negative_width_panics :
    F64.roundInt F64.negOne ≤ ([Value.null].length : Int) ∧
      Value.sub refLib (.array [.null]) (.number F64.negOne) = none := by
  refine ⟨by decide, ?_⟩
  rfl

theorem array_sub_split_witness :
    (0 ≤ F64.roundInt F64.one ∧ F64.roundInt F64.one ≤ ([Value.null, Value.bool true].length : Int)
      ∧ Value.sub refLib (.array [.null, .bool true]) (.number F64.one)
          = some (.array [.array [.null], .array [.bool true]])) ∧
    (([Value.null].length : Int) < F64.roundInt F64.two ∧
      Value.sub refLib (.array [.null]) (.number F64.two) = some (.array [.null])) :=
  ⟨⟨by decide, by decide,
      ((array_sub_split refLib [.null, .bool true] F64.one).1 (by decide) (by decide)).1⟩,
    ⟨by decide, (array_sub_split refLib [.null] F64.two).2.1 (by decide)⟩⟩

/-! ## Precedence and associativity -/

theorem parseExpression_atom (L : GoLib) (fuel : Nat) (minPower : Int) (a : Atom)
    (ia : Instruction) (t : Token) (rest : List Token) (prev : Token)
    (ha : a.instruction L = some ia) (ht1 : t.typ ≠ TokenErr) (ht2 : t.typ ≠ TokenLParen) :
    ∃ p1 : parser, p1.next = .done (t, ⟨rest, t, false⟩) ∧
      parseExpression L (fuel + 1) minPower ⟨a.token :: t :: rest, prev, false⟩
        = oploop L fuel minPower [ia] p1 := by
  rcases a with name | text
  · simp only [Atom.instruction, Option.some.injEq] at ha
    subst ha
    refine ⟨⟨rest, t, true⟩, by simp [parser.next], ?_⟩
    simp [parseExpression, parser.next, Atom.token, parser.accept, ht1, Ne.symm ht2,
      parser.rewind]
  · simp only [Atom.instruction, Option.map_eq_some'] at ha
    obtain ⟨num, hnum, rfl⟩ := ha
    refine ⟨⟨t :: rest, ⟨TokenNumber, text⟩, false⟩, by simp [parser.next, ht1], ?_⟩
    simp [parseExpression, parser.next, Atom.token, hnum]

theorem oploop_binop (L : GoLib) (fuel : Nat) (minPower : Int) (expr : Expression)
    (p p' : parser) (t : Token) (binop : Binop)
    (hn : p.next = .done (t, p')) (hb : binops t.typ = some binop)
    (hl : binop.left ≥ minPower) :
    oploop L (fuel + 1) minPower expr p
      = match parseExpression L fuel binop.right p' with
        | .panic msg => .panic msg
        | .outOfFuel => .outOfFuel
        | .done (e, noExpression, p) =>
          if noExpression then .panic "Missing expression after operator"
          else oploop L fuel minPower ((expr ++ e) ++ [.basic binop.op]) p := by
  simp only [oploop, hn, hb, Option.filter, hl, decide_True, if_true]

theorem oploop_weak (L : GoLib) (fuel : Nat) (minPower : Int) (expr : Expression)
    (p p' : parser) (t : Token) (binop : Binop)
    (hn : p.next = .done (t, p')) (hb : binops t.typ = some binop)
    (hl : binop.left < minPower) :
    oploop L (fuel + 1) minPower expr p = .done (expr, false, p'.rewind) := by
  obtain ⟨ty, val⟩ := t
  cases ty <;> simp only [binops, Option.some.injEq, reduceCtorEq] at hb <;> subst hb <;>
    dsimp only at hl <;>
    simp [oploop, hn, binops, assigns, Option.filter, not_le.mpr hl]

theorem oploop_end (L : GoLib) (fuel : Nat) (minPower : Int) (expr : Expression)
    (p p' : parser) (t : Token)
    (hn : p.next = .done (t, p')) (he : endsExpression t.typ = true) :
    oploop L (fuel + 1) minPower expr p = .done (expr, false, p'.rewind) := by
  obtain ⟨ty, val⟩ := t
  cases ty <;> simp [endsExpression, binops, assigns] at he <;>
    simp [oploop, hn, binops, assigns, Option.filter]

theorem endsExpression_ne (t : TokenType) (he : endsExpression t = true) :
    t ≠ TokenErr ∧ t ≠ TokenLParen := by
  cases t <;> simp [endsExpression, binops, assigns] at he <;> simp

theorem binops_ne (t : TokenType) (binop : Binop) (hb : binops t = some binop) :
    t ≠ TokenErr ∧ t ≠ TokenLParen := by
  cases t <;> simp [binops] at hb <;> simp

theorem next_rewind (rest : List Token) (t : Token) :
    (parser.rewind ⟨rest, t, false⟩).next = .done (t, ⟨rest, t, false⟩) := by
  simp [parser.rewind, parser.next]

/-- An atom followed by a token that ends the expression, or by an operator that binds less
than `minPower`, compiles to the instruction of the atom. -/
theorem parseExpression_atom_end (L : GoLib) (fuel : Nat) (minPower : Int) (a : Atom)
    (ia : Instruction) (t : Token) (rest : List Token) (prev : Token)
    (ha : a.instruction L = some ia)
    (ht : endsExpression t.typ = true ∨ ∃ binop, binops t.typ = some binop ∧
      binop.left < minPower) :
    parseExpression L (fuel + 2) minPower ⟨a.token :: t :: rest, prev, false⟩
      = .done ([ia], false, parser.rewind ⟨rest, t, false⟩) := by
  rcases ht with he | ⟨binop, hb, hl⟩
  · obtain ⟨p1, hp1, e1⟩ := parseExpression_atom L (fuel + 1) minPower a ia t rest prev ha
      (endsExpression_ne _ he).1 (endsExpression_ne _ he).2
    rw [e1, oploop_end L fuel minPower _ p1 _ t hp1 he]
  · obtain ⟨p1, hp1, e1⟩ := parseExpression_atom L (fuel + 1) minPower a ia t rest prev ha
      (binops_ne _ _ hb).1 (binops_ne _ _ hb).2
    rw [e1, oploop_weak L fuel minPower _ p1 _ t binop hp1 hb hl]

/-- The operator `o2` binds tighter than the right side of `o1`: `a o1 b o2 c` compiles to
`[a, b, c, op2, op1]`. -/
theorem parse_right_nested (L : GoLib) (fuel : Nat) (a b c : Atom) (ia ib ic : Instruction)
    (o1 o2 t : Token) (b1 b2 : Binop) (rest : List Token) (prev : Token)
    (ha : a.instruction L = some ia) (hb : b.instruction L = some ib)
    (hc : c.instruction L = some ic)
    (h1 : binops o1.typ = some b1) (h2 : binops o2.typ = some b2)
    (hl1 : b1.left ≥ 0) (hl2 : b2.left ≥ b1.right)
    (ht : endsExpression t.typ = true) :
    parseExpression L (fuel + 6) 0
        ⟨a.token :: o1 :: b.token :: o2 :: c.token :: t :: rest, prev, false⟩
      = .done ([ia, ib, ic, .basic b2.op, .basic b1.op], false, ⟨rest, t, true⟩) := by
  obtain ⟨p1, hp1, e1⟩ := parseExpression_atom L (fuel + 5) 0 a ia o1
    (b.token :: o2 :: c.token :: t :: rest) prev ha (binops_ne _ _ h1).1 (binops_ne _ _ h1).2
  rw [e1, oploop_binop L (fuel + 4) 0 _ p1 _ o1 b1 hp1 h1 hl1]
  obtain ⟨p2, hp2, e2⟩ := parseExpression_atom L (fuel + 3) b1.right b ib o2
    (c.token :: t :: rest) o1 hb (binops_ne _ _ h2).1 (binops_ne _ _ h2).2
  rw [e2, oploop_binop L (fuel + 2) b1.right _ p2 _ o2 b2 hp2 h2 hl2]
  rw [parseExpression_atom_end L fuel b2.right c ic t rest o2 hc (Or.inl ht)]
  simp only [Bool.false_eq_true, if_false]
  rw [oploop_end L (fuel + 1) b1.right _ _ _ t (next_rewind rest t) ht]
  simp only [Bool.false_eq_true, if_false]
  rw [oploop_end L (fuel + 3) 0 _ _ _ t (next_rewind rest t) ht]
  simp [parser.rewind]

/-- The operator `o2` binds less than the right side of `o1`: `a o1 b o2 c` compiles to
`[a, b, op1, c, op2]`. -/
theorem parse_left_nested (L : GoLib) (fuel : Nat) (a b c : Atom) (ia ib ic : Instruction)
    (o1 o2 t : Token) (b1 b2 : Binop) (rest : List Token) (prev : Token)
    (ha : a.instruction L = some ia) (hb : b.instruction L = some ib)
    (hc : c.instruction L = some ic)
    (h1 : binops o1.typ = some b1) (h2 : binops o2.typ = some b2)
    (hl1 : b1.left ≥ 0) (hl2 : b2.left < b1.right) (hl3 : b2.left ≥ 0)
    (ht : endsExpression t.typ = true) :
    parseExpression L (fuel + 6) 0
        ⟨a.token :: o1 :: b.token :: o2 :: c.token :: t :: rest, prev, false⟩
      = .done ([ia, ib, .basic b1.op, ic, .basic b2.op], false, ⟨rest, t, true⟩) := by
  obtain ⟨p1, hp1, e1⟩ := parseExpression_atom L (fuel + 5) 0 a ia o1
    (b.token :: o2 :: c.token :: t :: rest) prev ha (binops_ne _ _ h1).1 (binops_ne _ _ h1).2
  rw [e1, oploop_binop L (fuel + 4) 0 _ p1 _ o1 b1 hp1 h1 hl1]
  rw [parseExpression_atom_end L (fuel + 2) b1.right b ib o2 (c.token :: t :: rest) o1 hb
    (Or.inr ⟨b2, h2, hl2⟩)]
  simp only [Bool.false_eq_true, if_false]
  rw [oploop_binop L (fuel + 3) 0 _ _ _ o2 b2 (next_rewind _ o2) h2 hl3]
  rw [parseExpression_atom_end L (fuel + 1) b2.right c ic t rest o2 hc (Or.inl ht)]
  simp only [Bool.false_eq_true, if_false]
  rw [oploop_end L (fuel + 2) 0 _ _ _ t (next_rewind rest t) ht]
  simp [parser.rewind]

/-- The expression `a o b` with an operator `o` of `binops` compiles to `[a, b, op]`. -/
theorem parse_binary (L : GoLib) (fuel : Nat) (a b : Atom) (ia ib : Instruction)
    (o t : Token) (b1 : Binop) (rest : List Token) (prev : Token)
    (ha : a.instruction L = some ia) (hb : b.instruction L = some ib)
    (h1 : binops o.typ = some b1) (hl1 : b1.left ≥ 0) (ht : endsExpression t.typ = true) :
    parseExpression L (fuel + 4) 0 ⟨a.token :: o :: b.token :: t :: rest, prev, false⟩
      = .done ([ia, ib, .basic b1.op], false, ⟨rest, t, true⟩) := by
  obtain ⟨p1, hp1, e1⟩ := parseExpression_atom L (fuel + 3) 0 a ia o
    (b.token :: t :: rest) prev ha (binops_ne _ _ h1).1 (binops_ne _ _ h1).2
  rw [e1, oploop_binop L (fuel + 2) 0 _ p1 _ o b1 hp1 h1 hl1]
  rw [parseExpression_atom_end L fuel b1.right b ib t rest o hb (Or.inl ht)]
  simp only [Bool.false_eq_true, if_false]
  rw [oploop_end L (fuel + 1) 0 _ _ _ t (next_rewind rest t) ht]
  simp [parser.rewind]

/-- C17: for all atoms `a`, `b`, `c` (variables, or number literals that `strconv.ParseFloat`
accepts) followed by a token that ends the expression, `parseExpression(0)` returns, with
enough recursion depth, `[a, b, c, Mul, Add]` for `a + b * c`, `[a, b, Mul, c, Add]` for
`a * b + c` and `[a, b, Sub, c, Sub]` for `a - b - c`; likewise `[a, b, c, Div, Sub]` for
`a - b / c` and `[a, b, Div, c, Mul]` for `a / b * c`. -/
theorem precedence_and_associativity (L : GoLib) (fuel : Nat) (a b c : Atom)
    (ia ib ic : Instruction) (t : Token) (rest : List Token) (prev : Token)
    (ha : a.instruction L = some ia) (hb : b.instruction L = some ib)
    (hc : c.instruction L = some ic) (ht : endsExpression t.typ = true) :
    parseExpression L (fuel + 6) 0
        ⟨a.token :: ⟨TokenAdd, "+"⟩ :: b.token :: ⟨TokenAst, "*"⟩ :: c.token :: t :: rest,
          prev, false⟩
      = .done ([ia, ib, ic, .basic InstructionMul, .basic InstructionAdd], false,
          ⟨rest, t, true⟩) ∧
    parseExpression L (fuel + 6) 0
        ⟨a.token :: ⟨TokenAst, "*"⟩ :: b.token :: ⟨TokenAdd, "+"⟩ :: c.token :: t :: rest,
          prev, false⟩
      = .done ([ia, ib, .basic InstructionMul, ic, .basic InstructionAdd], false,
          ⟨rest, t, true⟩) ∧
    parseExpression L (fuel + 6) 0
        ⟨a.token :: ⟨TokenSub, "-"⟩ :: b.token :: ⟨TokenSub, "-"⟩ :: c.token :: t :: rest,
          prev, false⟩
      = .done ([ia, ib, .basic InstructionSub, ic, .basic InstructionSub], false,
          ⟨rest, t, true⟩) ∧
    parseExpression L (fuel + 6) 0
        ⟨a.token :: ⟨TokenSub, "-"⟩ :: b.token :: ⟨TokenDiv, "/"⟩ :: c.token :: t :: rest,
          prev, false⟩
      = .done ([ia, ib, ic, .basic InstructionDiv, .basic InstructionSub], false,
          ⟨rest, t, true⟩) ∧
    parseExpression L (fuel + 6) 0
        ⟨a.token :: ⟨TokenDiv, "/"⟩ :: b.token :: ⟨TokenAst, "*"⟩ :: c.token :: t :: rest,
          prev, false⟩
      = .done ([ia, ib, .basic InstructionDiv, ic, .basic InstructionMul], false,
          ⟨rest, t, true⟩) :=
  ⟨parse_right_nested L fuel a b c ia ib ic ⟨TokenAdd, "+"⟩ ⟨TokenAst, "*"⟩ t _ _ rest prev
      ha hb hc rfl rfl (by decide) (by decide) ht,
    parse_left_nested L fuel a b c ia ib ic ⟨TokenAst, "*"⟩ ⟨TokenAdd, "+"⟩ t _ _ rest prev
      ha hb hc rfl rfl (by decide) (by decide) (by decide) ht,
    parse_left_nested L fuel a b c ia ib ic ⟨TokenSub, "-"⟩ ⟨TokenSub, "-"⟩ t _ _ rest prev
      ha hb hc rfl rfl (by decide) (by decide) (by decide) ht,
    parse_right_nested L fuel a b c ia ib ic ⟨TokenSub, "-"⟩ ⟨TokenDiv, "/"⟩ t _ _ rest prev
      ha hb hc rfl rfl (by decide) (by decide) ht,
    parse_left_nested L fuel a b c ia ib ic ⟨TokenDiv, "/"⟩ ⟨TokenAst, "*"⟩ t _ _ rest prev
      ha hb hc rfl rfl (by decide) (by decide) (by decide) ht⟩

theorem refLib_parseFloat_one : refLib.parseFloat "1" = some F64.one := by
  decide!

theorem refLib_parseFloat_two : refLib.parseFloat "2" = some F64.two := by
  decide!

theorem precedence_and_associativity_witness :
    ((Atom.number "1").instruction refLib = some (.pushNumber F64.one) ∧
      (Atom.variable "b").instruction refLib = some (.pushVariable "b") ∧
      (Atom.number "2").instruction refLib = some (.pushNumber F64.two) ∧
      endsExpression (Token.mk TokenRBrace "\x7d").typ = true) ∧
    parseExpression refLib 6 0
        ⟨[⟨TokenNumber, "1"⟩, ⟨TokenAdd, "+"⟩, ⟨TokenIdentifier, "b"⟩, ⟨TokenAst, "*"⟩,
          ⟨TokenNumber, "2"⟩, ⟨TokenRBrace, "\x7d"⟩], ⟨TokenErr, ""⟩, false⟩
      = .done ([.pushNumber F64.one, .pushVariable "b", .pushNumber F64.two,
          .basic InstructionMul, .basic InstructionAdd], false,
          ⟨[], ⟨TokenRBrace, "\x7d"⟩, true⟩) :=
  have h1 : (Atom.number "1").instruction refLib = some (.pushNumber F64.one) := by
    simp only [Atom.instruction, refLib_parseFloat_one, Option.map_some']
  have h2 : (Atom.number "2").instruction refLib = some (.pushNumber F64.two) := by
    simp only [Atom.instruction, refLib_parseFloat_two, Option.map_some']
  ⟨⟨h1, rfl, h2, rfl⟩,
    (precedence_and_associativity refLib 0 (.number "1") (.variable "b") (.number "2") _ _ _
      ⟨TokenRBrace, "\x7d"⟩ [] ⟨TokenErr, ""⟩ h1 rfl h2 rfl).1⟩

/-! ## The value of an assignment -/

/-- C29: for all variables `a`, `b` and every atom `e`, `a = b = e` compiles to
`[PushVariable a, PushVariable b, e, Assign, Assign]`; executing it from any state evaluates
`e` as the expression `[e]` alone does, to a value `ve`, stores `ve` in `b`, then null in `a`,
and leaves null on the stack. -/
theorem chained_assignment_stores_null (L : GoLib) (fuel : Nat) (a b : String) (e : Atom)
    (ie : Instruction) (t : Token) (rest : List Token) (prev : Token) (state : EvalState)
    (he : e.instruction L = some ie) (ht : endsExpression t.typ = true) :
    parseExpression L (fuel + 6) 0
        ⟨⟨TokenIdentifier, a⟩ :: ⟨TokenAssign, "="⟩ :: ⟨TokenIdentifier, b⟩ ::
          ⟨TokenAssign, "="⟩ :: e.token :: t :: rest, prev, false⟩
      = .done ([.pushVariable a, .pushVariable b, ie, .basic InstructionAssign,
          .basic InstructionAssign], false, ⟨rest, t, true⟩) ∧
    ∃ ve st1, evalExpr L state [ie] = some (ve, st1) ∧
      evalInstructions L [.pushVariable a, .pushVariable b, ie, .basic InstructionAssign,
          .basic InstructionAssign] state
        = some { st1 with
            stack := .value .null :: state.stack,
            vars := mapSet (mapSet st1.vars b ve) a .null } ∧
      mapGet (mapSet (mapSet st1.vars b ve) a .null) a = some .null ∧
      (a ≠ b → mapGet (mapSet (mapSet st1.vars b ve) a .null) b = some ve) := by
  constructor
  · exact parse_right_nested L fuel (.variable a) (.variable b) e _ _ ie ⟨TokenAssign, "="⟩
      ⟨TokenAssign, "="⟩ t _ _ rest prev rfl rfl he rfl rfl (by decide) (by decide) ht
  · have hget : ∀ (m : List (String × Value)) (ve : Value),
        mapGet (mapSet (mapSet m b ve) a .null) a = some .null ∧
        (a ≠ b → mapGet (mapSet (mapSet m b ve) a .null) b = some ve) := by
      intro m ve
      refine ⟨mapGet_mapSet_self _ _ _, fun hab => ?_⟩
      rw [mapGet_mapSet_ne _ _ _ _ (Ne.symm hab), mapGet_mapSet_self]
    rcases e with x | text
    · simp only [Atom.instruction, Option.some.injEq] at he
      subst he
      cases hx : mapGet state.vars x with
      | none =>
        refine ⟨.null, { state with vars := mapSet state.vars x .null }, ?_, ?_, hget _ _⟩
        · simp [evalExpr, evalInstructions, Instruction.eval, EvalState.push,
            EvalState.popValue, EvalState.pop, StackValue.toValue, hx]
        · simp [evalInstructions, Instruction.eval, InstructionBasic.eval, EvalState.push,
            EvalState.popValue, EvalState.pop, StackValue.toValue, hx, EvalState.popAddress,
            StackValue.toAddress, Address.assign, VariableReference.assign]
      | some v =>
        refine ⟨v, state, ?_, ?_, hget _ _⟩
        · simp [evalExpr, evalInstructions, Instruction.eval, EvalState.push,
            EvalState.popValue, EvalState.pop, StackValue.toValue, hx, Value.clone_eq]
        · simp [evalInstructions, Instruction.eval, InstructionBasic.eval, EvalState.push,
            EvalState.popValue, EvalState.pop, StackValue.toValue, hx, EvalState.popAddress,
            StackValue.toAddress, Address.assign, VariableReference.assign, Value.clone_eq]
    · simp only [Atom.instruction, Option.map_eq_some'] at he
      obtain ⟨n, -, rfl⟩ := he
      refine ⟨.number n, state, ?_, ?_, hget _ _⟩
      · simp [evalExpr, evalInstructions, Instruction.eval, EvalState.push,
          EvalState.popValue, EvalState.pop, StackValue.toValue]
      · simp [evalInstructions, Instruction.eval, InstructionBasic.eval, EvalState.push,
          EvalState.popValue, EvalState.pop, StackValue.toValue, EvalState.popAddress,
          StackValue.toAddress, Address.assign, VariableReference.assign]

theorem chained_assignment_stores_null_witness :
    ((Atom.number "1").instruction refLib = some (.pushNumber F64.one) ∧
      endsExpression (Token.mk TokenRBrace "\x7d").typ = true) ∧
    parseExpression refLib 6 0
        ⟨[⟨TokenIdentifier, "a"⟩, ⟨TokenAssign, "="⟩, ⟨TokenIdentifier, "b"⟩,
          ⟨TokenAssign, "="⟩, ⟨TokenNumber, "1"⟩, ⟨TokenRBrace, "\x7d"⟩],
          ⟨TokenErr, ""⟩, false⟩
      = .done ([.pushVariable "a", .pushVariable "b", .pushNumber F64.one,
          .basic InstructionAssign, .basic InstructionAssign], false,
          ⟨[], ⟨TokenRBrace, "\x7d"⟩, true⟩) ∧
    evalInstructions refLib [.pushVariable "a", .pushVariable "b", .pushNumber F64.one,
        .basic InstructionAssign, .basic InstructionAssign] ⟨[], [], .null, ""⟩
      = some ⟨[.value .null], [("b", .number F64.one), ("a", .null)], .null, ""⟩ :=
  have h1 : (Atom.number "1").instruction refLib = some (.pushNumber F64.one) := by
    simp only [Atom.instruction, refLib_parseFloat_one, Option.map_some']
  ⟨⟨h1, rfl⟩,
    (chained_assignment_stores_null refLib 0 "a" "b" (.number "1") _ ⟨TokenRBrace, "\x7d"⟩ []
      ⟨TokenErr, ""⟩ ⟨[], [], .null, ""⟩ h1 rfl).1, rfl⟩

/-! ## Assignment to a value, and into a variable never read -/

theorem add_pushes_value (L : GoLib) (state state' : EvalState)
    (h : InstructionBasic.eval L InstructionAdd state = some state') :
    ∃ r rest, state'.stack = .value r :: rest := by
  simp only [InstructionBasic.eval] at h
  split at h
  · simp at h
  · split at h
    · simp at h
    · rename_i lhs st2 _
      simp only [Option.map_eq_some'] at h
      obtain ⟨r, -, rfl⟩ := h
      exact ⟨r, st2.stack, rfl⟩


/-- C25: `InstructionAssign` on a stack whose slot beneath the assigned value holds a plain
`Value` panics (the `toAddress` of a value), so that it returns no state and pushes nothing;
`1 = 2` and `a + b = c` parse to `[1, 2, Assign]` and `[a, b, Add, c, Assign]`, and these
expressions panic from every state. -/
theorem assign_to_rvalue_fails (L : GoLib) :
    (∀ (state : EvalState) (rhs : StackValue) (v : Value) (rest : List StackValue),
      state.stack = rhs :: .value v :: rest →
        InstructionBasic.eval L InstructionAssign state = none) ∧
    (∀ (fuel : Nat) (n1 n2 : F64) (t : Token) (rest : List Token) (prev : Token),
      L.parseFloat "1" = some n1 → L.parseFloat "2" = some n2 →
      endsExpression t.typ = true →
        parseExpression L (fuel + 4) 0
            ⟨⟨TokenNumber, "1"⟩ :: ⟨TokenAssign, "="⟩ :: ⟨TokenNumber, "2"⟩ :: t :: rest,
              prev, false⟩
          = .done ([.pushNumber n1, .pushNumber n2, .basic InstructionAssign], false,
              ⟨rest, t, true⟩)) ∧
    (∀ (n1 n2 : F64) (state : EvalState),
      evalInstructions L [.pushNumber n1, .pushNumber n2, .basic InstructionAssign] state
        = none) ∧
    (∀ (fuel : Nat) (a b c : String) (t : Token) (rest : List Token) (prev : Token),
      endsExpression t.typ = true →
        parseExpression L (fuel + 6) 0
            ⟨⟨TokenIdentifier, a⟩ :: ⟨TokenAdd, "+"⟩ :: ⟨TokenIdentifier, b⟩ ::
              ⟨TokenAssign, "="⟩ :: ⟨TokenIdentifier, c⟩ :: t :: rest, prev, false⟩
          = .done ([.pushVariable a, .pushVariable b, .basic InstructionAdd,
              .pushVariable c, .basic InstructionAssign], false, ⟨rest, t, true⟩)) ∧
    (∀ (a b c : String) (state : EvalState),
      evalInstructions L [.pushVariable a, .pushVariable b, .basic InstructionAdd,
        .pushVariable c, .basic InstructionAssign] state = none) := by
  have key : ∀ (state : EvalState) (rhs : StackValue) (v : Value) (rest : List StackValue),
      state.stack = rhs :: .value v :: rest →
        InstructionBasic.eval L InstructionAssign state = none := by
    intro state rhs v rest h
    simp only [InstructionBasic.eval]
    cases h1 : state.popValue L with
    | none => rfl
    | some r =>
      obtain ⟨val, st1⟩ := r
      obtain ⟨sv, hsv⟩ := EvalState.popValue_stack L state st1 val h1
      rw [h] at hsv
      have hst1 : st1.stack = .value v :: rest := (List.cons.inj hsv).2.symm
      simp [EvalState.popAddress, EvalState.pop, hst1, StackValue.toAddress]
  refine ⟨key, ?_, ?_, ?_, ?_⟩
  · intro fuel n1 n2 t rest prev h1 h2 ht
    exact parse_binary L fuel (.number "1") (.number "2") _ _ ⟨TokenAssign, "="⟩ t _ rest prev
      (by simp only [Atom.instruction, h1, Option.map_some'])
      (by simp only [Atom.instruction, h2, Option.map_some']) rfl (by decide) ht
  · intro n1 n2 state
    simp only [evalInstructions, Instruction.eval]
    rw [key _ (.value (.number n2)) (.number n1) state.stack rfl]
  · intro fuel a b c t rest prev ht
    exact parse_left_nested L fuel (.variable a) (.variable b) (.variable c) _ _ _
      ⟨TokenAdd, "+"⟩ ⟨TokenAssign, "="⟩ t _ _ rest prev rfl rfl rfl rfl rfl (by decide)
      (by decide) (by decide) ht
  · intro a b c state
    simp only [evalInstructions, Instruction.eval]
    cases h1 : InstructionBasic.eval L InstructionAdd
        ((state.push (.variableReference a)).push (.variableReference b)) with
    | none => rfl
    | some st1 =>
      obtain ⟨r, rest, hr⟩ := add_pushes_value L _ st1 h1
      simp only []
      rw [key (st1.push (.variableReference c)) (.variableReference c) r rest
        (by simp [EvalState.push, hr])]

theorem assign_to_rvalue_fails_witness :
    ((⟨[.value (.number F64.two), .value (.number F64.one)], [], .null, ""⟩ : EvalState).stack
        = .value (.number F64.two) :: .value (.number F64.one) :: [] ∧
      InstructionBasic.eval refLib InstructionAssign
        ⟨[.value (.number F64.two), .value (.number F64.one)], [], .null, ""⟩ = none) ∧
    (refLib.parseFloat "1" = some F64.one ∧ refLib.parseFloat "2" = some F64.two ∧
      endsExpression (Token.mk TokenRBrace "\x7d").typ = true ∧
      parseExpression refLib 4 0
          ⟨[⟨TokenNumber, "1"⟩, ⟨TokenAssign, "="⟩, ⟨TokenNumber, "2"⟩,
            ⟨TokenRBrace, "\x7d"⟩], ⟨TokenErr, ""⟩, false⟩
        = .done ([.pushNumber F64.one, .pushNumber F64.two, .basic InstructionAssign], false,
            ⟨[], ⟨TokenRBrace, "\x7d"⟩, true⟩)) :=
  ⟨⟨rfl, (assign_to_rvalue_fails refLib).1 _ _ _ _ rfl⟩,
    ⟨refLib_parseFloat_one, refLib_parseFloat_two, rfl,
      (assign_to_rvalue_fails refLib).2.1 0 _ _ ⟨TokenRBrace, "\x7d"⟩ [] ⟨TokenErr, ""⟩
        refLib_parseFloat_one refLib_parseFloat_two rfl⟩⟩

/-! ## Index assignment into a variable never read -/

theorem eval_pushVariable (L : GoLib) (x : String) (st : EvalState) :
    Instruction.eval L (.pushVariable x) st = some (st.push (.variableReference x)) :=
  rfl

theorem eval_pushString (L : GoLib) (s : String) (st : EvalState) :
    Instruction.eval L (.pushString s) st = some (st.push (.value (.string s))) :=
  rfl

theorem eval_pushNumber (L : GoLib) (n : F64) (st : EvalState) :
    Instruction.eval L (.pushNumber n) st = some (st.push (.value (.number n))) :=
  rfl

theorem eval_basic (L : GoLib) (i : InstructionBasic) (st : EvalState) :
    Instruction.eval L (.basic i) st = i.eval L st :=
  rfl

theorem eval_call (L : GoLib) (sub : Subroutine) (nargs : Nat) (st : EvalState) :
    Instruction.eval L (.call sub nargs) st = InstructionCall.eval L sub nargs st :=
  rfl

/-- C28: the compiled form of `x.k = v`, with `v` an instruction that pushes the value `val`
(a literal), panics in a state whose store has no entry for `x`, the write path
`VariableReference.assignPath` looking `x` up without defaulting it; in a state where `x`
holds null it succeeds, stores the map with the one entry `k: val` in `x` and pushes null. -/
theorem index_assign_unread_variable (L : GoLib) (state : EvalState) (x k : String)
    (iv : Instruction) (val : Value)
    (hv : ∀ st, iv.eval L st = some (st.push (.value val))) :
    (mapGet state.vars x = none →
      evalInstructions L [.pushVariable x, .pushString k, .basic InstructionIndex, iv,
        .basic InstructionAssign] state = none) ∧
    (mapGet state.vars x = some .null →
      evalInstructions L [.pushVariable x, .pushString k, .basic InstructionIndex, iv,
        .basic InstructionAssign] state
        = some { state with
            stack := .value .null :: state.stack,
            vars := mapSet state.vars x (.map [(k, val)]) }) := by
  constructor
  · intro hx
    simp [evalInstructions, eval_pushVariable, eval_pushString, eval_basic, hv,
      InstructionBasic.eval, EvalState.push,
      EvalState.popValue, EvalState.pop, StackValue.toValue, EvalState.popAddress,
      StackValue.toAddress, Address.assign, Address.assignPath, StackValue.assignPath,
      VariableReference.assignPath, hx]
  · intro hx
    simp [evalInstructions, eval_pushVariable, eval_pushString, eval_basic, hv,
      InstructionBasic.eval, EvalState.push,
      EvalState.popValue, EvalState.pop, StackValue.toValue, EvalState.popAddress,
      StackValue.toAddress, Address.assign, Address.assignPath, StackValue.assignPath,
      VariableReference.assignPath, hx, Value.withAssignment, Value.castToString, mapSet]

theorem index_assign_unread_variable_witness :
    (∀ st, (Instruction.pushString "v").eval refLib st
        = some (st.push (.value (.string "v")))) ∧
    (mapGet ([] : List (String × Value)) "x" = none ∧
      evalInstructions refLib [.pushVariable "x", .pushString "k", .basic InstructionIndex,
        .pushString "v", .basic InstructionAssign] ⟨[], [], .null, ""⟩ = none) ∧
    (mapGet [("x", Value.null)] "x" = some .null ∧
      evalInstructions refLib [.pushVariable "x", .pushString "k", .basic InstructionIndex,
        .pushString "v", .basic InstructionAssign] ⟨[], [("x", .null)], .null, ""⟩
        = some ⟨[.value .null], [("x", .map [("k", .string "v")])], .null, ""⟩) :=
  ⟨fun _ => rfl,
    ⟨rfl, (index_assign_unread_variable refLib ⟨[], [], .null, ""⟩ "x" "k"
      (.pushString "v") (.string "v") (fun _ => rfl)).1 rfl⟩,
    ⟨rfl, (index_assign_unread_variable refLib ⟨[], [("x", .null)], .null, ""⟩ "x" "k"
      (.pushString "v") (.string "v") (fun _ => rfl)).2 rfl⟩⟩

/-! ## Map union -/

theorem mapSet_keys_nodup (m : List (String × Value)) (k : String) (v : Value)
    (h : (m.map Prod.fst).Nodup) : ((mapSet m k v).map Prod.fst).Nodup := by
  induction m with
  | nil => simp [mapSet]
  | cons e es ih =>
    obtain ⟨k', v'⟩ := e
    simp only [List.map_cons, List.nodup_cons] at h
    by_cases hk : k' = k
    · subst hk
      simp [mapSet, h.1, h.2]
    · simp only [mapSet, hk, if_false, List.map_cons, List.nodup_cons]
      refine ⟨?_, ih h.2⟩
      intro hmem
      rcases (mem_keys_mapSet es k k' v).mp hmem with h1 | h1
      · exact h.1 h1
      · exact hk h1

theorem foldl_mapSet_null_nodup (f : Value → String) (els : List Value) :
    ∀ m : List (String × Value), (m.map Prod.fst).Nodup →
      ((els.foldl (fun res el => mapSet res (f el) .null) m).map Prod.fst).Nodup := by
  induction els with
  | nil => intro m h; exact h
  | cons el els ih => intro m h; exact ih _ (mapSet_keys_nodup m _ _ h)

/-- The map a value casts to holds no key twice. -/
theorem castToMap_nodup (L : GoLib) (w : Value) (hw : w.WF) :
    ((w.castToMap L).map Prod.fst).Nodup := by
  cases w with
  | null => simp [Value.castToMap]
  | bool b => cases b <;> simp [Value.castToMap]
  | number n => simp [Value.castToMap]
  | string s => simp [Value.castToMap]
  | array els =>
    simp only [Value.castToMap]
    exact foldl_mapSet_null_nodup _ els [] (by simp)
  | map es =>
    simp only [Value.WF] at hw
    exact hw.1

theorem foldl_mapSet_get (r : List (String × Value)) (h : (r.map Prod.fst).Nodup) :
    ∀ (m : List (String × Value)) (j : String),
      mapGet (r.foldl (fun res e => mapSet res e.1 e.2) m) j
        = match mapGet r j with
          | some v => some v
          | none => mapGet m j := by
  induction r with
  | nil => intro m j; simp [mapGet]
  | cons e rs ih =>
    obtain ⟨k, v⟩ := e
    simp only [List.map_cons, List.nodup_cons] at h
    intro m j
    simp only [List.foldl_cons]
    rw [ih h.2]
    by_cases hj : k = j
    · subst hj
      have hnone : mapGet rs k = none := by
        cases hg : mapGet rs k with
        | none => rfl
        | some x =>
          exact absurd ((mapGet_isSome_iff rs k).mp (by simp [hg])) h.1
      simp [hnone, mapGet, mapGet_mapSet_self]
    · simp only [mapGet, hj, if_false]
      rw [mapGet_mapSet_ne _ _ _ _ (Ne.symm hj)]

/-- C24: with `r = w.castToMap()`, `m.add(w)` is a map whose key set is the union of the key
sets of `m` and `r`, which maps every key of `r` to the value `r` has for it and every key
that is only in `m` to the value `m` has for it. -/
theorem map_add_union (L : GoLib) (m : List (String × Value)) (w : Value) (hw : w.WF) :
    ∃ res, Value.add L (.map m) w = some (.map res) ∧
      (∀ k, k ∈ res.map Prod.fst ↔ k ∈ m.map Prod.fst ∨ k ∈ (w.castToMap L).map Prod.fst) ∧
      (∀ k v, mapGet (w.castToMap L) k = some v → mapGet res k = some v) ∧
      (∀ k, mapGet (w.castToMap L) k = none → mapGet res k = mapGet m k) := by
  have hr := castToMap_nodup L w hw
  refine ⟨(w.castToMap L).foldl (fun res e => mapSet res e.1 e.2) m, ?_, ?_, ?_, ?_⟩
  · simp [Value.add, ValueMap.add, cloneMap_eq]
  · intro k
    rw [← mapGet_isSome_iff, ← mapGet_isSome_iff, ← mapGet_isSome_iff,
      foldl_mapSet_get _ hr]
    cases mapGet (w.castToMap L) k <;> simp
  · intro k v hk
    rw [foldl_mapSet_get _ hr, hk]
  · intro k hk
    rw [foldl_mapSet_get _ hr, hk]

theorem map_add_union_witness :
    (Value.map [("b", .bool true), ("c", .null)]).WF ∧
    Value.add refLib (.map [("a", .null), ("b", .null)])
        (.map [("b", .bool true), ("c", .null)])
      = some (.map [("a", .null), ("b", .bool true), ("c", .null)]) ∧
    ∃ res, Value.add refLib (.map [("a", .null), ("b", .null)])
        (.map [("b", .bool true), ("c", .null)]) = some (.map res) ∧
      (∀ k v, mapGet ((Value.map [("b", .bool true), ("c", .null)]).castToMap refLib) k
        = some v → mapGet res k = some v) :=
  have hw : (Value.map [("b", .bool true), ("c", .null)]).WF := by
    simp [Value.WF, WFMap]
  ⟨hw, rfl,
    (map_add_union refLib [("a", .null), ("b", .null)]
      (.map [("b", .bool true), ("c", .null)]) hw).imp fun _ h => ⟨h.1, h.2.2.1⟩⟩

/-! ## Map equality -/

theorem mapGet_mem (m : List (String × Value)) (k : String) (v : Value)
    (h : mapGet m k = some v) : (k, v) ∈ m := by
  induction m with
  | nil => simp [mapGet] at h
  | cons e es ih =>
    obtain ⟨k', v'⟩ := e
    by_cases hk : k' = k
    · simp only [mapGet, hk, if_true, Option.some.injEq] at h
      simp [hk, h]
    · simp only [mapGet, hk, if_false] at h
      exact List.mem_cons_of_mem _ (ih h)

theorem mapEqualsLoop_true (L : GoLib) (rhs : List (String × Value)) :
    ∀ es : List (String × Value),
      mapEqualsLoop L es rhs = some true ↔
        ∀ e ∈ es, ∃ r, mapGet rhs e.1 = some r ∧ e.2.equals L r = some true := by
  intro es
  induction es with
  | nil => simp [mapEqualsLoop]
  | cons e es ih =>
    obtain ⟨k, v⟩ := e
    simp only [mapEqualsLoop, List.forall_mem_cons]
    cases hg : mapGet rhs k with
    | none => simp
    | some r =>
      cases he : v.equals L r with
      | none => simp [he]
      | some b =>
        cases b
        · simp [he]
        · simpa [he] using ih

theorem mapEqualsLoop_isSome (L : GoLib) (rhs : List (String × Value)) :
    ∀ es : List (String × Value),
      (∀ e ∈ es, ∀ r, mapGet rhs e.1 = some r → (e.2.equals L r).isSome = true) →
        (mapEqualsLoop L es rhs).isSome = true := by
  intro es
  induction es with
  | nil => simp [mapEqualsLoop]
  | cons e es ih =>
    obtain ⟨k, v⟩ := e
    intro h
    simp only [List.forall_mem_cons] at h
    simp only [mapEqualsLoop]
    cases hg : mapGet rhs k with
    | none => simp
    | some r =>
      have h1 := h.1 r hg
      cases he : v.equals L r with
      | none => simp [he] at h1
      | some b =>
        cases b
        · simp [he]
        · simpa [he] using ih h.2

theorem map_equals_eq (L : GoLib) (m1 m2 : List (String × Value)) :
    (Value.map m1).equals L (.map m2)
      = match mapEqualsLoop L m1 m2 with
        | none => none
        | some false => some false
        | some true => some (m2.all fun e => (mapGet m1 e.1).isSome) := by
  simp only [Value.equals, Value.castToMap]

/-- Map equality checks both directions: for maps `m1` and `m2`, `m1.equals(m2)` is true if
and only if they have the same key set and `m1[k].equals(m2[k])` is true for every key `k`; a
key present on one side only makes the result not true, and false whenever no comparison of
two values under a common key panics. -/
theorem map_equals_bidirectional (L : GoLib) (m1 m2 : List (String × Value))
    (h1 : (m1.map Prod.fst).Nodup) :
    ((Value.map m1).equals L (.map m2) = some true ↔
      (∀ k, (mapGet m1 k).isSome = (mapGet m2 k).isSome) ∧
        ∀ k v1 v2, mapGet m1 k = some v1 → mapGet m2 k = some v2 →
          v1.equals L v2 = some true) ∧
    ((∃ k, (mapGet m1 k).isSome ≠ (mapGet m2 k).isSome) →
      (Value.map m1).equals L (.map m2) ≠ some true ∧
      ((∀ k v1 v2, mapGet m1 k = some v1 → mapGet m2 k = some v2 →
          (v1.equals L v2).isSome = true) →
        (Value.map m1).equals L (.map m2) = some false)) := by
  have hiff : (Value.map m1).equals L (.map m2) = some true ↔
      (∀ k, (mapGet m1 k).isSome = (mapGet m2 k).isSome) ∧
        ∀ k v1 v2, mapGet m1 k = some v1 → mapGet m2 k = some v2 →
          v1.equals L v2 = some true := by
    rw [map_equals_eq]
    constructor
    · intro h
      have hl : mapEqualsLoop L m1 m2 = some true := by
        cases hloop : mapEqualsLoop L m1 m2 with
        | none => simp [hloop] at h
        | some b => cases b <;> simp [hloop] at h ⊢
      have hall : (m2.all fun e => (mapGet m1 e.1).isSome) = true := by
        simpa [hl] using h
      rw [mapEqualsLoop_true] at hl
      rw [List.all_eq_true] at hall
      refine ⟨fun k => ?_, fun k v1 v2 hk1 hk2 => ?_⟩
      · apply Bool.eq_iff_iff.mpr
        constructor
        · intro hk
          obtain ⟨v, hv⟩ := Option.isSome_iff_exists.mp hk
          obtain ⟨r, hr, -⟩ := hl _ (mapGet_mem _ _ _ hv)
          simp [hr]
        · intro hk
          obtain ⟨v, hv⟩ := Option.isSome_iff_exists.mp hk
          exact hall _ (mapGet_mem _ _ _ hv)
      · obtain ⟨r, hr, he⟩ := hl _ (mapGet_mem _ _ _ hk1)
        rw [hk2] at hr
        cases hr
        exact he
    · rintro ⟨hk, hv⟩
      have hl : mapEqualsLoop L m1 m2 = some true := by
        rw [mapEqualsLoop_true]
        intro e he
        have hg := mapGet_of_mem m1 h1 e he
        have hs : (mapGet m2 e.1).isSome = true := by rw [← hk, hg]; rfl
        obtain ⟨r, hr⟩ := Option.isSome_iff_exists.mp hs
        exact ⟨r, hr, hv _ _ _ hg hr⟩
      have hall : (m2.all fun e => (mapGet m1 e.1).isSome) = true := by
        rw [List.all_eq_true]
        intro e he
        rw [hk]
        exact (mapGet_isSome_iff m2 e.1).mpr (List.mem_map_of_mem Prod.fst he)
      simp [hl, hall]
  refine ⟨hiff, fun ⟨k, hk⟩ => ?_⟩
  have hne : (Value.map m1).equals L (.map m2) ≠ some true := fun h => hk ((hiff.mp h).1 k)
  refine ⟨hne, fun hp => ?_⟩
  have hs : (mapEqualsLoop L m1 m2).isSome = true := by
    apply mapEqualsLoop_isSome
    intro e he r hr
    exact hp _ _ _ (mapGet_of_mem m1 h1 e he) hr
  rw [map_equals_eq] at hne ⊢
  cases hloop : mapEqualsLoop L m1 m2 with
  | none => simp [hloop] at hs
  | some b =>
    cases b
    · rfl
    · simp only [hloop] at hne ⊢
      cases hall : (m2.all fun e => (mapGet m1 e.1).isSome)
      · rfl
      · simp [hall] at hne

/-- C23, at the failing input: the maps with the entries `a: []` and `a: -1, c: null` differ
in the key `c`, and comparing them is no `false` but the panic of the cast of `-1` to an array
in the comparison of the values under `a`. -/
theorem map_equals_one_sided_key_panics :
    (mapGet [("a", Value.array [])] "c").isSome
        ≠ (mapGet [("a", Value.number F64.negOne), ("c", Value.null)] "c").isSome ∧
      (Value.map [("a", .array [])]).equals refLib
        (.map [("a", .number F64.negOne), ("c", .null)]) = none := by
  refine ⟨by decide, ?_⟩
  rfl

theorem map_equals_bidirectional_witness :
    ([("a", Value.null), ("b", Value.bool true)].map Prod.fst).Nodup ∧
    (∃ k, (mapGet [("a", Value.null), ("b", Value.bool true)] k).isSome
      ≠ (mapGet [("a", Value.null)] k).isSome) ∧
    (Value.map [("a", .null), ("b", .bool true)]).equals refLib (.map [("a", .null)])
      ≠ some true :=
  have hn : ([("a", Value.null), ("b", Value.bool true)].map Prod.fst).Nodup := by decide
  have hk : ∃ k, (mapGet [("a", Value.null), ("b", Value.bool true)] k).isSome
      ≠ (mapGet [("a", Value.null)] k).isSome := ⟨"b", by decide⟩
  ⟨hn, hk, ((map_equals_bidirectional refLib _ _ hn).2 hk).1⟩

/-! ## The variables of a filter, and the empty action -/

/-- C13, as the code has it: the filter at the position `i` of a pattern is evaluated, for a
visit with path `p`, in a state where `path` holds the first `i + 1` segments of `p` as an
array and `$0` the document value at that part of the path; these are `p` and the value at `p`
when `i` is the last position of `p`. -/
theorem filter_builtins_are_of_the_path_so_far (L : GoLib) (walkItem : TreeWalkItem)
    (filter : Expression) (rest : List PatternSegment) (i : Nat) (state : EvalState) (d : Value)
    (hi : i < walkItem.path.length)
    (hd : state.data.getPath (walkItem.path.take (i + 1)) = some d) :
    ∃ st0 : EvalState,
      mapGet st0.vars "path" = some (.array (pathToValueArray (walkItem.path.take (i + 1)))) ∧
      mapGet st0.vars "$0" = some d ∧
      st0.stack = state.stack ∧ st0.data = state.data ∧ st0.out = state.out ∧
      matchPatternLoop L walkItem (.PatternSegmentFilter filter :: rest) i state
        = (match evalExpr L st0 filter with
          | none => none
          | some (result, st1) =>
            if result.castToBool then matchPatternLoop L walkItem rest (i + 1) st1
            else some (false, st1)) ∧
      (i + 1 = walkItem.path.length → walkItem.path.take (i + 1) = walkItem.path) := by
  refine ⟨{ state with vars := mapSet (mapSet state.vars "path"
      (.array (pathToValueArray (walkItem.path.take (i + 1))))) "$0" d }, ?_, ?_, rfl, rfl, rfl,
      ?_, ?_⟩
  · rw [mapGet_mapSet_ne _ _ _ _ (by decide), mapGet_mapSet_self]
  · rw [mapGet_mapSet_self]
  · obtain ⟨seg, hseg⟩ : ∃ seg, walkItem.path.get? i = some seg :=
      ⟨_, List.get?_eq_get hi⟩
    simp only [matchPatternLoop, hseg, PatternSegment.matches, hd, Value.clone_eq]
    cases evalExpr L _ filter with
    | none => rfl
    | some r =>
      obtain ⟨result, st1⟩ := r
      cases hb : result.castToBool <;> simp [hb]
  · intro h
    rw [h, List.take_length]

/-- C13 fails for a filter that is not the last segment: on the document `[[false]]` and the
visit with path `[0, 0]`, whose value is `false`, the pattern with the filter `$0` followed by
`*` matches, because the filter sees the value `[false]` at the path `[0]`. -/
theorem filter_not_last_sees_shorter_path :
    (Value.array [.array [.bool false]]).getPath [.int 0, .int 0] = some (.bool false) ∧
    (Value.bool false).castToBool = false ∧
    (matchPattern refLib ⟨[], [], .array [.array [.bool false]], ""⟩
        ⟨[.PatternSegmentFilter [.pushVariable "$0"], .PatternSegmentAll], true⟩
        ⟨[.int 0, .int 0], true⟩).map Prod.fst = some true ∧
    (matchPattern refLib ⟨[], [], .array [.array [.bool false]], ""⟩
        ⟨[.PatternSegmentFilter [.pushVariable "$0"], .PatternSegmentAll], true⟩
        ⟨[.int 0, .int 0], true⟩).map (fun r => mapGet r.2.vars "path")
      = some (some (.array [.number (F64.ofInt 0)])) :=
  ⟨rfl, rfl, rfl, rfl⟩

theorem filter_builtins_are_of_the_path_so_far_witness :
    (0 < (TreeWalkItem.mk [.int 0, .int 0] true).path.length ∧
      (Value.array [.array [.bool false]]).getPath
        ((TreeWalkItem.mk [.int 0, .int 0] true).path.take (0 + 1))
          = some (.array [.bool false])) ∧
    ∃ st0 : EvalState,
      mapGet st0.vars "path" = some (.array (pathToValueArray [.int 0])) ∧
      mapGet st0.vars "$0" = some (.array [.bool false]) :=
  ⟨⟨by decide, rfl⟩,
    (filter_builtins_are_of_the_path_so_far refLib ⟨[.int 0, .int 0], true⟩
      [.pushVariable "$0"] [.PatternSegmentAll] 0
      ⟨[], [], .array [.array [.bool false]], ""⟩ (.array [.bool false])
      (by decide) rfl).imp fun _ h => ⟨h.1, h.2.1⟩⟩

theorem printlnLoop_single (L : GoLib) (d : Value) :
    printlnLoop L 0 [d] = printSingle L d := by
  simp [printlnLoop]

/-- C16: for every state and every visit, `evalAction` with the empty action prints what
`evalAction` with `[PushVariable "$0", Call(println, 1)]` prints, which is what
`println($0)` compiles to: when the visit's path is in the document, both add to the output
the text of `printSingle` for the value at the path and a newline, and otherwise both panic. -/
theorem empty_action_prints_like_println (L : GoLib) (state : EvalState)
    (node : TreeWalkItem) :
    (evalAction L state [] node).map (fun s => s.out)
      = (evalAction L state [.pushVariable "$0", .call SubroutinePrintln 1] node).map
          (fun s => s.out) ∧
    (∀ d, state.data.getPath node.path = some d →
      (evalAction L state [] node).map (fun s => s.out)
        = some (state.out ++ (printSingle L d ++ "\n"))) ∧
    (state.data.getPath node.path = none → evalAction L state [] node = none) ∧
    (∀ (fuel : Nat) (t : Token) (rest : List Token) (prev : Token),
      endsExpression t.typ = true →
      parseExpression L (fuel + 6) 0
          ⟨⟨TokenIdentifier, "println"⟩ :: ⟨TokenLParen, "("⟩ :: ⟨TokenIdentifier, "$0"⟩ ::
            ⟨TokenRParen, ")"⟩ :: t :: rest, prev, false⟩
        = .done ([.pushVariable "$0", .call SubroutinePrintln 1], false, ⟨rest, t, true⟩)) := by
  refine ⟨?_, ?_, ?_, ?_⟩
  · cases hd : state.data.getPath node.path with
    | none => simp [evalAction, hd]
    | some d =>
      simp [evalAction, hd, evalExpr, evalInstructions, eval_pushVariable, eval_call,
        InstructionCall.eval, popArgs, EvalState.popValue, EvalState.pop, EvalState.push,
        StackValue.toValue, mapGet_mapSet_self, subroutinePrintln, Value.clone_eq]
  · intro d hd
    simp [evalAction, hd, subroutinePrintln, printlnLoop_single]
  · intro hd
    simp [evalAction, hd]
  · intro fuel t rest prev ht
    have e1 := parseExpression_atom_end L (fuel + 2) 0 (.variable "$0") _ ⟨TokenRParen, ")"⟩
      (t :: rest) ⟨TokenLParen, "("⟩ rfl (Or.inl rfl)
    have e2 := oploop_end L (fuel + 4) 0
      [.pushVariable "$0", .call SubroutinePrintln 1]
      ⟨t :: rest, ⟨TokenRParen, ")"⟩, false⟩ ⟨rest, t, false⟩ t
      (by simp [parser.next, (endsExpression_ne _ ht).1]) ht
    rw [parseExpression]
    simp only [Atom.token] at e1
    simp [parser.next, parser.accept, parser.rewind, subroutines, parseCallArgs, e1, e2]

theorem empty_action_prints_like_println_witness :
    (Value.array [.null]).getPath [.int 0] = some .null ∧
    (evalAction refLib ⟨[], [], .array [.null], ""⟩ [] ⟨[.int 0], true⟩).map (fun s => s.out)
      = some "null\n" ∧
    (evalAction refLib ⟨[], [], .array [.null], ""⟩
        [.pushVariable "$0", .call SubroutinePrintln 1] ⟨[.int 0], true⟩).map (fun s => s.out)
      = some "null\n" :=
  ⟨rfl,
    (empty_action_prints_like_println refLib ⟨[], [], .array [.null], ""⟩
      ⟨[.int 0], true⟩).2.1 .null rfl,
    (empty_action_prints_like_println refLib ⟨[], [], .array [.null], ""⟩
      ⟨[.int 0], true⟩).1.symm.trans
      ((empty_action_prints_like_println refLib ⟨[], [], .array [.null], ""⟩
        ⟨[.int 0], true⟩).2.1 .null rfl)⟩

/-! ## The lexer on an error, on `z` and on number literals -/

/-- C12, at the failing input: for the source `{` the lexer sends the error token
`Unclosed Action` and, after it, an end-of-file token; for `{ @ }` it sends two error tokens.
The nil state that `errorf` returns ends only the loop of `lexStartAction`, and the loop of
`run` goes on from `lexBlockStart`. -/
theorem lex_error_is_not_terminal :
    Lex refLib 10 "\x7b"
      = .done [⟨TokenLBrace, "\x7b"⟩, ⟨TokenErr, "Unclosed Action"⟩, ⟨TokenEOF, ""⟩] ∧
    Lex refLib 10 "\x7b @ \x7d"
      = .done [⟨TokenLBrace, "\x7b"⟩, ⟨TokenErr, "Invalid Token: @"⟩,
          ⟨TokenErr, "Invalid Pattern"⟩] :=
  ⟨rfl, rfl⟩

theorem char_lt_z_iff (c : Char) : c < 'z' ↔ c ≤ 'y' := by
  rw [Char.lt_def, Char.le_def]
  show c.val.toNat < 122 ↔ c.val.toNat ≤ 121
  omega

theorem lexAction_at_z (l : lexer) (h : l.input.get? l.pos = some 'z') :
    (lexActionFn l).1 = none ∧
      (lexActionFn l).2.tokenStream = l.tokenStream ++ [⟨TokenErr, "Invalid Token: z"⟩] := by
  have hlt : l.pos < l.input.length := by
    by_contra hge
    rw [List.get?_eq_none.mpr (by omega)] at h
    cases h
  have hge : ¬ (l.pos ≥ l.input.length) := by omega
  have h2 : l.input[l.pos]? = some 'z' := by simpa using h
  have hn : l.next = (some 'z', { l with width := 1, pos := l.pos + 1 }) := by
    simp [lexer.next, hge, h2]
  have ha : (l.acceptAll whitespaceNewlines).ignore = { l with width := 1, start := l.pos } := by
    simp [lexer.acceptAll, lexer.acceptLoop, hn, indexRune, whitespaceNewlines, lexer.backup,
      lexer.ignore]
  have hn2 : lexer.next { l with width := 1, start := l.pos }
      = (some 'z', { l with width := 1, start := l.pos, pos := l.pos + 1 }) := by
    simp [lexer.next, hge, h2]
  simp [lexActionFn, ha, hn2, doubleCharTokens, lexActionSwitch, charTokens, isDigit,
    isIdentifierStartRune, isAlpha, lexer.errorf, invalidTokenMessage]
  decide

/-- C27: `isAlpha(r)` is true exactly for the runes from `a` to `y` and from `A` to `Z`; it is
false for `z` (and for the end of the input), which is therefore no identifier rune; `lexAction`
at a `z` sends the error token `Invalid Token: z` and returns the nil state; the lexer answers
`{ z }` with that error token and no identifier, and cuts the name in `{ size }` into the
identifier `si` and the same error token. -/
theorem isAlpha_excludes_z :
    (∀ c : Char, isAlpha (some c) = true ↔ ('a' ≤ c ∧ c ≤ 'y') ∨ ('A' ≤ c ∧ c ≤ 'Z')) ∧
    isAlpha (some 'z') = false ∧ isAlpha none = false ∧
    isIdentifierStartRune (some 'z') = false ∧ isIdentifierRune (some 'z') = false ∧
    (∀ l : lexer, l.input.get? l.pos = some 'z' →
      (lexActionFn l).1 = none ∧
        (lexActionFn l).2.tokenStream = l.tokenStream ++ [⟨TokenErr, "Invalid Token: z"⟩]) ∧
    Lex refLib 10 "\x7b z \x7d"
      = .done [⟨TokenLBrace, "\x7b"⟩, ⟨TokenErr, "Invalid Token: z"⟩,
          ⟨TokenErr, "Invalid Pattern"⟩] ∧
    Lex refLib 10 "\x7b size \x7d"
      = .done [⟨TokenLBrace, "\x7b"⟩, ⟨TokenIdentifier, "si"⟩, ⟨TokenErr, "Invalid Token: z"⟩,
          ⟨TokenIndexPattern, "e"⟩, ⟨TokenErr, "Missing Action"⟩] := by
  refine ⟨fun c => ?_, rfl, rfl, rfl, rfl, lexAction_at_z, rfl, rfl⟩
  simp [isAlpha, char_lt_z_iff]

theorem isAlpha_excludes_z_witness :
    (lexer.mk ['a', 'z'] 1 1 1 1 [⟨TokenIdentifier, "a"⟩]).input.get? 1 = some 'z' ∧
    (lexActionFn (lexer.mk ['a', 'z'] 1 1 1 1 [⟨TokenIdentifier, "a"⟩])).2.tokenStream
      = [⟨TokenIdentifier, "a"⟩, ⟨TokenErr, "Invalid Token: z"⟩] :=
  ⟨rfl, (isAlpha_excludes_z.2.2.2.2.2.1 (lexer.mk ['a', 'z'] 1 1 1 1 [⟨TokenIdentifier, "a"⟩])
    rfl).2⟩

/-- C21, at the failing input: in `{ 1z }` the character after the digit is the letter `z`,
and the lexer sends the number token `1` for the literal and only then an error token for the
`z`, because `isIdentifierRune` is false for `z`; with another letter, as in `{ 1a }`, it sends
the error token `Bad number` and no number token. -/
theorem number_before_z_is_a_token :
    Lex refLib 10 "\x7b 1z \x7d"
      = .done [⟨TokenLBrace, "\x7b"⟩, ⟨TokenNumber, "1"⟩, ⟨TokenErr, "Invalid Token: z"⟩,
          ⟨TokenErr, "Invalid Pattern"⟩] ∧
    Lex refLib 10 "\x7b 1a \x7d"
      = .done [⟨TokenLBrace, "\x7b"⟩, ⟨TokenErr, "Bad number: \"1a\""⟩,
          ⟨TokenErr, "Invalid Pattern"⟩] ∧
    Lex refLib 10 "\x7b 12.5 \x7d"
      = .done [⟨TokenLBrace, "\x7b"⟩, ⟨TokenNumber, "12.5"⟩, ⟨TokenRBrace, "\x7d"⟩,
          ⟨TokenEOF, ""⟩] :=
  ⟨rfl, rfl, rfl⟩

/-! ## The scenario with two blocks -/

set_option maxHeartbeats 4000000 in
theorem scenario6_lex (L : GoLib) (fuel : Nat) :
    Lex L (fuel + 15) "^* \x7b s += \"x\" \x7d \x7b println(s) \x7d" = .done scenario6Tokens :=
  rfl

theorem scenario6_parse (L : GoLib) (fuel : Nat) :
    Parse L (fuel + 6) scenario6Tokens = .done scenario6Program :=
  rfl

set_option maxHeartbeats 4000000 in
theorem scenario6_eval_raw (L : GoLib) :
    (Eval L scenario6Program (.array [.null, .null])).map (fun s => s.out)
      = some ("" ++ ("" ++ L.quote "xx" ++ "" ++ "\n")) :=
  rfl

theorem scenario6_eval (L : GoLib) :
    (Eval L scenario6Program (.array [.null, .null])).map (fun s => s.out)
      = some (L.quote "xx" ++ "\n") := by
  rw [scenario6_eval_raw]
  simp

theorem scenario6_run (L : GoLib) (fuel : Nat) :
    runProgram L (fuel + 15) "^* \x7b s += \"x\" \x7d \x7b println(s) \x7d"
        (.array [.null, .null])
      = .done (L.quote "xx" ++ "\n") := by
  have h := scenario6_eval L
  simp only [runProgram, scenario6_lex L fuel, scenario6_parse L (fuel + 9)]
  cases he : Eval L scenario6Program (.array [.null, .null]) with
  | none => simp [he] at h
  | some st =>
    simp only [he, Option.map_some', Option.some.injEq] at h
    simp only [h]

theorem refLib_quote_xx : refLib.quote "xx" ++ "\n" = "\"xx\"\n" := by
  decide

/-- C18, as the code has it: lexing, parsing and running `^* { s += "x" } { println(s) }` on
the document `[null, null]` prints one line, the quoted string `xx`: the walk has six items,
the block `^*` runs on the entries of the two elements, whose paths have one segment, and the
block `{ println(s) }` runs on the exit of the root alone. -/
theorem scenario6_prints_xx_once (L : GoLib) (fuel : Nat) :
    runProgram L (fuel + 15) "^* \x7b s += \"x\" \x7d \x7b println(s) \x7d"
        (.array [.null, .null])
      = .done (L.quote "xx" ++ "\n") ∧
    Lex L (fuel + 15) "^* \x7b s += \"x\" \x7d \x7b println(s) \x7d" = .done scenario6Tokens ∧
    Parse L (fuel + 6) scenario6Tokens = .done scenario6Program ∧
    getPaths (.array [.null, .null])
      = [⟨[], true⟩, ⟨[.int 0], true⟩, ⟨[.int 0], false⟩, ⟨[.int 1], true⟩,
          ⟨[.int 1], false⟩, ⟨[], false⟩] ∧
    (∀ (state : EvalState) (it : TreeWalkItem),
      (matchPattern L state ⟨[.PatternSegmentAll], true⟩ it).map Prod.fst
        = some (decide (it.path.length = 1 ∧ it.first = true))) :=
  ⟨scenario6_run L fuel, scenario6_lex L fuel, scenario6_parse L fuel, rfl, by
    intro state it
    obtain ⟨path, first⟩ := it
    simp only [matchPattern, List.length_cons, List.length_nil]
    by_cases h1 : path.length = 1
    · obtain ⟨seg, rfl⟩ := List.length_eq_one.mp h1
      cases first <;> simp [matchPatternLoop, PatternSegment.matches]
    · have h2 : ¬ (0 + 1 = path.length) := fun e => h1 e.symm
      simp [h1, h2]⟩

/-- C18 fails: the run prints the one line `"xx"`, not the three lines `"xxx"`. -/
theorem scenario6_is_not_three_lines :
    runProgram refLib 15 "^* \x7b s += \"x\" \x7d \x7b println(s) \x7d" (.array [.null, .null])
      = .done "\"xx\"\n" ∧
    "\"xx\"\n" ≠ "\"xxx\"\n\"xxx\"\n\"xxx\"\n" :=
  ⟨(scenario6_run refLib 0).trans (congrArg Outcome.done refLib_quote_xx), by decide⟩

/-! ## The order of the walk -/

theorem under_under (p q : List TreePathSegment) (it : TreeWalkItem) :
    TreeWalkItem.under p (TreeWalkItem.under q it) = TreeWalkItem.under (p ++ q) it := by
  simp [TreeWalkItem.under, List.append_assoc]

theorem map_under_under (p q : List TreePathSegment) (l : List TreeWalkItem) :
    (l.map (TreeWalkItem.under q)).map (TreeWalkItem.under p)
      = l.map (TreeWalkItem.under (p ++ q)) := by
  simp [List.map_map, Function.comp_def, under_under]

mutual
/-- The walk started at a path is the walk started at the empty path, moved under the path. -/
theorem walkPaths_under : ∀ (v : Value) (p : List TreePathSegment),
    walkPaths v p = (walkPaths v []).map (TreeWalkItem.under p)
  | .null, p => by simp [walkPaths, TreeWalkItem.under]
  | .bool _, p => by simp [walkPaths, TreeWalkItem.under]
  | .number _, p => by simp [walkPaths, TreeWalkItem.under]
  | .string _, p => by simp [walkPaths, TreeWalkItem.under]
  | .array els, p => by
    simp only [walkPaths, List.map_cons, List.map_append, List.map_nil]
    rw [walkArrayLoop_under els 0 p]
    simp [TreeWalkItem.under]
  | .map es, p => by
    simp only [walkPaths, List.map_cons, List.map_append, List.map_nil]
    rw [walkMapLoop_under es p]
    simp [TreeWalkItem.under]
theorem walkArrayLoop_under : ∀ (els : List Value) (i : Nat) (p : List TreePathSegment),
    walkArrayLoop els i p = (walkArrayLoop els i []).map (TreeWalkItem.under p)
  | [], _, _ => by simp [walkArrayLoop]
  | el :: els, i, p => by
    simp only [walkArrayLoop, List.map_append, List.nil_append]
    rw [walkPaths_under el (p ++ [TreePathSegment.int i]),
      walkPaths_under el [TreePathSegment.int i],
      walkArrayLoop_under els (i + 1) p, map_under_under]
theorem walkMapLoop_under : ∀ (es : List (String × Value)) (p : List TreePathSegment),
    walkMapLoop es p = (walkMapLoop es []).map (TreeWalkItem.under p)
  | [], _ => by simp [walkMapLoop]
  | (key, el) :: es, p => by
    simp only [walkMapLoop, List.map_append, List.nil_append]
    rw [walkPaths_under el (p ++ [TreePathSegment.string key]),
      walkPaths_under el [TreePathSegment.string key],
      walkMapLoop_under es p, map_under_under]
end

mutual
theorem walkPaths_length : ∀ (v : Value) (p : List TreePathSegment),
    (walkPaths v p).length = 2 * v.nodeCount
  | .null, p => by simp [walkPaths, Value.nodeCount]
  | .bool _, p => by simp [walkPaths, Value.nodeCount]
  | .number _, p => by simp [walkPaths, Value.nodeCount]
  | .string _, p => by simp [walkPaths, Value.nodeCount]
  | .array els, p => by
    simp only [walkPaths, Value.nodeCount, List.length_cons, List.length_append,
      List.length_nil, walkArrayLoop_length els 0 p]
    omega
  | .map es, p => by
    simp only [walkPaths, Value.nodeCount, List.length_cons, List.length_append,
      List.length_nil, walkMapLoop_length es p]
    omega
theorem walkArrayLoop_length : ∀ (els : List Value) (i : Nat) (p : List TreePathSegment),
    (walkArrayLoop els i p).length = 2 * nodeCountArray els
  | [], _, _ => by simp [walkArrayLoop, nodeCountArray]
  | el :: els, i, p => by
    simp only [walkArrayLoop, nodeCountArray, List.length_append,
      walkPaths_length el _, walkArrayLoop_length els (i + 1) p]
    omega
theorem walkMapLoop_length : ∀ (es : List (String × Value)) (p : List TreePathSegment),
    (walkMapLoop es p).length = 2 * nodeCountMap es
  | [], _ => by simp [walkMapLoop, nodeCountMap]
  | (key, el) :: es, p => by
    simp only [walkMapLoop, nodeCountMap, List.length_append,
      walkPaths_length el _, walkMapLoop_length es p]
    omega
end

theorem walkArrayLoop_append (p : List TreePathSegment) (xs ys : List Value) :
    ∀ i : Nat,
      walkArrayLoop (xs ++ ys) i p
        = walkArrayLoop xs i p ++ walkArrayLoop ys (i + xs.length) p := by
  induction xs with
  | nil => intro i; simp [walkArrayLoop]
  | cons x xs ih =>
    intro i
    have e : i + 1 + xs.length = i + (xs.length + 1) := by omega
    simp only [List.cons_append, walkArrayLoop, List.length_cons, List.append_assoc,
      List.append_eq, ih, e]

theorem walkMapLoop_append (p : List TreePathSegment) (xs ys : List (String × Value)) :
    walkMapLoop (xs ++ ys) p = walkMapLoop xs p ++ walkMapLoop ys p := by
  induction xs with
  | nil => simp [walkMapLoop]
  | cons x xs ih =>
    obtain ⟨k, x⟩ := x
    simp only [List.cons_append, walkMapLoop, List.append_assoc, List.append_eq, ih]

/-- Every item of the loop over an array lies under the index of an element. -/
theorem walkArrayLoop_heads :
    ∀ (els : List Value) (i : Nat) (it : TreeWalkItem), it ∈ walkArrayLoop els i [] →
      ∃ (j : Nat) (r : List TreePathSegment),
        i ≤ j ∧ j < i + els.length ∧ it.path = .int j :: r
  | [], _, it, h => by simp [walkArrayLoop] at h
  | el :: els, i, it, h => by
    simp only [walkArrayLoop, List.nil_append, List.mem_append] at h
    rcases h with h | h
    · rw [walkPaths_under] at h
      obtain ⟨it0, -, rfl⟩ := List.mem_map.mp h
      exact ⟨i, it0.path, le_refl _, by simp, rfl⟩
    · obtain ⟨j, r, h1, h2, h3⟩ := walkArrayLoop_heads els (i + 1) it h
      exact ⟨j, r, by omega, by simp only [List.length_cons]; omega, h3⟩

/-- Every item of the loop over a map lies under the key of an entry. -/
theorem walkMapLoop_heads :
    ∀ (es : List (String × Value)) (it : TreeWalkItem), it ∈ walkMapLoop es [] →
      ∃ (k : String) (r : List TreePathSegment),
        k ∈ es.map Prod.fst ∧ it.path = .string k :: r
  | [], it, h => by simp [walkMapLoop] at h
  | (key, el) :: es, it, h => by
    simp only [walkMapLoop, List.nil_append, List.mem_append] at h
    rcases h with h | h
    · rw [walkPaths_under] at h
      obtain ⟨it0, -, rfl⟩ := List.mem_map.mp h
      exact ⟨key, it0.path, by simp, rfl⟩
    · obtain ⟨k, r, h1, h2⟩ := walkMapLoop_heads es it h
      exact ⟨k, r, by simp [h1], h2⟩

/-- The walk of a value: its entry, the items of its children, which lie strictly below it, and
its exit. -/
theorem walkPaths_shape (v : Value) :
    ∃ mid : List TreeWalkItem,
      walkPaths v [] = ⟨[], true⟩ :: (mid ++ [⟨[], false⟩]) ∧ ∀ it ∈ mid, it.path ≠ [] := by
  cases v with
  | null => exact ⟨[], by simp [walkPaths], by simp⟩
  | bool b => exact ⟨[], by simp [walkPaths], by simp⟩
  | number n => exact ⟨[], by simp [walkPaths], by simp⟩
  | string s => exact ⟨[], by simp [walkPaths], by simp⟩
  | array els =>
    refine ⟨walkArrayLoop els 0 [], by simp [walkPaths], fun it h => ?_⟩
    obtain ⟨j, r, -, -, h3⟩ := walkArrayLoop_heads els 0 it h
    simp [h3]
  | map es =>
    refine ⟨walkMapLoop es [], by simp [walkPaths], fun it h => ?_⟩
    obtain ⟨k, r, -, h3⟩ := walkMapLoop_heads es it h
    simp [h3]

theorem mapGet_split :
    ∀ (es : List (String × Value)) (k : String) (el : Value),
      (es.map Prod.fst).Nodup → mapGet es k = some el →
        ∃ l r, es = l ++ (k, el) :: r ∧ k ∉ l.map Prod.fst ∧ k ∉ r.map Prod.fst
  | [], k, el, _, h => by simp [mapGet] at h
  | (k0, v0) :: es, k, el, hn, h => by
    simp only [List.map_cons, List.nodup_cons] at hn
    by_cases hk : k0 = k
    · subst hk
      simp only [mapGet, if_true, Option.some.injEq] at h
      subst h
      exact ⟨[], es, rfl, by simp, hn.1⟩
    · simp only [mapGet, hk, if_false] at h
      obtain ⟨l, r, rfl, h1, h2⟩ := mapGet_split es k el hn.2 h
      refine ⟨(k0, v0) :: l, r, rfl, ?_, h2⟩
      simp only [List.map_cons, List.mem_cons, not_or]
      exact ⟨fun e => hk e.symm, h1⟩

theorem WFArray_mem : ∀ (els : List Value), WFArray els → ∀ el ∈ els, el.WF
  | [], _, _, h => by simp at h
  | x :: xs, hw, el, h => by
    simp only [WFArray] at hw
    rcases List.mem_cons.mp h with rfl | h
    · exact hw.1
    · exact WFArray_mem xs hw.2 el h

theorem WFMap_mem : ∀ (es : List (String × Value)), WFMap es → ∀ e ∈ es, e.2.WF
  | [], _, _, h => by simp at h
  | (k, x) :: xs, hw, e, h => by
    simp only [WFMap] at hw
    rcases List.mem_cons.mp h with rfl | h
    · exact hw.1
    · exact WFMap_mem xs hw.2 e h

theorem getElem?_split (els : List Value) (n : Nat) (el : Value) (h : els[n]? = some el) :
    els = els.take n ++ el :: els.drop (n + 1) ∧ (els.take n).length = n ∧ n < els.length := by
  obtain ⟨hn, he⟩ := List.getElem?_eq_some.mp h
  refine ⟨?_, by simp [List.length_take]; omega, hn⟩
  have h1 : els.drop n = el :: els.drop (n + 1) := by
    rw [List.drop_eq_getElem_cons hn, he]
  rw [← h1, List.take_append_drop]

theorem under_nil (l : List TreeWalkItem) : l.map (TreeWalkItem.under []) = l := by
  induction l with
  | nil => rfl
  | cons it l ih => simp [TreeWalkItem.under, ih]

/-- The walk of a document holds the walk of each of its nodes as one block, moved under the
path of the node, and no item ahead of that block or after it lies at or below the path. -/
theorem walkPaths_at_node :
    ∀ (q : List TreePathSegment) (v c : Value), v.WF → v.getPath q = some c →
      ∃ pre post,
        walkPaths v [] = pre ++ (walkPaths c []).map (TreeWalkItem.under q) ++ post ∧
        (∀ it ∈ pre, ¬ q <+: it.path) ∧ (∀ it ∈ post, ¬ q <+: it.path)
  | [], v, c, _, h => by
    simp only [Value.getPath, Option.some.injEq] at h
    subst h
    exact ⟨[], [], by simp [under_nil], by simp, by simp⟩
  | seg :: r, .null, c, _, h => by simp [Value.getPath] at h
  | seg :: r, .bool _, c, _, h => by simp [Value.getPath] at h
  | seg :: r, .number _, c, _, h => by simp [Value.getPath] at h
  | seg :: r, .string _, c, _, h => by simp [Value.getPath] at h
  | seg :: r, .array els, c, hw, h => by
    cases seg with
    | string s => simp [Value.getPath] at h
    | int i =>
      simp only [Value.getPath, sliceIndex] at h
      by_cases hi : 0 ≤ i
      · simp only [hi, if_true] at h
        cases hel : els[i.toNat]? with
        | none => simp [hel] at h
        | some el =>
          rw [List.get?_eq_getElem?, hel] at h
          dsimp only at h
          obtain ⟨n, rfl⟩ := Int.eq_ofNat_of_zero_le hi
          simp only [Int.toNat_ofNat] at hel
          obtain ⟨hsplit, hlen, hn⟩ := getElem?_split els n el hel
          have hwel : el.WF :=
            WFArray_mem els (by simpa [Value.WF] using hw) el (List.getElem?_mem hel)
          obtain ⟨pre', post', hdec, hpre, hpost⟩ := walkPaths_at_node r el c hwel h
          have hloop : walkArrayLoop els 0 []
              = walkArrayLoop (els.take n) 0 []
                ++ ((walkPaths el []).map (TreeWalkItem.under [TreePathSegment.int n])
                  ++ walkArrayLoop (els.drop (n + 1)) (n + 1) []) := by
            conv_lhs => rw [hsplit]
            rw [walkArrayLoop_append, hlen]
            simp only [walkArrayLoop, List.nil_append, Nat.zero_add]
            rw [walkPaths_under el [TreePathSegment.int n]]
          refine ⟨⟨[], true⟩ :: (walkArrayLoop (els.take n) 0 []
              ++ pre'.map (TreeWalkItem.under [TreePathSegment.int n])),
            post'.map (TreeWalkItem.under [TreePathSegment.int n])
              ++ walkArrayLoop (els.drop (n + 1)) (n + 1) [] ++ [⟨[], false⟩], ?_, ?_, ?_⟩
          · simp only [walkPaths, hloop, hdec, List.map_append, map_under_under]
            simp [List.append_assoc]
          · intro it hit
            rcases List.mem_cons.mp hit with rfl | hit
            · simp
            · rcases List.mem_append.mp hit with hit | hit
              · obtain ⟨j, x, -, hj, hp⟩ := walkArrayLoop_heads _ 0 it hit
                rw [hp, List.cons_prefix_cons]
                rintro ⟨e, -⟩
                simp only [TreePathSegment.int.injEq, Nat.cast_inj] at e
                omega
              · obtain ⟨it0, h0, rfl⟩ := List.mem_map.mp hit
                simp only [TreeWalkItem.under, List.singleton_append, List.cons_prefix_cons,
                  true_and]
                exact hpre it0 h0
          · intro it hit
            rcases List.mem_append.mp hit with hit | hit
            · rcases List.mem_append.mp hit with hit | hit
              · obtain ⟨it0, h0, rfl⟩ := List.mem_map.mp hit
                simp only [TreeWalkItem.under, List.singleton_append, List.cons_prefix_cons,
                  true_and]
                exact hpost it0 h0
              · obtain ⟨j, x, hj, -, hp⟩ := walkArrayLoop_heads _ (n + 1) it hit
                rw [hp, List.cons_prefix_cons]
                rintro ⟨e, -⟩
                simp only [TreePathSegment.int.injEq, Nat.cast_inj] at e
                omega
            · simp only [List.mem_singleton] at hit
              subst hit
              simp
      · simp [hi] at h
  | seg :: r, .map es, c, hw, h => by
    cases seg with
    | int i => simp [Value.getPath] at h
    | string k =>
      simp only [Value.getPath] at h
      cases hel : mapGet es k with
      | none => simp [hel] at h
      | some el =>
        simp only [hel] at h
        simp only [Value.WF] at hw
        obtain ⟨l, rr, rfl, hl, hr⟩ := mapGet_split es k el hw.1 hel
        have hwel : el.WF := WFMap_mem _ hw.2 (k, el) (by simp)
        obtain ⟨pre', post', hdec, hpre, hpost⟩ := walkPaths_at_node r el c hwel h
        have hloop : walkMapLoop (l ++ (k, el) :: rr) []
            = walkMapLoop l []
              ++ ((walkPaths el []).map (TreeWalkItem.under [TreePathSegment.string k])
                ++ walkMapLoop rr []) := by
          rw [walkMapLoop_append]
          simp only [walkMapLoop, List.nil_append]
          rw [walkPaths_under el [TreePathSegment.string k]]
        refine ⟨⟨[], true⟩ :: (walkMapLoop l []
            ++ pre'.map (TreeWalkItem.under [TreePathSegment.string k])),
          post'.map (TreeWalkItem.under [TreePathSegment.string k])
            ++ walkMapLoop rr [] ++ [⟨[], false⟩], ?_, ?_, ?_⟩
        · simp only [walkPaths, hloop, hdec, List.map_append, map_under_under]
          simp [List.append_assoc]
        · intro it hit
          rcases List.mem_cons.mp hit with rfl | hit
          · simp
          · rcases List.mem_append.mp hit with hit | hit
            · obtain ⟨j, x, hj, hp⟩ := walkMapLoop_heads _ it hit
              rw [hp, List.cons_prefix_cons]
              rintro ⟨e, -⟩
              simp only [TreePathSegment.string.injEq] at e
              exact hl (e ▸ hj)
            · obtain ⟨it0, h0, rfl⟩ := List.mem_map.mp hit
              simp only [TreeWalkItem.under, List.singleton_append, List.cons_prefix_cons,
                true_and]
              exact hpre it0 h0
        · intro it hit
          rcases List.mem_append.mp hit with hit | hit
          · rcases List.mem_append.mp hit with hit | hit
            · obtain ⟨it0, h0, rfl⟩ := List.mem_map.mp hit
              simp only [TreeWalkItem.under, List.singleton_append, List.cons_prefix_cons,
                true_and]
              exact hpost it0 h0
            · obtain ⟨j, x, hj, hp⟩ := walkMapLoop_heads _ it hit
              rw [hp, List.cons_prefix_cons]
              rintro ⟨e, -⟩
              simp only [TreePathSegment.string.injEq] at e
              exact hr (e ▸ hj)
          · simp only [List.mem_singleton] at hit
            subst hit
            simp

mutual
/-- Every item of the walk of a document carries the path of a node of the document. -/
theorem walkPaths_node : ∀ (v : Value), v.WF → ∀ it ∈ walkPaths v [],
    (v.getPath it.path).isSome = true
  | .null, _, it, h => by
    simp only [walkPaths, List.mem_cons, List.mem_singleton, List.not_mem_nil, or_false] at h
    rcases h with rfl | rfl <;> simp [Value.getPath]
  | .bool _, _, it, h => by
    simp only [walkPaths, List.mem_cons, List.mem_singleton, List.not_mem_nil, or_false] at h
    rcases h with rfl | rfl <;> simp [Value.getPath]
  | .number _, _, it, h => by
    simp only [walkPaths, List.mem_cons, List.mem_singleton, List.not_mem_nil, or_false] at h
    rcases h with rfl | rfl <;> simp [Value.getPath]
  | .string _, _, it, h => by
    simp only [walkPaths, List.mem_cons, List.mem_singleton, List.not_mem_nil, or_false] at h
    rcases h with rfl | rfl <;> simp [Value.getPath]
  | .array els, hw, it, h => by
    simp only [walkPaths, List.mem_cons, List.mem_append, List.mem_singleton,
      List.not_mem_nil, or_false] at h
    rcases h with rfl | h | rfl
    · simp [Value.getPath]
    · obtain ⟨n, el, r, hel, hp, hs⟩ :=
        walkArrayLoop_node els (by simpa [Value.WF] using hw) 0 it h
      rw [hp]
      simp only [Nat.zero_add] at hel ⊢
      simp [Value.getPath, sliceIndex, hel, hs]
    · simp [Value.getPath]
  | .map es, hw, it, h => by
    simp only [walkPaths, List.mem_cons, List.mem_append, List.mem_singleton,
      List.not_mem_nil, or_false] at h
    simp only [Value.WF] at hw
    rcases h with rfl | h | rfl
    · simp [Value.getPath]
    · obtain ⟨e, r, he, hp, hs⟩ := walkMapLoop_node es hw.2 it h
      rw [hp]
      simp [Value.getPath, mapGet_of_mem es hw.1 e he, hs]
    · simp [Value.getPath]
theorem walkArrayLoop_node : ∀ (els : List Value), WFArray els →
    ∀ (i : Nat) (it : TreeWalkItem), it ∈ walkArrayLoop els i [] →
      ∃ (n : Nat) (el : Value) (r : List TreePathSegment),
        els[n]? = some el ∧ it.path = .int ((i + n : Nat) : Int) :: r ∧
          (el.getPath r).isSome = true
  | [], _, _, it, h => by simp [walkArrayLoop] at h
  | el :: els, hw, i, it, h => by
    simp only [WFArray] at hw
    simp only [walkArrayLoop, List.nil_append, List.mem_append] at h
    rcases h with h | h
    · rw [walkPaths_under] at h
      obtain ⟨it0, h0, rfl⟩ := List.mem_map.mp h
      exact ⟨0, el, it0.path, by simp, rfl, walkPaths_node el hw.1 it0 h0⟩
    · obtain ⟨n, el', r, hel, hp, hs⟩ := walkArrayLoop_node els hw.2 (i + 1) it h
      refine ⟨n + 1, el', r, by simpa using hel, ?_, hs⟩
      rw [hp]
      have : i + 1 + n = i + (n + 1) := by omega
      rw [this]
theorem walkMapLoop_node : ∀ (es : List (String × Value)), WFMap es →
    ∀ (it : TreeWalkItem), it ∈ walkMapLoop es [] →
      ∃ (e : String × Value) (r : List TreePathSegment),
        e ∈ es ∧ it.path = .string e.1 :: r ∧ (e.2.getPath r).isSome = true
  | [], _, it, h => by simp [walkMapLoop] at h
  | (key, el) :: es, hw, it, h => by
    simp only [WFMap] at hw
    simp only [walkMapLoop, List.nil_append, List.mem_append] at h
    rcases h with h | h
    · rw [walkPaths_under] at h
      obtain ⟨it0, h0, rfl⟩ := List.mem_map.mp h
      exact ⟨(key, el), it0.path, by simp, rfl, walkPaths_node el hw.1 it0 h0⟩
    · obtain ⟨e, r, he, hp, hs⟩ := walkMapLoop_node es hw.2 it h
      exact ⟨e, r, List.mem_cons_of_mem _ he, hp, hs⟩
end

/-- The entry and the exit of the element `n` of an array are items of the loop over it. -/
theorem walkArrayLoop_mem (els : List Value) (s n : Nat) (el : Value) (b : Bool)
    (h : els[n]? = some el) :
    (⟨[.int ((s + n : Nat) : Int)], b⟩ : TreeWalkItem) ∈ walkArrayLoop els s [] := by
  obtain ⟨hsplit, hlen, -⟩ := getElem?_split els n el h
  rw [hsplit, walkArrayLoop_append, hlen]
  simp only [walkArrayLoop, List.nil_append]
  rw [walkPaths_under el [TreePathSegment.int _]]
  obtain ⟨mid, hshape, -⟩ := walkPaths_shape el
  rw [hshape]
  apply List.mem_append_right
  apply List.mem_append_left
  cases b <;> simp [TreeWalkItem.under]

/-- The exit of the element `i` of an array comes before the entry of a later element `j`. -/
theorem walkArrayLoop_order (els : List Value) (i j : Nat) (hij : i < j)
    (hj : j < els.length) :
    List.Sublist [(⟨[.int (i : Int)], false⟩ : TreeWalkItem), ⟨[.int (j : Int)], true⟩]
      (walkArrayLoop els 0 []) := by
  have hi : i < els.length := by omega
  have e1 : (els.take (i + 1))[i]? = some els[i] := by
    rw [List.getElem?_take, if_pos (by omega), List.getElem?_eq_getElem hi]
  have e2 : (els.drop (i + 1))[j - (i + 1)]? = some els[j] := by
    rw [List.getElem?_drop]
    have : i + 1 + (j - (i + 1)) = j := by omega
    rw [this, List.getElem?_eq_getElem hj]
  have m1 := walkArrayLoop_mem (els.take (i + 1)) 0 i els[i] false e1
  have m2 := walkArrayLoop_mem (els.drop (i + 1)) (i + 1) (j - (i + 1)) els[j] true e2
  have hlen : (els.take (i + 1)).length = i + 1 := by
    simp [List.length_take]
    omega
  have hsplit : walkArrayLoop els 0 []
      = walkArrayLoop (els.take (i + 1)) 0 [] ++ walkArrayLoop (els.drop (i + 1)) (i + 1) [] := by
    conv_lhs => rw [← List.take_append_drop (i + 1) els]
    rw [walkArrayLoop_append, hlen, Nat.zero_add]
  rw [hsplit]
  have a1 : i + 1 + (j - (i + 1)) = j := by omega
  simp only [Nat.zero_add, a1] at m1 m2
  exact List.Sublist.append (List.singleton_sublist.mpr m1) (List.singleton_sublist.mpr m2)

/-- The walk of a document around one of its nodes: the items ahead of the node, its entry,
the items strictly below it, its exit, and the items after it. -/
theorem getPaths_at_node (data : Value) (hw : data.WF) (q : List TreePathSegment)
    (hq : (data.getPath q).isSome = true) :
    ∃ pre mid post,
      getPaths data = pre ++ ⟨q, true⟩ :: (mid ++ ⟨q, false⟩ :: post) ∧
      (∀ it ∈ mid, q <+: it.path ∧ it.path ≠ q) ∧
      (∀ it ∈ pre, ¬ q <+: it.path) ∧ (∀ it ∈ post, ¬ q <+: it.path) := by
  obtain ⟨c, hc⟩ := Option.isSome_iff_exists.mp hq
  obtain ⟨pre, post, hdec, hpre, hpost⟩ := walkPaths_at_node q data c hw hc
  obtain ⟨mid, hshape, hmid⟩ := walkPaths_shape c
  refine ⟨pre, mid.map (TreeWalkItem.under q), post, ?_, ?_, hpre, hpost⟩
  · rw [getPaths, hdec, hshape]
    simp [TreeWalkItem.under, List.append_assoc]
  · intro it hit
    obtain ⟨it0, h0, rfl⟩ := List.mem_map.mp hit
    refine ⟨List.prefix_append _ _, ?_⟩
    simp only [TreeWalkItem.under, ne_eq, List.append_right_eq_self]
    exact hmid it0 h0

/-- The order of the walk, for the items as they are sent (`getPaths`): for every document (a
value in which no map holds a key twice), the walk begins with the entry of the root and ends
with its exit; it has twice as many items as the document has nodes; every item carries the
path of a node; every node is visited exactly twice, by its entry and later by its exit, all
the items between the two lie strictly below the node and no other item lies at or below it;
and in an array the exit of an element comes before the entry of every later element. What a
receiver reads after the walker has run on is in `getPathsAhead`. -/
theorem walk_order (data : Value) (hw : data.WF) :
    (getPaths data).head? = some ⟨[], true⟩ ∧
    (getPaths data).getLast? = some ⟨[], false⟩ ∧
    (getPaths data).length = 2 * data.nodeCount ∧
    (∀ it ∈ getPaths data, (data.getPath it.path).isSome = true) ∧
    (∀ q, (data.getPath q).isSome = true →
      (getPaths data).countP (fun it => decide (it.path = q)) = 2 ∧
      ∃ pre mid post,
        getPaths data = pre ++ ⟨q, true⟩ :: (mid ++ ⟨q, false⟩ :: post) ∧
        (∀ it ∈ mid, q <+: it.path ∧ it.path ≠ q) ∧
        (∀ it ∈ pre, ¬ q <+: it.path) ∧ (∀ it ∈ post, ¬ q <+: it.path)) ∧
    (∀ (q : List TreePathSegment) (els : List Value) (i j : Nat),
      data.getPath q = some (.array els) → i < j → j < els.length →
        List.Sublist [(⟨q ++ [.int (i : Int)], false⟩ : TreeWalkItem),
          ⟨q ++ [.int (j : Int)], true⟩] (getPaths data)) := by
  refine ⟨?_, ?_, walkPaths_length data [], walkPaths_node data hw, ?_, ?_⟩
  · obtain ⟨mid, hshape, -⟩ := walkPaths_shape data
    rw [getPaths, hshape]
    rfl
  · obtain ⟨mid, hshape, -⟩ := walkPaths_shape data
    rw [getPaths, hshape, ← List.cons_append, List.getLast?_append]
    rfl
  · intro q hq
    obtain ⟨pre, mid, post, hdec, hmid, hpre, hpost⟩ := getPaths_at_node data hw q hq
    refine ⟨?_, pre, mid, post, hdec, hmid, hpre, hpost⟩
    have z1 : pre.countP (fun it => decide (it.path = q)) = 0 := by
      rw [List.countP_eq_zero]
      intro it hit
      simp only [decide_eq_true_eq]
      intro e
      exact hpre it hit (e ▸ List.prefix_refl _)
    have z2 : mid.countP (fun it => decide (it.path = q)) = 0 := by
      rw [List.countP_eq_zero]
      intro it hit
      simp only [decide_eq_true_eq]
      exact (hmid it hit).2
    have z3 : post.countP (fun it => decide (it.path = q)) = 0 := by
      rw [List.countP_eq_zero]
      intro it hit
      simp only [decide_eq_true_eq]
      intro e
      exact hpost it hit (e ▸ List.prefix_refl _)
    rw [hdec]
    simp [List.countP_append, List.countP_cons, z1, z2, z3]
  · intro q els i j hq hij hj
    obtain ⟨pre, post, hdec, -, -⟩ := walkPaths_at_node q data (.array els) hw hq
    rw [getPaths, hdec]
    have h1 := walkArrayLoop_order els i j hij hj
    have h2 : List.Sublist [(⟨q ++ [.int (i : Int)], false⟩ : TreeWalkItem),
        ⟨q ++ [.int (j : Int)], true⟩]
        ((walkPaths (.array els) []).map (TreeWalkItem.under q)) := by
      have h3 := h1.map (TreeWalkItem.under q)
      simp only [List.map_cons, List.map_nil, TreeWalkItem.under] at h3
      refine h3.trans (List.Sublist.map _ ?_)
      simp only [walkPaths]
      exact (List.sublist_append_left _ _).trans (List.sublist_cons_self _ _)
    exact (h2.trans (List.sublist_append_right _ _)).trans (List.sublist_append_left _ _)

theorem walk_order_witness :
    (Value.array [.null, .map [("a", .null)]]).WF ∧
    getPaths (.array [.null, .map [("a", .null)]])
      = [⟨[], true⟩, ⟨[.int 0], true⟩, ⟨[.int 0], false⟩, ⟨[.int 1], true⟩,
          ⟨[.int 1, .string "a"], true⟩, ⟨[.int 1, .string "a"], false⟩,
          ⟨[.int 1], false⟩, ⟨[], false⟩] ∧
    (getPaths (.array [.null, .map [("a", .null)]])).length
      = 2 * (Value.array [.null, .map [("a", .null)]]).nodeCount :=
  have hw : (Value.array [.null, .map [("a", .null)]]).WF := by
    simp [Value.WF, WFArray, WFMap]
  ⟨hw, rfl, (walk_order _ hw).2.2.1⟩

/-! ## The walk on slices, read at the send -/

theorem PathHeap.read_of_frame {h h2 : PathHeap} {s : PathSlice}
    (hs : h.Holds s) (hf : h.Frame h2 s) : h2.read s = h.read s := by
  unfold PathHeap.read
  by_cases ha : s.arr < h.length
  · exact hf.2 s.arr s.len ha (fun _ => le_refl _)
  · have h0 : h.getD s.arr [] = [] := List.getD_eq_default _ _ (not_lt.mp ha)
    have hl : s.len = 0 := by
      have := hs.1
      rw [h0] at this
      simpa using this
    rw [hl]
    simp

theorem PathHeap.holds_of_frame {h h2 : PathHeap} {s : PathSlice}
    (hs : h.Holds s) (hf : h.Frame h2 s) : h2.Holds s := by
  refine ⟨?_, fun hc => lt_of_lt_of_le (hs.2 hc) hf.1⟩
  by_cases ha : s.arr < h.length
  · have e := congrArg List.length (hf.2 s.arr s.len ha (fun _ => le_refl _))
    simp only [List.length_take] at e
    have := hs.1
    omega
  · have h0 : h.getD s.arr [] = [] := List.getD_eq_default _ _ (not_lt.mp ha)
    have := hs.1
    rw [h0] at this
    simp at this
    omega

theorem PathHeap.frame_refl (h : PathHeap) (s : PathSlice) : h.Frame h s :=
  ⟨le_refl _, fun _ _ _ _ => rfl⟩

theorem PathHeap.frame_trans {h h1 h2 : PathHeap} {s : PathSlice}
    (f1 : h.Frame h1 s) (f2 : h1.Frame h2 s) : h.Frame h2 s :=
  ⟨le_trans f1.1 f2.1, fun a n ha hn =>
    (f2.2 a n (lt_of_lt_of_le ha f1.1) hn).trans (f1.2 a n ha hn)⟩

theorem PathHeap.append_read {h : PathHeap} {s : PathSlice} (x : TreePathSegment)
    (hs : h.Holds s) : (h.append s x).1.read (h.append s x).2 = h.read s ++ [x] := by
  unfold PathHeap.append
  split_ifs with hc
  · have ha := hs.2 hc
    simp only [PathHeap.read]
    rw [List.getD_eq_getElem?_getD, List.getElem?_set_self ha]
    simp only [Option.getD_some]
    have hl : ((h.getD s.arr []).take s.len).length = s.len := by
      rw [List.length_take]; exact min_eq_left hs.1
    rw [List.take_append_eq_append_take, hl]
    simp [List.take_take]
  · simp only [PathHeap.read]
    rw [List.getD_eq_getElem?_getD, List.getElem?_append_right (le_refl _)]
    simp only [Nat.sub_self, List.getElem?_cons_zero, Option.getD_some]
    have hl : ((h.getD s.arr []).take s.len).length = s.len := by
      rw [List.length_take]; exact min_eq_left hs.1
    rw [List.take_append_eq_append_take, hl]
    simp [List.take_take]

theorem PathHeap.append_holds {h : PathHeap} {s : PathSlice} (x : TreePathSegment)
    (hs : h.Holds s) : (h.append s x).1.Holds (h.append s x).2 := by
  unfold PathHeap.append
  split_ifs with hc
  · have ha := hs.2 hc
    refine ⟨?_, fun _ => by simpa using ha⟩
    simp only []
    rw [List.getD_eq_getElem?_getD, List.getElem?_set_self ha]
    simp only [Option.getD_some, List.length_append, List.length_take, List.length_cons]
    have := hs.1
    omega
  · refine ⟨?_, fun _ => by simp⟩
    simp only [PathHeap.read]
    rw [List.getD_eq_getElem?_getD, List.getElem?_append_right (le_refl _)]
    simp only [Nat.sub_self, List.getElem?_cons_zero, Option.getD_some, List.length_append,
      List.length_take, List.length_cons, List.length_nil]
    have := hs.1
    omega

theorem PathHeap.frame_child {h h2 : PathHeap} {s : PathSlice} (x : TreePathSegment)
    (hs : h.Holds s) (hf : (h.append s x).1.Frame h2 (h.append s x).2) : h.Frame h2 s := by
  unfold PathHeap.append at hf
  split_ifs at hf with hc
  · have ha := hs.2 hc
    obtain ⟨f1, f2⟩ := hf
    simp only [List.length_set] at f1 f2
    refine ⟨f1, fun a n han hn => ?_⟩
    rw [f2 a n han (fun e => Nat.le_succ_of_le (hn e))]
    by_cases e : a = s.arr
    · have hn2 := hn e
      rw [e, List.getD_eq_getElem?_getD, List.getElem?_set_self ha]
      simp only [Option.getD_some]
      have hl : ((h.getD s.arr []).take s.len).length = s.len := by
        rw [List.length_take]; exact min_eq_left hs.1
      rw [List.take_append_of_le_length (by rw [hl]; exact hn2), List.take_take,
        min_eq_left hn2]
    · rw [List.getD_eq_getElem?_getD, List.getElem?_set_ne (Ne.symm e),
        ← List.getD_eq_getElem?_getD]
  · obtain ⟨f1, f2⟩ := hf
    simp only [List.length_append, List.length_cons, List.length_nil] at f1 f2
    refine ⟨by omega, fun a n han _ => ?_⟩
    rw [f2 a n (by omega) (fun e => by omega)]
    rw [List.getD_eq_getElem?_getD, List.getElem?_append_left han, ← List.getD_eq_getElem?_getD]
theorem readAtSend_append (xs ys : List PathSend) :
    readAtSend (xs ++ ys) = readAtSend xs ++ readAtSend ys := by
  simp [readAtSend]

mutual
/-- The sends of the walk on slices, each read at the send, are the items of `walkPaths`, and
the walk below a slice leaves the cells of that slice as they are. -/
theorem walkSlices_spec : ∀ (v : Value) (s : PathSlice) (h : PathHeap), h.Holds s →
    readAtSend (walkSlices v s h).2 = walkPaths v (h.read s) ∧ h.Frame (walkSlices v s h).1 s
  | .null, s, h, _ => by simp [walkSlices, walkPaths, readAtSend, PathHeap.frame_refl]
  | .bool _, s, h, _ => by simp [walkSlices, walkPaths, readAtSend, PathHeap.frame_refl]
  | .number _, s, h, _ => by simp [walkSlices, walkPaths, readAtSend, PathHeap.frame_refl]
  | .string _, s, h, _ => by simp [walkSlices, walkPaths, readAtSend, PathHeap.frame_refl]
  | .array els, s, h, hs => by
    obtain ⟨e, f⟩ := walkSlicesArray_spec els 0 s h hs
    refine ⟨?_, f⟩
    simp only [walkSlices, walkPaths, readAtSend_append]
    rw [← e]
    simp [readAtSend, PathHeap.read_of_frame hs f]
  | .map es, s, h, hs => by
    obtain ⟨e, f⟩ := walkSlicesMap_spec es s h hs
    refine ⟨?_, f⟩
    simp only [walkSlices, walkPaths, readAtSend_append]
    rw [← e]
    simp [readAtSend, PathHeap.read_of_frame hs f]
theorem walkSlicesArray_spec : ∀ (els : List Value) (i : Nat) (s : PathSlice) (h : PathHeap),
    h.Holds s →
    readAtSend (walkSlicesArray els i s h).2 = walkArrayLoop els i (h.read s) ∧
      h.Frame (walkSlicesArray els i s h).1 s
  | [], _, s, h, _ => by simp [walkSlicesArray, walkArrayLoop, readAtSend, PathHeap.frame_refl]
  | el :: els, i, s, h, hs => by
    obtain ⟨e1, f1⟩ := walkSlices_spec el (h.append s (.int i)).2 (h.append s (.int i)).1
      (PathHeap.append_holds _ hs)
    have f1h := PathHeap.frame_child _ hs f1
    obtain ⟨e2, f2⟩ := walkSlicesArray_spec els (i + 1) s _ (PathHeap.holds_of_frame hs f1h)
    refine ⟨?_, PathHeap.frame_trans f1h f2⟩
    simp only [walkSlicesArray, walkArrayLoop, readAtSend_append]
    rw [e1, e2, PathHeap.append_read _ hs, PathHeap.read_of_frame hs f1h]
theorem walkSlicesMap_spec : ∀ (es : List (String × Value)) (s : PathSlice) (h : PathHeap),
    h.Holds s →
    readAtSend (walkSlicesMap es s h).2 = walkMapLoop es (h.read s) ∧
      h.Frame (walkSlicesMap es s h).1 s
  | [], s, h, _ => by simp [walkSlicesMap, walkMapLoop, readAtSend, PathHeap.frame_refl]
  | (key, el) :: es, s, h, hs => by
    obtain ⟨e1, f1⟩ := walkSlices_spec el (h.append s (.string key)).2
      (h.append s (.string key)).1 (PathHeap.append_holds _ hs)
    have f1h := PathHeap.frame_child _ hs f1
    obtain ⟨e2, f2⟩ := walkSlicesMap_spec es s _ (PathHeap.holds_of_frame hs f1h)
    refine ⟨?_, PathHeap.frame_trans f1h f2⟩
    simp only [walkSlicesMap, walkMapLoop, readAtSend_append]
    rw [e1, e2, PathHeap.append_read _ hs, PathHeap.read_of_frame hs f1h]
end

/-- The items of `getPaths` are the sends of the walk on slices, each read at the send. -/
theorem readAtSend_walkSlices (data : Value) :
    readAtSend (walkSlices data ⟨0, 0, 0⟩ []).2 = getPaths data := by
  have hs : PathHeap.Holds [] ⟨0, 0, 0⟩ := ⟨by simp, fun hc => absurd hc (lt_irrefl 0)⟩
  have := (walkSlices_spec data ⟨0, 0, 0⟩ [] hs).1
  rw [this, getPaths]
  rfl
theorem readAhead_first : ∀ (sends : List PathSend) (final : PathHeap),
    (readAhead sends final).map (fun it => it.first) = sends.map (fun s => s.first)
  | [], _ => rfl
  | [_], _ => rfl
  | s :: t :: rest, final => by
    simp only [readAhead, List.map_cons, readAhead_first (t :: rest) final]

/-- A receiver that the walker overtakes gets as many items as are sent, with the flags that
are sent: only the segments of a path can differ from those of `getPaths`. -/
theorem getPathsAhead_first (data : Value) :
    (getPathsAhead data).map (fun it => it.first) = (getPaths data).map (fun it => it.first) ∧
    (getPathsAhead data).length = (getPaths data).length := by
  have e : (getPathsAhead data).map (fun it => it.first)
      = (getPaths data).map (fun it => it.first) := by
    rw [getPathsAhead, readAhead_first, ← readAtSend_walkSlices, readAtSend, List.map_map]
    rfl
  exact ⟨e, by simpa using congrArg List.length e⟩

/-! ## The slices of the walk share backing arrays -/

set_option maxHeartbeats 4000000 in
theorem printDepthFourProgram_parse :
    (match Lex refLib 30 "*.*.*.* \x7b println(path, $0) \x7d" with
      | .done tokens => Parse refLib 30 tokens
      | .panic msg => .panic msg
      | .outOfFuel => .outOfFuel) = .done printDepthFourProgram :=
  rfl

/-! The texts of the numbers 0, 1 and 2 in the format of `println`. -/

theorem log2_pow52 : Nat.log2 4503599627370496 = 52 := by
  have h : (4503599627370496 : Nat) = 2 ^ 52 := by norm_num
  rw [h, Nat.log2_eq_log_two, Nat.log_pow (by norm_num)]

theorem log2_pow51 : Nat.log2 2251799813685248 = 51 := by
  have h : (2251799813685248 : Nat) = 2 ^ 51 := by norm_num
  rw [h, Nat.log2_eq_log_two, Nat.log_pow (by norm_num)]

theorem decimalExponent_one : RefLib.decimalExponent 4503599627370496 4503599627370496 = 0 := by
  unfold RefLib.decimalExponent
  rw [log2_pow52]
  decide!

theorem decimalExponent_two : RefLib.decimalExponent 4503599627370496 2251799813685248 = 0 := by
  unfold RefLib.decimalExponent
  rw [log2_pow52, log2_pow51]
  decide!

theorem roundDigits_one : RefLib.roundDigits 4503599627370496 4503599627370496 1 = (1, 0) := by
  unfold RefLib.roundDigits
  rw [decimalExponent_one]
  decide!

theorem roundDigits_two : RefLib.roundDigits 4503599627370496 2251799813685248 1 = (2, 0) := by
  unfold RefLib.roundDigits
  rw [decimalExponent_two]
  decide!

theorem refLib_printFloat_zero : refLib.printFloat (F64.ofInt 0) = "0" := by decide!

theorem refLib_printFloat_one : refLib.printFloat F64.one = "1" := by
  have hn : (if 0 ≤ F64.one.exp2 then F64.one.mant * 2 ^ F64.one.exp2.toNat else F64.one.mant)
      = 4503599627370496 := by decide!
  have hd : (if 0 ≤ F64.one.exp2 then 1 else 2 ^ (-F64.one.exp2).toNat)
      = 4503599627370496 := by decide!
  have hs : RefLib.shortestDigits F64.one 4503599627370496 4503599627370496 16 1 = (1, 0) := by
    unfold RefLib.shortestDigits
    rw [roundDigits_one]
    decide!
  show RefLib.formatG F64.one none = "1"
  unfold RefLib.formatG
  simp only [hn, hd, hs]
  decide!

theorem refLib_printFloat_two : refLib.printFloat F64.two = "2" := by
  have hn : (if 0 ≤ F64.two.exp2 then F64.two.mant * 2 ^ F64.two.exp2.toNat else F64.two.mant)
      = 4503599627370496 := by decide!
  have hd : (if 0 ≤ F64.two.exp2 then 1 else 2 ^ (-F64.two.exp2).toNat)
      = 2251799813685248 := by decide!
  have hs : RefLib.shortestDigits F64.two 4503599627370496 2251799813685248 16 1 = (2, 0) := by
    unfold RefLib.shortestDigits
    rw [roundDigits_two]
    decide!
  show RefLib.formatG F64.two none = "2"
  unfold RefLib.formatG
  simp only [hn, hd, hs]
  decide!

theorem F64_ofInt_one : F64.ofInt 1 = F64.one := by decide!

theorem nestedPair_output_ahead :
    (EvalAhead refLib printDepthFourProgram nestedPairDocument).map (fun s => s.out)
      = some "[0, 0, 0, 1] 2\n[0, 0, 0, 1] 2\n" := by
  have h : ∀ L : GoLib,
      (EvalAhead L printDepthFourProgram nestedPairDocument).map (fun s => s.out) = some (("" ++ (subroutinePrintln L [.array [.number (F64.ofInt 0), .number (F64.ofInt 0),
          .number (F64.ofInt 0), .number (F64.ofInt 1)], .number F64.two]).1)
        ++ (subroutinePrintln L [.array [.number (F64.ofInt 0), .number (F64.ofInt 0),
          .number (F64.ofInt 0), .number (F64.ofInt 1)], .number F64.two]).1) := fun _ => rfl
  rw [h refLib]
  simp only [subroutinePrintln, printlnLoop, printSingle, printArrayLoop, F64_ofInt_one,
    refLib_printFloat_zero, refLib_printFloat_one, refLib_printFloat_two]
  decide

theorem nestedPair_output_at_send :
    (Eval refLib printDepthFourProgram nestedPairDocument).map (fun s => s.out)
      = some "[0, 0, 0, 0] 1\n[0, 0, 0, 1] 2\n" := by
  have h : ∀ L : GoLib,
      (Eval L printDepthFourProgram nestedPairDocument).map (fun s => s.out) = some (("" ++ (subroutinePrintln L [.array [.number (F64.ofInt 0), .number (F64.ofInt 0),
          .number (F64.ofInt 0), .number (F64.ofInt 0)], .number F64.one]).1)
        ++ (subroutinePrintln L [.array [.number (F64.ofInt 0), .number (F64.ofInt 0),
          .number (F64.ofInt 0), .number (F64.ofInt 1)], .number F64.two]).1) := fun _ => rfl
  rw [h refLib]
  simp only [subroutinePrintln, printlnLoop, printSingle, printArrayLoop, F64_ofInt_one,
    refLib_printFloat_zero, refLib_printFloat_one, refLib_printFloat_two]
  decide

/-- C11, at the failing input: the program `*.*.*.* { println(path, $0) }` on the document
`[[[[1, 2]]]]`. The walker sends the exit of the first number with the path `[0, 0, 0, 0]`, in a
slice that shares its backing array with the slice of the second number. A receiver that reads
each path at the send gets the items of `getPaths`, and the program prints the two numbers with
their paths. A receiver that the walker overtakes reads `[0, 0, 0, 1]` for the exit of the first
number: the node `[0, 0, 0, 0]` has no exit visit, the node `[0, 0, 0, 1]` has two, and the
program prints `[0, 0, 0, 1] 2` twice. -/
theorem walk_items_share_backing_array :
    (match Lex refLib 30 "*.*.*.* \x7b println(path, $0) \x7d" with
      | .done tokens => Parse refLib 30 tokens
      | .panic msg => .panic msg
      | .outOfFuel => .outOfFuel) = .done printDepthFourProgram ∧
    getPaths nestedPairDocument
      = [⟨[], true⟩, ⟨[.int 0], true⟩, ⟨[.int 0, .int 0], true⟩,
          ⟨[.int 0, .int 0, .int 0], true⟩,
          ⟨[.int 0, .int 0, .int 0, .int 0], true⟩, ⟨[.int 0, .int 0, .int 0, .int 0], false⟩,
          ⟨[.int 0, .int 0, .int 0, .int 1], true⟩, ⟨[.int 0, .int 0, .int 0, .int 1], false⟩,
          ⟨[.int 0, .int 0, .int 0], false⟩, ⟨[.int 0, .int 0], false⟩, ⟨[.int 0], false⟩,
          ⟨[], false⟩] ∧
    readAtSend (walkSlices nestedPairDocument ⟨0, 0, 0⟩ []).2 = getPaths nestedPairDocument ∧
    getPathsAhead nestedPairDocument
      = [⟨[], true⟩, ⟨[.int 0], true⟩, ⟨[.int 0, .int 0], true⟩,
          ⟨[.int 0, .int 0, .int 0], true⟩,
          ⟨[.int 0, .int 0, .int 0, .int 0], true⟩, ⟨[.int 0, .int 0, .int 0, .int 1], false⟩,
          ⟨[.int 0, .int 0, .int 0, .int 1], true⟩, ⟨[.int 0, .int 0, .int 0, .int 1], false⟩,
          ⟨[.int 0, .int 0, .int 0], false⟩, ⟨[.int 0, .int 0], false⟩, ⟨[.int 0], false⟩,
          ⟨[], false⟩] ∧
    (getPathsAhead nestedPairDocument).countP
        (fun it => decide (it.path = [.int 0, .int 0, .int 0, .int 0] ∧ it.first = false)) = 0 ∧
    (getPathsAhead nestedPairDocument).countP
        (fun it => decide (it.path = [.int 0, .int 0, .int 0, .int 1] ∧ it.first = false)) = 2 ∧
    (EvalAhead refLib printDepthFourProgram nestedPairDocument).map (fun s => s.out)
      = some "[0, 0, 0, 1] 2\n[0, 0, 0, 1] 2\n" ∧
    (Eval refLib printDepthFourProgram nestedPairDocument).map (fun s => s.out)
      = some "[0, 0, 0, 0] 1\n[0, 0, 0, 1] 2\n" :=
  ⟨printDepthFourProgram_parse, rfl, rfl, rfl, rfl, rfl, nestedPair_output_ahead,
    nestedPair_output_at_send⟩

/-- On the document `[null, null]` no two slices share a backing array: the receiver reads the
items of `getPaths` also when the walker overtakes it. -/
theorem getPathsAhead_flat_pair :
    getPathsAhead (.array [.null, .null]) = getPaths (.array [.null, .null]) :=
  rfl

/-- On the document `[null, null]` a run does not depend on how far ahead the walker is. -/
theorem EvalAhead_flat_pair (L : GoLib) (program : Program) :
    EvalAhead L program (.array [.null, .null]) = Eval L program (.array [.null, .null]) := by
  rw [EvalAhead, getPathsAhead_flat_pair, Eval]

/-! ## The lexer loses nothing but blanks -/

end Treek
